import Mathlib

/-!
# The S-expression to call-expression compiler of `src/index.js`

A shallow embedding of the four stages of `src/index.js` (`tokenizer`, `parser`,
`traverser`/`transformer`, `codeGenerator`) and of `compile`, with the properties
the specification states about them.

Conventions of the embedding.

* A JavaScript string is a `List Char` (abbreviated `Str`), one entry per code unit.
* `rawCode[current]` and `tokens[current]` are `Option`s: `none` is `undefined`.
* A loop of the source becomes a function that recurses on a fuel argument, one unit
  per iteration, and answers `none` when the fuel is used up.  "The code returns `r`"
  is therefore "from some amount of fuel on, the answer is `some r`", and "the code
  never returns" is "the answer is `none` for every amount of fuel".
* A thrown exception is the `Except.error` of a `JsError`.
-/

namespace Transfer

/-- A JavaScript string, as the list of its code units. -/
abbrev Str := List Char

/-- The two exceptions the program can raise: `new Error(message)`, thrown by the
tokenizer and the parser, and `TypeError`, thrown by the engine when a property of
`undefined` or `null` is read (its message is the engine's and is recorded here as
the expression that was read). -/
inductive JsError where
  | Error (message : Str)
  | TypeError (message : Str)
  deriving DecidableEq

/-! ## Tokenizer -/

/-- The four values of `token.type`. -/
inductive TokenType where
  | parentheses
  | number
  | string
  | name
  deriving DecidableEq

/-- The text of a `token.type`, as the source writes it. -/
def TokenType.text : TokenType → Str
  | .parentheses => "parentheses".toList
  | .number => "number".toList
  | .string => "string".toList
  | .name => "name".toList

/-- A token `{ type, value }`. -/
structure Token where
  type : TokenType
  value : Str
  deriving DecidableEq

/-- JavaScript `ToString` of a character read from the input: the character itself,
or the text `undefined` when the read was out of bounds. -/
def jsToString : Option Char → Str
  | some c => [c]
  | none => "undefined".toList

/-- The characters matched by `\s` in a JavaScript regular expression. -/
def isWhiteSpace (c : Char) : Bool :=
  let n := c.toNat
  n = 0x09 || n = 0x0A || n = 0x0B || n = 0x0C || n = 0x0D || n = 0x20 || n = 0xA0 ||
  n = 0x1680 || (0x2000 ≤ n && n ≤ 0x200A) || n = 0x2028 || n = 0x2029 || n = 0x202F ||
  n = 0x205F || n = 0x3000 || n = 0xFEFF

/-- The characters matched by `[0-9]`. -/
def isNumber (c : Char) : Bool :=
  0x30 ≤ c.toNat && c.toNat ≤ 0x39

/-- The characters matched by `[a-z]` under the `i` flag (without the `u` flag the
case-insensitive comparison never maps a non-ASCII character to an ASCII one). -/
def isLetter (c : Char) : Bool :=
  (0x61 ≤ c.toNat && c.toNat ≤ 0x7A) || (0x41 ≤ c.toNat && c.toNat ≤ 0x5A)

/-- `WHITESPACE.test(char)`: the regular expression is matched against
`ToString(char)` and succeeds when some character of that text is in the class. -/
def WHITESPACE.test (char : Option Char) : Bool := (jsToString char).any isWhiteSpace

/-- `NUMBERS.test(char)`. -/
def NUMBERS.test (char : Option Char) : Bool := (jsToString char).any isNumber

/-- `LETTERS.test(char)`. -/
def LETTERS.test (char : Option Char) : Bool := (jsToString char).any isLetter

/-- The loop `while (NUMBERS.test(char)) { value = value + char; current = current + 1;
char = rawCode[current]; }`; it returns the final `value` and `current`. -/
def numberLoop (rawCode : Str) : Nat → Option Char → Str → Nat → Option (Str × Nat)
  | 0, _, _, _ => none
  | fuel + 1, char, value, current =>
    if NUMBERS.test char then
      numberLoop rawCode fuel rawCode[current + 1]? (value ++ jsToString char) (current + 1)
    else some (value, current)

/-- The loop `while (char !== '"') { value = value + char; current = current + 1;
char = rawCode[current]; }`; it returns the final `value` and `current`. -/
def stringLoop (rawCode : Str) : Nat → Option Char → Str → Nat → Option (Str × Nat)
  | 0, _, _, _ => none
  | fuel + 1, char, value, current =>
    if char ≠ some '"' then
      stringLoop rawCode fuel rawCode[current + 1]? (value ++ jsToString char) (current + 1)
    else some (value, current)

/-- The loop `while (LETTERS.test(char)) { value = value + char; current = current + 1;
char = rawCode[current]; }`; it returns the final `value` and `current`. -/
def nameLoop (rawCode : Str) : Nat → Option Char → Str → Nat → Option (Str × Nat)
  | 0, _, _, _ => none
  | fuel + 1, char, value, current =>
    if LETTERS.test char then
      nameLoop rawCode fuel rawCode[current + 1]? (value ++ jsToString char) (current + 1)
    else some (value, current)

/-- The main loop `while (rawCode.length > current) { ... }` of `tokenizer`, from the
state `current`, `tokens`. -/
def tokenizerLoop (rawCode : Str) : Nat → Nat → List Token → Option (Except JsError (List Token))
  | 0, _, _ => none
  | fuel + 1, current, tokens =>
    if rawCode.length > current then
      let char := rawCode[current]?
      if char = some '(' then
        tokenizerLoop rawCode fuel (current + 1) (tokens ++ [⟨.parentheses, ['(']⟩])
      else if char = some ')' then
        tokenizerLoop rawCode fuel (current + 1) (tokens ++ [⟨.parentheses, [')']⟩])
      else if WHITESPACE.test char then
        tokenizerLoop rawCode fuel (current + 1) tokens
      else if NUMBERS.test char then
        match numberLoop rawCode fuel char [] current with
        | none => none
        | some (value, current) =>
          tokenizerLoop rawCode fuel current (tokens ++ [⟨.number, value⟩])
      else if char = some '"' then
        match stringLoop rawCode fuel rawCode[current + 1]? [] (current + 1) with
        | none => none
        | some (value, current) =>
          tokenizerLoop rawCode fuel (current + 1) (tokens ++ [⟨.string, value⟩])
      else if LETTERS.test char then
        match nameLoop rawCode fuel char [] current with
        | none => none
        | some (value, current) =>
          tokenizerLoop rawCode fuel current (tokens ++ [⟨.name, value⟩])
      else
        some (.error (.Error ("Invalid character: ".toList ++ jsToString char)))
    else some (.ok tokens)

/-- The function `tokenizer`, run with `fuel` loop iterations at its disposal: `none` when
they do not suffice, otherwise the tokens returned or the exception thrown. -/
def tokenizer (fuel : Nat) (rawCode : Str) : Option (Except JsError (List Token)) :=
  tokenizerLoop rawCode fuel 0 []

/-! ## Parser -/

/-- A node of the source tree: `{ type: 'Program', body }`, `{ type: 'NumberLiteral',
value }`, `{ type: 'StringLiteral', value }` or `{ type: 'CallExpression', name, params }`. -/
inductive Node where
  | Program (body : List Node)
  | NumberLiteral (value : Str)
  | StringLiteral (value : Str)
  | CallExpression (name : Str) (params : List Node)

mutual

/-- The function `walk` of `parser`, entered with the cursor at `current`; it returns
the node built and the new cursor.  Reading `token.type` or `token.value` when
`tokens[current]` is `undefined` throws a `TypeError`. -/
def walk (tokens : List Token) : Nat → Nat → Option (Except JsError (Node × Nat))
  | 0, _ => none
  | fuel + 1, current =>
    match tokens[current]? with
    | none => some (.error (.TypeError "token.type".toList))
    | some token =>
      if token.type = .number then
        some (.ok (.NumberLiteral token.value, current + 1))
      else if token.type = .string then
        some (.ok (.StringLiteral token.value, current + 1))
      else if token.type = .parentheses ∧ token.value = ['('] then
        match tokens[current + 1]? with
        | none => some (.error (.TypeError "token.value".toList))
        | some token => walkParams tokens fuel token.value [] (current + 1 + 1)
      else some (.error (.Error token.type.text))

/-- The loop `while ((token.type !== 'parentheses') || (token.type === 'parentheses' &&
token.value !== ')')) { node.params.push(walk()); token = tokens[current]; }` of `walk`
together with the two statements after it, for the node with the given `name` and the
`params` collected so far. -/
def walkParams (tokens : List Token) :
    Nat → Str → List Node → Nat → Option (Except JsError (Node × Nat))
  | 0, _, _, _ => none
  | fuel + 1, name, params, current =>
    match tokens[current]? with
    | none => some (.error (.TypeError "token.type".toList))
    | some token =>
      if token.type ≠ .parentheses ∨ (token.type = .parentheses ∧ token.value ≠ [')']) then
        match walk tokens fuel current with
        | none => none
        | some (.error e) => some (.error e)
        | some (.ok (node, current)) => walkParams tokens fuel name (params ++ [node]) current
      else some (.ok (.CallExpression name params, current + 1))

end

/-- The loop `while (current < tokens.length) { ast.body.push(walk()); }` of `parser`
and the `return ast` after it. -/
def parserLoop (tokens : List Token) : Nat → Nat → List Node → Option (Except JsError Node)
  | 0, _, _ => none
  | fuel + 1, current, body =>
    if current < tokens.length then
      match walk tokens fuel current with
      | none => none
      | some (.error e) => some (.error e)
      | some (.ok (node, current)) => parserLoop tokens fuel current (body ++ [node])
    else some (.ok (.Program body))

/-- The function `parser` on an array of tokens, run with `fuel` calls and loop
iterations at its disposal. -/
def parser (fuel : Nat) (tokens : List Token) : Option (Except JsError Node) :=
  parserLoop tokens fuel 0 []

/-! ## Traverser -/

/-- A source node as a callback of the visitor receives it: the parsed node together
with the `_context` property that a callback may have attached to the object (the
address of an array of the target tree); the property is absent on a node as parsed. -/
structure NodeRef where
  node : Node
  _context : Option Nat

/-- A callback `(node, parent) => { ... }` of a visitor acting on a state `σ`: it may
throw, update the state, and set the `_context` property of `node`; its first result
is the `_context` of `node` when it returns.  `parent` is `none` for `null`. -/
abbrev Callback (σ : Type) := NodeRef → Option NodeRef → σ → Except JsError (Option Nat × σ)

/-- The entry `visitor[type]`: `{ enter, exit }`, either of which may be absent. -/
structure Methods (σ : Type) where
  enter : Option (Callback σ)
  exit : Option (Callback σ)

/-- A visitor: an object with an optional entry for each node type. -/
structure Visitor (σ : Type) where
  Program : Option (Methods σ)
  NumberLiteral : Option (Methods σ)
  StringLiteral : Option (Methods σ)
  CallExpression : Option (Methods σ)

/-- The lookup `visitor[node.type]`. -/
def Visitor.get {σ : Type} (visitor : Visitor σ) : Node → Option (Methods σ)
  | .Program _ => visitor.Program
  | .NumberLiteral _ => visitor.NumberLiteral
  | .StringLiteral _ => visitor.StringLiteral
  | .CallExpression _ _ => visitor.CallExpression

/-- The statement `if (methods && methods.enter) { methods.enter(node, parent); }`, and
the same for `exit`, given the selected callback. -/
def callMethod {σ : Type} (method : Option (Callback σ)) (node : NodeRef)
    (parent : Option NodeRef) (s : σ) : Except JsError (Option Nat × σ) :=
  match method with
  | some f => f node parent s
  | none => .ok (node._context, s)

mutual

/-- The function `traverseNode(node, parent)` of `traverser`; `context` is the
`_context` property of `node` on entry.  The `default` case of the `switch` cannot
arise, `Node` having the four types only. -/
def traverseNode {σ : Type} (visitor : Visitor σ) (node : Node) (context : Option Nat)
    (parent : Option NodeRef) (s : σ) : Except JsError σ :=
  let methods := visitor.get node
  match callMethod (methods.bind Methods.enter) ⟨node, context⟩ parent s with
  | .error e => .error e
  | .ok (context, s) =>
    let children :=
      match node with
      | .Program body => traverseArray visitor body ⟨node, context⟩ s
      | .CallExpression _ params => traverseArray visitor params ⟨node, context⟩ s
      | .NumberLiteral _ => .ok s
      | .StringLiteral _ => .ok s
    match children with
    | .error e => .error e
    | .ok s =>
      match callMethod (methods.bind Methods.exit) ⟨node, context⟩ parent s with
      | .error e => .error e
      | .ok (_, s) => .ok s

/-- The function `traverseArray(array, parent)` of `traverser`: `traverseNode(child,
parent)` for each child in order. -/
def traverseArray {σ : Type} (visitor : Visitor σ) (array : List Node) (parent : NodeRef)
    (s : σ) : Except JsError σ :=
  match array with
  | [] => .ok s
  | child :: rest =>
    match traverseNode visitor child none (some parent) s with
    | .error e => .error e
    | .ok s => traverseArray visitor rest parent s

end

/-- The function `traverser(ast, visitor)`: `traverseNode(ast, null)`; `context` is the
`_context` property of `ast` at the call. -/
def traverser {σ : Type} (ast : Node) (context : Option Nat) (visitor : Visitor σ) (s : σ) :
    Except JsError σ :=
  traverseNode visitor ast context none s

/-! ## Transformer -/

/-- A node of the target tree as the transformer holds it while building: the arrays
`body` and `arguments` are shared by reference between the tree and the `_context`
properties, so a node holds the address of its array in the store. -/
inductive TargetRef where
  | Program (body : Nat)
  | ExpressionStatement (expression : TargetRef)
  | CallExpression (callee : TargetRef) (arguments : Nat)
  | Identifier (name : Str)
  | NumberLiteral (value : Str)
  | StringLiteral (value : Str)

/-- The arrays of the target tree, by address. -/
abbrev Store := List (List TargetRef)

/-- The call `array.push(x)` on the array at `address`. -/
def Store.push : Store → Nat → TargetRef → Store
  | [], _, _ => []
  | array :: rest, 0, x => (array ++ [x]) :: rest
  | array :: rest, address + 1, x => array :: Store.push rest address x

/-- The property `node.value` of a literal node. -/
def Node.value : Node → Str
  | .NumberLiteral value => value
  | .StringLiteral value => value
  | _ => []

/-- The property `node.name` of a call node. -/
def Node.name : Node → Str
  | .CallExpression name _ => name
  | _ => []

/-- The test `parent.type !== 'CallExpression'`. -/
def Node.isCallExpression : Node → Bool
  | .CallExpression _ _ => true
  | _ => false

/-- The statement `parent._context.push(x)`: reading `_context` of `null`, or `push` of
an absent `_context`, throws a `TypeError`. -/
def pushToParent (parent : Option NodeRef) (x : TargetRef) (store : Store) :
    Except JsError Store :=
  match parent with
  | none => .error (.TypeError "parent._context".toList)
  | some parent =>
    match parent._context with
    | none => .error (.TypeError "parent._context.push".toList)
    | some address => .ok (store.push address x)

/-- The callback `NumberLiteral.enter` of the transformer. -/
def numberLiteralEnter : Callback Store := fun node parent store =>
  match pushToParent parent (.NumberLiteral node.node.value) store with
  | .error e => .error e
  | .ok store => .ok (node._context, store)

/-- The callback `StringLiteral.enter` of the transformer. -/
def stringLiteralEnter : Callback Store := fun node parent store =>
  match pushToParent parent (.StringLiteral node.node.value) store with
  | .error e => .error e
  | .ok store => .ok (node._context, store)

/-- The callback `CallExpression.enter` of the transformer: the new `arguments` array
is allocated at the end of the store and becomes the `_context` of `node`; reading
`parent.type` of `null` throws a `TypeError`. -/
def callExpressionEnter : Callback Store := fun node parent store =>
  let arguments := store.length
  let store := store ++ [[]]
  let expression := TargetRef.CallExpression (.Identifier node.node.name) arguments
  match parent with
  | none => .error (.TypeError "parent.type".toList)
  | some parent =>
    let expression :=
      if parent.node.isCallExpression = false then TargetRef.ExpressionStatement expression
      else expression
    match pushToParent (some parent) expression store with
    | .error e => .error e
    | .ok store => .ok (some arguments, store)

/-- The visitor the transformer passes to `traverser`. -/
def transformerVisitor : Visitor Store where
  Program := none
  NumberLiteral := some ⟨some numberLiteralEnter, none⟩
  StringLiteral := some ⟨some stringLiteralEnter, none⟩
  CallExpression := some ⟨some callExpressionEnter, none⟩

/-- The function `transformer(ast)`: `newAst.body` is the array at address `0`, which
is also `ast._context`; the result is `newAst` with the store that holds its arrays. -/
def transformer (ast : Node) : Except JsError (TargetRef × Store) :=
  match traverser ast (some 0) transformerVisitor [[]] with
  | .error e => .error e
  | .ok store => .ok (.Program 0, store)

/-! ## Code generator -/

/-- A node of the target tree, its arrays in place: what `codeGenerator` receives. -/
inductive TargetNode where
  | Program (body : List TargetNode)
  | ExpressionStatement (expression : TargetNode)
  | CallExpression (callee : TargetNode) (arguments : List TargetNode)
  | Identifier (name : Str)
  | NumberLiteral (value : Str)
  | StringLiteral (value : Str)

mutual

/-- The tree that a node held in the store stands for; `fuel` bounds the depth. -/
def TargetRef.read (store : Store) : Nat → TargetRef → Option TargetNode
  | 0, _ => none
  | fuel + 1, .Program body =>
    (Store.readArray store fuel body).map TargetNode.Program
  | fuel + 1, .ExpressionStatement expression =>
    (TargetRef.read store fuel expression).map TargetNode.ExpressionStatement
  | fuel + 1, .CallExpression callee arguments =>
    match TargetRef.read store fuel callee, Store.readArray store fuel arguments with
    | some callee, some arguments => some (.CallExpression callee arguments)
    | _, _ => none
  | _ + 1, .Identifier name => some (.Identifier name)
  | _ + 1, .NumberLiteral value => some (.NumberLiteral value)
  | _ + 1, .StringLiteral value => some (.StringLiteral value)

/-- The trees that the entries of the array at `address` stand for. -/
def Store.readArray (store : Store) : Nat → Nat → Option (List TargetNode)
  | 0, _ => none
  | fuel + 1, address =>
    match store[address]? with
    | none => none
    | some array => array.mapM (TargetRef.read store fuel)

end

/-- The method `array.join(separator)` on an array of strings: the elements in order,
with `separator` before every element but the first. -/
def join (separator : Str) : List Str → Str
  | [] => []
  | first :: rest => rest.foldl (fun r next => r ++ separator ++ next) first

mutual

/-- The function `codeGenerator(node)`.  The `default` case of the `switch` cannot
arise, `TargetNode` having the six types only. -/
def codeGenerator : TargetNode → Str
  | .Program body => join "\n".toList (codeGeneratorMap body)
  | .ExpressionStatement expression => codeGenerator expression ++ ";".toList
  | .CallExpression callee arguments =>
    codeGenerator callee ++ "(".toList ++ join ", ".toList (codeGeneratorMap arguments)
      ++ ")".toList
  | .Identifier name => name
  | .NumberLiteral value => value
  | .StringLiteral value => "\"".toList ++ value ++ "\"".toList

/-- The call `array.map(codeGenerator)`. -/
def codeGeneratorMap : List TargetNode → List Str
  | [] => []
  | node :: rest => codeGenerator node :: codeGeneratorMap rest

end

/-! ## Compiler -/

/-- The function `compile(rawCode)` (its `console.log` calls left out), run with `fuel`
at the disposal of each stage. -/
def compile (fuel : Nat) (rawCode : Str) : Option (Except JsError Str) :=
  match tokenizer fuel rawCode with
  | none => none
  | some (.error e) => some (.error e)
  | some (.ok tokens) =>
    match parser fuel tokens with
    | none => none
    | some (.error e) => some (.error e)
    | some (.ok ast) =>
      match transformer ast with
      | .error e => some (.error e)
      | .ok (newAst, store) =>
        match newAst.read store fuel with
        | none => none
        | some newAst => some (.ok (codeGenerator newAst))

/-! ## The source trees of the specification -/

/-- A source tree as the specification describes it: a number literal, a string literal,
or a call with a name and parameters; these are the nodes found below a `Program`. -/
inductive Tree where
  | number (value : Str)
  | string (value : Str)
  | call (name : Str) (params : List Tree)

mutual

/-- The source node that a tree denotes. -/
def Tree.toNode : Tree → Node
  | .number value => .NumberLiteral value
  | .string value => .StringLiteral value
  | .call name params => .CallExpression name (Tree.toNodes params)

/-- The source nodes that a list of trees denotes, in order. -/
def Tree.toNodes : List Tree → List Node
  | [] => []
  | t :: ts => t.toNode :: Tree.toNodes ts

end

mutual

/-- The flattening of a tree into tokens: a literal is its token; a call is `(`, the
name token, the flattenings of the parameters in order, and `)`. -/
def flatten : Tree → List Token
  | .number value => [⟨.number, value⟩]
  | .string value => [⟨.string, value⟩]
  | .call name params =>
    [⟨.parentheses, ['(']⟩, ⟨.name, name⟩] ++ flattenAll params ++ [⟨.parentheses, [')']⟩]

/-- The concatenation of the flattenings of a list of trees. -/
def flattenAll : List Tree → List Token
  | [] => []
  | t :: ts => flatten t ++ flattenAll ts

end

/-! ## The order of the callbacks, as the specification describes it -/

/-- One invocation of a callback: `enter(node, parent)` or `exit(node, parent)`, with
`none` for the parent `null`. -/
inductive Event where
  | enter (node : Node) (parent : Option Node)
  | exit (node : Node) (parent : Option Node)

/-- The node an invocation is for. -/
def Event.node : Event → Node
  | .enter node _ => node
  | .exit node _ => node

/-- The parent an invocation is given. -/
def Event.parent : Event → Option Node
  | .enter _ parent => parent
  | .exit _ parent => parent

/-- The children of a node: `Program.body`, `CallExpression.params`, none for a literal. -/
def Node.children : Node → List Node
  | .Program body => body
  | .CallExpression _ params => params
  | .NumberLiteral _ => []
  | .StringLiteral _ => []

mutual

/-- The depth-first order of the specification for a node with the given parent: the
enter of the node, then the invocations for its children from left to right, then the
exit of the node. -/
def depthFirst : Node → Option Node → List Event
  | .Program body, parent =>
    .enter (.Program body) parent
      :: (depthFirstAll body (.Program body) ++ [.exit (.Program body) parent])
  | .CallExpression name params, parent =>
    .enter (.CallExpression name params) parent
      :: (depthFirstAll params (.CallExpression name params)
          ++ [.exit (.CallExpression name params) parent])
  | .NumberLiteral value, parent =>
    [.enter (.NumberLiteral value) parent, .exit (.NumberLiteral value) parent]
  | .StringLiteral value, parent =>
    [.enter (.StringLiteral value) parent, .exit (.StringLiteral value) parent]

/-- The depth-first order for the children of `parent`, from left to right. -/
def depthFirstAll : List Node → Node → List Event
  | [], _ => []
  | child :: rest, parent => depthFirst child (some parent) ++ depthFirstAll rest parent

end

mutual

/-- The nodes of a tree, each with its parent, in the order in which a depth-first walk
meets them: one entry for each node of the tree. -/
def occurrences : Node → Option Node → List (Node × Option Node)
  | .Program body, parent => (.Program body, parent) :: occurrencesAll body (.Program body)
  | .CallExpression name params, parent =>
    (.CallExpression name params, parent)
      :: occurrencesAll params (.CallExpression name params)
  | .NumberLiteral value, parent => [(.NumberLiteral value, parent)]
  | .StringLiteral value, parent => [(.StringLiteral value, parent)]

/-- The nodes of the trees below `parent`, each with its parent. -/
def occurrencesAll : List Node → Node → List (Node × Option Node)
  | [], _ => []
  | child :: rest, parent => occurrences child (some parent) ++ occurrencesAll rest parent

end

/-- The node and parent of an invocation of `enter`. -/
def Event.entered : Event → Option (Node × Option Node)
  | .enter node parent => some (node, parent)
  | .exit _ _ => none

/-- The node and parent of an invocation of `exit`. -/
def Event.exited : Event → Option (Node × Option Node)
  | .enter _ _ => none
  | .exit node parent => some (node, parent)

/-- A callback that leaves the `_context` of the nodes alone: it may throw and update
the state. -/
abbrev Observer (σ : Type) := Node → Option Node → σ → Except JsError σ

/-- An observer as a callback of a visitor. -/
def observe {σ : Type} (f : Observer σ) : Callback σ := fun node parent s =>
  match f node.node (parent.map NodeRef.node) s with
  | .error e => .error e
  | .ok s => .ok (node._context, s)

/-- The callbacks `enter` and `exit` for one node type. -/
structure ObserverMethods (σ : Type) where
  enter : Observer σ
  exit : Observer σ

/-- The callbacks of a visitor that defines `enter` and `exit` for all four node types. -/
structure Observers (σ : Type) where
  Program : ObserverMethods σ
  NumberLiteral : ObserverMethods σ
  StringLiteral : ObserverMethods σ
  CallExpression : ObserverMethods σ

/-- The visitor object made of these callbacks. -/
def Observers.visitor {σ : Type} (o : Observers σ) : Visitor σ where
  Program := some ⟨some (observe o.Program.enter), some (observe o.Program.exit)⟩
  NumberLiteral := some ⟨some (observe o.NumberLiteral.enter), some (observe o.NumberLiteral.exit)⟩
  StringLiteral := some ⟨some (observe o.StringLiteral.enter), some (observe o.StringLiteral.exit)⟩
  CallExpression :=
    some ⟨some (observe o.CallExpression.enter), some (observe o.CallExpression.exit)⟩

/-- The callbacks for the type of a node. -/
def Observers.get {σ : Type} (o : Observers σ) : Node → ObserverMethods σ
  | .Program _ => o.Program
  | .NumberLiteral _ => o.NumberLiteral
  | .StringLiteral _ => o.StringLiteral
  | .CallExpression _ _ => o.CallExpression

/-- The effect of one invocation. -/
def Observers.call {σ : Type} (o : Observers σ) : Event → σ → Except JsError σ
  | .enter node parent, s => (o.get node).enter node parent s
  | .exit node parent, s => (o.get node).exit node parent s

/-- The effect of a sequence of invocations made one after the other, up to the first
that throws. -/
def Observers.run {σ : Type} (o : Observers σ) : List Event → σ → Except JsError σ
  | [], s => .ok s
  | e :: es, s =>
    match o.call e s with
    | .error err => .error err
    | .ok s => o.run es s

/-- The callbacks `enter` and `exit` of a visitor for one node type, both defined. -/
structure CallbackMethods (σ : Type) where
  enter : Callback σ
  exit : Callback σ

/-- The callbacks of a visitor that defines `enter` and `exit` for all four node types;
unlike observers they may set the `_context` of the node they are called on. -/
structure Callbacks (σ : Type) where
  Program : CallbackMethods σ
  NumberLiteral : CallbackMethods σ
  StringLiteral : CallbackMethods σ
  CallExpression : CallbackMethods σ

/-- The visitor object made of these callbacks. -/
def Callbacks.visitor {σ : Type} (v : Callbacks σ) : Visitor σ where
  Program := some ⟨some v.Program.enter, some v.Program.exit⟩
  NumberLiteral := some ⟨some v.NumberLiteral.enter, some v.NumberLiteral.exit⟩
  StringLiteral := some ⟨some v.StringLiteral.enter, some v.StringLiteral.exit⟩
  CallExpression := some ⟨some v.CallExpression.enter, some v.CallExpression.exit⟩

/-- The callbacks for the type of a node. -/
def Callbacks.get {σ : Type} (v : Callbacks σ) : Node → CallbackMethods σ
  | .Program _ => v.Program
  | .NumberLiteral _ => v.NumberLiteral
  | .StringLiteral _ => v.StringLiteral
  | .CallExpression _ _ => v.CallExpression

/-- A callback that, besides doing what `f` does, records its own invocation at the end
of a log kept next to the state. -/
def recording {σ : Type} (event : Node → Option Node → Event) (f : Callback σ) :
    Callback (σ × List Event) := fun node parent s =>
  match f node parent s.1 with
  | .error e => .error e
  | .ok (context, s1) => .ok (context, (s1, s.2 ++ [event node.node (parent.map NodeRef.node)]))

/-- The callbacks `v`, each one recording its invocations. -/
def Callbacks.recorded {σ : Type} (v : Callbacks σ) : Callbacks (σ × List Event) where
  Program := ⟨recording .enter v.Program.enter, recording .exit v.Program.exit⟩
  NumberLiteral := ⟨recording .enter v.NumberLiteral.enter, recording .exit v.NumberLiteral.exit⟩
  StringLiteral := ⟨recording .enter v.StringLiteral.enter, recording .exit v.StringLiteral.exit⟩
  CallExpression :=
    ⟨recording .enter v.CallExpression.enter, recording .exit v.CallExpression.exit⟩

/-! ## The target tree of a source tree, as the specification describes it -/

mutual

/-- The structural map `T` of the specification: a literal is carried over, a call
becomes a call with an `Identifier` callee and the arguments mapped in order. -/
def Tree.target : Tree → TargetNode
  | .number value => .NumberLiteral value
  | .string value => .StringLiteral value
  | .call name params => .CallExpression (.Identifier name) (Tree.targets params)

/-- The map `T` on a list of trees, in order. -/
def Tree.targets : List Tree → List TargetNode
  | [] => []
  | t :: ts => t.target :: Tree.targets ts

end

/-- The entry of the target `Program` body for a top-level tree: a call is wrapped in an
`ExpressionStatement`, a literal is not. -/
def Tree.statement : Tree → TargetNode
  | .call name params => .ExpressionStatement (Tree.target (.call name params))
  | .number value => .NumberLiteral value
  | .string value => .StringLiteral value

mutual

/-- The number of nodes of a tree. -/
def Tree.size : Tree → Nat
  | .number _ => 1
  | .string _ => 1
  | .call _ params => 1 + Tree.sizeAll params

/-- The number of nodes of a list of trees. -/
def Tree.sizeAll : List Tree → Nat
  | [] => 0
  | t :: ts => t.size + Tree.sizeAll ts

end

/-! ## The store the transformer leaves behind -/

/-- The array at `address` with `xs` appended: the effect of pushing the entries of `xs`
one after the other. -/
def Store.extend : Store → Nat → List TargetRef → Store
  | [], _, _ => []
  | array :: rest, 0, xs => (array ++ xs) :: rest
  | array :: rest, address + 1, xs => array :: Store.extend rest address xs

mutual

/-- The number of arrays the transformer allocates for a tree: one for each call. -/
def Tree.calls : Tree → Nat
  | .number _ => 0
  | .string _ => 0
  | .call _ params => 1 + Tree.callsAll params

/-- The number of arrays the transformer allocates for a list of trees. -/
def Tree.callsAll : List Tree → Nat
  | [] => 0
  | t :: ts => t.calls + Tree.callsAll ts

end

/-- The node the transformer pushes for a tree whose `arguments` array, if it is a call,
is allocated at `address`; `wrap` tells whether the parent is not a call. -/
def Tree.ref (wrap : Bool) : Tree → Nat → TargetRef
  | .number value, _ => .NumberLiteral value
  | .string value, _ => .StringLiteral value
  | .call name _, address =>
    if wrap then .ExpressionStatement (.CallExpression (.Identifier name) address)
    else .CallExpression (.Identifier name) address

/-- The nodes the transformer pushes for a list of sibling trees when the next free
address is `address`. -/
def Tree.refs (wrap : Bool) : List Tree → Nat → List TargetRef
  | [], _ => []
  | t :: ts, address => t.ref wrap address :: Tree.refs wrap ts (address + t.calls)

mutual

/-- The arrays the transformer has allocated once a tree is traversed, the first of them
at `address`, with their final content. -/
def Tree.arrays : Tree → Nat → Store
  | .number _, _ => []
  | .string _, _ => []
  | .call _ params, address =>
    Tree.refs false params (address + 1) :: Tree.arraysAll params (address + 1)

/-- The arrays the transformer has allocated once a list of sibling trees is traversed. -/
def Tree.arraysAll : List Tree → Nat → Store
  | [], _ => []
  | t :: ts, address => t.arrays address ++ Tree.arraysAll ts (address + t.calls)

end

/-- A statement of the target tree: an `ExpressionStatement` whose expression is a
`CallExpression`. -/
def TargetNode.isStatement : TargetNode → Bool
  | .ExpressionStatement (.CallExpression _ _) => true
  | _ => false

/-- A literal of the target tree: a `NumberLiteral` or a `StringLiteral`. -/
def TargetNode.isLiteral : TargetNode → Bool
  | .NumberLiteral _ => true
  | .StringLiteral _ => true
  | _ => false

/-- A call of the source trees. -/
def Tree.isCall : Tree → Bool
  | .call _ _ => true
  | _ => false

/-! ## The source text and the target text of a tree, as the specification describes them -/

mutual

/-- The source text of a tree: a number is its digits, a string is its content between
double quotes, a call is `(`, the name, each argument preceded by one space, and `)`. -/
def Tree.print : Tree → Str
  | .number value => value
  | .string value => ['"'] ++ value ++ ['"']
  | .call name params => ['('] ++ name ++ Tree.printParams params ++ [')']

/-- The source text of the arguments of a call, each preceded by one space. -/
def Tree.printParams : List Tree → Str
  | [] => []
  | t :: ts => [' '] ++ t.print ++ Tree.printParams ts

end

/-- The source text of a program: its top-level forms separated by one space. -/
def printProgram (forms : List Tree) : Str :=
  [' '].intercalate (forms.map Tree.print)

mutual

/-- The target text of a tree: a number is its digits, a string is its content between
double quotes, a call is the name, `(`, the arguments rendered and separated by a comma
and a space, and `)`. -/
def Tree.render : Tree → Str
  | .number value => value
  | .string value => ['"'] ++ value ++ ['"']
  | .call name params =>
    name ++ ['('] ++ [',', ' '].intercalate (Tree.renderAll params) ++ [')']

/-- The target texts of a list of trees. -/
def Tree.renderAll : List Tree → List Str
  | [] => []
  | t :: ts => t.render :: Tree.renderAll ts

end

/-- The target text of a program: each top-level form rendered and followed by `;`,
these lines joined by a newline. -/
def renderProgram (forms : List Tree) : Str :=
  ['\n'].intercalate (forms.map (fun form => form.render ++ [';']))

mutual

/-- The trees that the source language writes: a number is a non-empty run of digits, a
string has no double quote in its content, the name of a call is a non-empty run of
letters and its arguments are such trees. -/
def Tree.wellFormed : Tree → Bool
  | .number value => !value.isEmpty && value.all isNumber
  | .string value => value.all (fun c => c != '"')
  | .call name params => !name.isEmpty && name.all isLetter && Tree.wellFormedAll params

/-- Every tree of the list is well formed. -/
def Tree.wellFormedAll : List Tree → Bool
  | [] => true
  | t :: ts => t.wellFormed && Tree.wellFormedAll ts

end

/-- From any cursor at which the rest of the input is `rest`, and with the tokens `tokens`
collected so far, the main loop of the tokenizer ends with the answer `r`, given enough
fuel. -/
def Lexes (rawCode rest : Str) (tokens : List Token) (r : Except JsError (List Token)) :
    Prop :=
  ∀ current : Nat, rawCode.drop current = rest →
    ∃ n : Nat, ∀ m : Nat, tokenizerLoop rawCode (n + m) current tokens = some r

/-- The tokens of groups left open, as `walk` reads them: for each group a `(`, the token
it takes as the name, and the flattenings of the complete parameters read before the
next group opens or the tokens end. -/
def unclosed : List (Token × List Tree) → List Token
  | [] => []
  | (name, params) :: inner =>
    ⟨.parentheses, ['(']⟩ :: name :: (flattenAll params ++ unclosed inner)

/-! ## The scanning rules of the specification -/

/-- An answer of the tokenizer with `tokens` put in front of the tokens it returns; an
error stays as it is. -/
def prepend (tokens : List Token) : Except JsError (List Token) → Except JsError (List Token)
  | .ok more => .ok (tokens ++ more)
  | .error e => .error e

/-- The error `new Error("Invalid character: " + char)` of the tokenizer. -/
def invalidCharacter (c : Char) : JsError :=
  .Error ("Invalid character: ".toList ++ [c])

/-- The scanning rules, read off the rest of the input: `Scans rest o` says that from a
cursor with `rest` ahead the rules lead to the outcome `o`, which is `some (.ok tokens)`
for the tokens still to come, `some (.error e)` for an error, and `none` when the rules
never come to an end (a string that is not closed, a name that reaches the end of the
input). -/
inductive Scans : Str → Option (Except JsError (List Token)) → Prop
  | done : Scans [] (some (.ok []))
  | opening (rest : Str) (o : Option (Except JsError (List Token))) :
      Scans rest o → Scans ('(' :: rest) (o.map (prepend [⟨.parentheses, ['(']⟩]))
  | closing (rest : Str) (o : Option (Except JsError (List Token))) :
      Scans rest o → Scans (')' :: rest) (o.map (prepend [⟨.parentheses, [')']⟩]))
  | space (c : Char) (rest : Str) (o : Option (Except JsError (List Token))) :
      isWhiteSpace c = true → Scans rest o → Scans (c :: rest) o
  | number (d : Char) (ds post : Str) (o : Option (Except JsError (List Token))) :
      (∀ x ∈ d :: ds, isNumber x = true) → NUMBERS.test post.head? = false →
      Scans post o → Scans ((d :: ds) ++ post) (o.map (prepend [⟨.number, d :: ds⟩]))
  | string (s post : Str) (o : Option (Except JsError (List Token))) :
      '"' ∉ s → Scans post o →
      Scans ('"' :: (s ++ '"' :: post)) (o.map (prepend [⟨.string, s⟩]))
  | openString (s : Str) : '"' ∉ s → Scans ('"' :: s) none
  | name (l : Char) (ls post : Str) (o : Option (Except JsError (List Token))) :
      (∀ x ∈ l :: ls, isLetter x = true) → LETTERS.test post.head? = false →
      Scans post o → Scans ((l :: ls) ++ post) (o.map (prepend [⟨.name, l :: ls⟩]))
  | openName (l : Char) (ls : Str) :
      (∀ x ∈ l :: ls, isLetter x = true) → Scans (l :: ls) none
  | invalid (c : Char) (rest : Str) :
      c ≠ '(' → c ≠ ')' → isWhiteSpace c = false → isNumber c = false → c ≠ '"' →
      isLetter c = false → Scans (c :: rest) (some (.error (invalidCharacter c)))

/-- The tokenizer returns `r` (tokens, or an error thrown) on `rawCode`: from some amount
of fuel on, that is its answer. -/
def Returns (rawCode : Str) (r : Except JsError (List Token)) : Prop :=
  ∃ n : Nat, ∀ m : Nat, tokenizer (n + m) rawCode = some r

/-- The tokenizer never returns on `rawCode`, whatever the fuel. -/
def NeverReturns (rawCode : Str) : Prop :=
  ∀ fuel : Nat, tokenizer fuel rawCode = none

/-- The outcome of the tokenizer on `rawCode`: `some r` when it returns `r`, `none` when
it never returns. -/
def Outcome (rawCode : Str) : Option (Except JsError (List Token)) → Prop
  | some r => Returns rawCode r
  | none => NeverReturns rawCode

/-- The outcome of the main loop of the tokenizer from any cursor with `rest` ahead and
with `tokens` collected: `some r` when it ends with `tokens` in front of `r`, `none` when
it never ends. -/
def Runs (rawCode rest : Str) (tokens : List Token) :
    Option (Except JsError (List Token)) → Prop
  | some r => Lexes rawCode rest tokens (prepend tokens r)
  | none => ∀ current : Nat, rawCode.drop current = rest →
      ∀ fuel : Nat, tokenizerLoop rawCode fuel current tokens = none

/-- The four shapes of a token: a parenthesis with the text `(` or `)`, a number with a
non-empty text of digits, a name with a non-empty text of letters, a string with a text
that has no double quote. -/
def Token.shaped (t : Token) : Prop :=
  match t.type with
  | .parentheses => t.value = ['('] ∨ t.value = [')']
  | .number => t.value ≠ [] ∧ ∀ c ∈ t.value, isNumber c = true
  | .name => t.value ≠ [] ∧ ∀ c ∈ t.value, isLetter c = true
  | .string => '"' ∉ t.value

/-- A character that the tokenizer does not recognise: neither a parenthesis, nor
white space, nor a digit, nor a double quote, nor a letter. -/
def unrecognised (c : Char) : Prop :=
  c ≠ '(' ∧ c ≠ ')' ∧ isWhiteSpace c = false ∧ isNumber c = false ∧ c ≠ '"'
    ∧ isLetter c = false

/-! ## The argument of the parser -/

/-- What a caller passes to `parser`: an array of tokens, a value that is not an array,
or nothing at all (`undefined`). -/
inductive Argument where
  | array (tokens : List Token)
  | notArray
  | absent

/-- The tokens `parser` works on: the default parameter `tokens = []` stands in for an
absent argument, and `if (!Array.isArray(tokens)) { tokens = []; }` replaces a value that
is not an array. -/
def Argument.tokens : Argument → List Token
  | .array tokens => tokens
  | .notArray => []
  | .absent => []

/-- The function `parser` called with any argument. -/
def parserOf (fuel : Nat) (argument : Argument) : Option (Except JsError Node) :=
  parser fuel argument.tokens

/-! ## Reading the input at a cursor -/

theorem getElem?_of_drop_cons {α : Type} (l : List α) (n : Nat) (c : α) (post : List α)
    (h : l.drop n = c :: post) : l[n]? = some c := by
  induction l generalizing n with
  | nil => simp at h
  | cons a l ih =>
    cases n with
    | zero => simp at h; simp [h.1]
    | succ n => simp at h; simpa using ih n h

theorem drop_succ_of_drop_cons {α : Type} (l : List α) (n : Nat) (c : α) (post : List α)
    (h : l.drop n = c :: post) : l.drop (n + 1) = post := by
  induction l generalizing n with
  | nil => simp at h
  | cons a l ih =>
    cases n with
    | zero => simp at h; simp [h.2]
    | succ n => simp at h; simpa using ih n h

theorem lt_length_of_drop_cons {α : Type} (l : List α) (n : Nat) (c : α) (post : List α)
    (h : l.drop n = c :: post) : n < l.length := by
  by_contra hn
  rw [List.drop_eq_nil_of_le (by omega)] at h
  cases h

theorem getElem?_of_drop_nil {α : Type} (l : List α) (n : Nat)
    (h : l.drop n = []) : l[n]? = none := by
  rw [List.drop_eq_nil_iff] at h
  simp [h]

theorem drop_succ_of_drop_nil {α : Type} (l : List α) (n : Nat)
    (h : l.drop n = []) : l.drop (n + 1) = [] := by
  rw [List.drop_eq_nil_iff] at h ⊢
  omega

theorem getElem?_eq_head?_drop {α : Type} (l : List α) (n : Nat) :
    l[n]? = (l.drop n).head? := by
  rw [List.head?_drop]

/-! ## The character classes -/

theorem NUMBERS_test_some (c : Char) : NUMBERS.test (some c) = isNumber c := by
  simp [NUMBERS.test, jsToString]

theorem LETTERS_test_some (c : Char) : LETTERS.test (some c) = isLetter c := by
  simp [LETTERS.test, jsToString]

theorem WHITESPACE_test_some (c : Char) : WHITESPACE.test (some c) = isWhiteSpace c := by
  simp [WHITESPACE.test, jsToString]

theorem NUMBERS_test_none : NUMBERS.test none = false := by rfl

theorem WHITESPACE_test_none : WHITESPACE.test none = false := by rfl

/-- The text `undefined` contains letters, so the letter class accepts a read past the
end of the input. -/
theorem LETTERS_test_none : LETTERS.test none = true := by rfl

/-! ## The inner loops of the tokenizer -/

/-- The digit loop consumes a run of digits that is followed by a non-digit or by the
end of the input. -/
theorem numberLoop_run (rawCode : Str) (ds post : Str) (hds : ∀ d ∈ ds, isNumber d = true)
    (hpost : NUMBERS.test post.head? = false) :
    ∀ (fuel current : Nat) (value : Str), rawCode.drop current = ds ++ post →
      ds.length < fuel →
      numberLoop rawCode fuel rawCode[current]? value current
        = some (value ++ ds, current + ds.length) := by
  induction ds with
  | nil =>
    intro fuel current value hdrop hfuel
    obtain ⟨fuel, rfl⟩ : ∃ k, fuel = k + 1 := ⟨fuel - 1, by simp at hfuel; omega⟩
    simp only [List.nil_append] at hdrop
    have : rawCode[current]? = post.head? := by rw [getElem?_eq_head?_drop, hdrop]
    simp [numberLoop, this, hpost]
  | cons d ds ih =>
    intro fuel current value hdrop hfuel
    obtain ⟨fuel, rfl⟩ : ∃ k, fuel = k + 1 := ⟨fuel - 1, by simp at hfuel; omega⟩
    have hc := getElem?_of_drop_cons rawCode current d (ds ++ post) hdrop
    have hd := drop_succ_of_drop_cons rawCode current d (ds ++ post) hdrop
    have hnum : NUMBERS.test (some d) = true := by
      rw [NUMBERS_test_some]; exact hds d (List.mem_cons_self _ _)
    rw [hc, numberLoop, if_pos hnum,
      ih (fun x hx => hds x (List.mem_cons_of_mem _ hx)) fuel (current + 1) _ hd
        (by simp at hfuel; omega)]
    simp [jsToString, Nat.add_assoc, Nat.add_comm 1]

/-- The string loop consumes everything up to the next double quote and stops on it. -/
theorem stringLoop_run (rawCode : Str) (s post : Str) (hs : '"' ∉ s) :
    ∀ (fuel current : Nat) (value : Str), rawCode.drop current = s ++ '"' :: post →
      s.length < fuel →
      stringLoop rawCode fuel rawCode[current]? value current
        = some (value ++ s, current + s.length) := by
  induction s with
  | nil =>
    intro fuel current value hdrop hfuel
    obtain ⟨fuel, rfl⟩ : ∃ k, fuel = k + 1 := ⟨fuel - 1, by simp at hfuel; omega⟩
    simp only [List.nil_append] at hdrop
    simp [stringLoop, getElem?_of_drop_cons rawCode current _ _ hdrop]
  | cons c s ih =>
    intro fuel current value hdrop hfuel
    obtain ⟨fuel, rfl⟩ : ∃ k, fuel = k + 1 := ⟨fuel - 1, by simp at hfuel; omega⟩
    have hc := getElem?_of_drop_cons rawCode current c (s ++ '"' :: post) hdrop
    have hd := drop_succ_of_drop_cons rawCode current c (s ++ '"' :: post) hdrop
    have hne : c ≠ '"' := fun h => hs (h ▸ List.mem_cons_self _ _)
    have hne2 : (some c : Option Char) ≠ some '"' := fun h => hne (Option.some.inj h)
    rw [hc, stringLoop, if_pos hne2,
      ih (fun h => hs (List.mem_cons_of_mem _ h)) fuel (current + 1) _ hd
        (by simp at hfuel; omega)]
    simp [jsToString, Nat.add_assoc, Nat.add_comm 1]

/-- The letter loop consumes a run of letters that is followed by a character that is
not a letter. -/
theorem nameLoop_run (rawCode : Str) (ls post : Str) (hls : ∀ l ∈ ls, isLetter l = true)
    (hpost : LETTERS.test post.head? = false) :
    ∀ (fuel current : Nat) (value : Str), rawCode.drop current = ls ++ post →
      ls.length < fuel →
      nameLoop rawCode fuel rawCode[current]? value current
        = some (value ++ ls, current + ls.length) := by
  induction ls with
  | nil =>
    intro fuel current value hdrop hfuel
    obtain ⟨fuel, rfl⟩ : ∃ k, fuel = k + 1 := ⟨fuel - 1, by simp at hfuel; omega⟩
    simp only [List.nil_append] at hdrop
    have : rawCode[current]? = post.head? := by rw [getElem?_eq_head?_drop, hdrop]
    simp [nameLoop, this, hpost]
  | cons d ls ih =>
    intro fuel current value hdrop hfuel
    obtain ⟨fuel, rfl⟩ : ∃ k, fuel = k + 1 := ⟨fuel - 1, by simp at hfuel; omega⟩
    have hc := getElem?_of_drop_cons rawCode current d (ls ++ post) hdrop
    have hd := drop_succ_of_drop_cons rawCode current d (ls ++ post) hdrop
    have hlet : LETTERS.test (some d) = true := by
      rw [LETTERS_test_some]; exact hls d (List.mem_cons_self _ _)
    rw [hc, nameLoop, if_pos hlet,
      ih (fun x hx => hls x (List.mem_cons_of_mem _ hx)) fuel (current + 1) _ hd
        (by simp at hfuel; omega)]
    simp [jsToString, Nat.add_assoc, Nat.add_comm 1]

/-- Once the string loop has no double quote ahead of it, it never stops: past the end
of the input every read is `undefined`, which is not a double quote either. -/
theorem stringLoop_diverges (rawCode : Str) :
    ∀ (fuel current : Nat) (value : Str), '"' ∉ rawCode.drop current →
      stringLoop rawCode fuel rawCode[current]? value current = none := by
  intro fuel
  induction fuel with
  | zero => intro current value _; rfl
  | succ fuel ih =>
    intro current value h
    have hne : rawCode[current]? ≠ some '"' := by
      intro hq
      rw [getElem?_eq_head?_drop] at hq
      exact h (List.mem_of_mem_head? hq)
    rw [stringLoop, if_pos hne]
    apply ih
    intro hmem
    apply h
    rw [← List.drop_drop 1 current] at hmem
    exact List.mem_of_mem_drop hmem

/-- Once the letter loop has only letters ahead of it up to the end of the input, it
never stops: past the end every read is `undefined`, whose text contains letters. -/
theorem nameLoop_diverges (rawCode : Str) :
    ∀ (fuel current : Nat) (value : Str), (∀ c ∈ rawCode.drop current, isLetter c = true) →
      nameLoop rawCode fuel rawCode[current]? value current = none := by
  intro fuel
  induction fuel with
  | zero => intro current value _; rfl
  | succ fuel ih =>
    intro current value h
    have hlet : LETTERS.test rawCode[current]? = true := by
      rw [getElem?_eq_head?_drop]
      cases hd : rawCode.drop current with
      | nil => rfl
      | cons c t =>
        rw [List.head?_cons, LETTERS_test_some]
        exact h c (by rw [hd]; exact List.mem_cons_self _ _)
    rw [nameLoop, if_pos hlet]
    apply ih
    intro c hmem
    apply h
    rw [← List.drop_drop 1 current] at hmem
    exact List.mem_of_mem_drop hmem

/-! ## The classes exclude one another -/

theorem isNumber_not_special (c : Char) (h : isNumber c = true) :
    c ≠ '(' ∧ c ≠ ')' ∧ c ≠ '"' ∧ isWhiteSpace c = false ∧ isLetter c = false := by
  simp only [isNumber, Bool.and_eq_true, decide_eq_true_eq] at h
  refine ⟨?_, ?_, ?_, ?_, ?_⟩
  · rintro rfl; revert h; decide
  · rintro rfl; revert h; decide
  · rintro rfl; revert h; decide
  · simp only [isWhiteSpace, Bool.or_eq_false_iff, Bool.and_eq_false_iff, decide_eq_false_iff_not]
    omega
  · simp only [isLetter, Bool.or_eq_false_iff, Bool.and_eq_false_iff, decide_eq_false_iff_not]
    omega

theorem isLetter_not_special (c : Char) (h : isLetter c = true) :
    c ≠ '(' ∧ c ≠ ')' ∧ c ≠ '"' ∧ isWhiteSpace c = false ∧ isNumber c = false := by
  simp only [isLetter, Bool.or_eq_true, Bool.and_eq_true, decide_eq_true_eq] at h
  refine ⟨?_, ?_, ?_, ?_, ?_⟩
  · rintro rfl; revert h; decide
  · rintro rfl; revert h; decide
  · rintro rfl; revert h; decide
  · simp only [isWhiteSpace, Bool.or_eq_false_iff, Bool.and_eq_false_iff, decide_eq_false_iff_not]
    omega
  · simp only [isNumber, Bool.and_eq_false_iff, decide_eq_false_iff_not]
    omega

theorem isWhiteSpace_not_special (c : Char) (h : isWhiteSpace c = true) :
    c ≠ '(' ∧ c ≠ ')' := by
  constructor
  · rintro rfl; revert h; decide
  · rintro rfl; revert h; decide

/-! ## One turn of the main loop of the tokenizer -/

theorem drop_add_of_drop_append {α : Type} (l : List α) (n : Nat) (a post : List α)
    (h : l.drop n = a ++ post) : l.drop (n + a.length) = post := by
  rw [← List.drop_drop, h, List.drop_left]

theorem tokenizerLoop_end (rawCode : Str) (fuel current : Nat) (tokens : List Token)
    (h : rawCode.drop current = []) :
    tokenizerLoop rawCode (fuel + 1) current tokens = some (.ok tokens) := by
  rw [List.drop_eq_nil_iff] at h
  rw [tokenizerLoop, if_neg (by omega)]

theorem tokenizerLoop_open (rawCode : Str) (fuel current : Nat) (tokens : List Token)
    (post : Str) (h : rawCode.drop current = '(' :: post) :
    tokenizerLoop rawCode (fuel + 1) current tokens
      = tokenizerLoop rawCode fuel (current + 1) (tokens ++ [⟨.parentheses, ['(']⟩]) := by
  rw [tokenizerLoop, if_pos (lt_length_of_drop_cons _ _ _ _ h)]
  simp [getElem?_of_drop_cons _ _ _ _ h]

theorem tokenizerLoop_close (rawCode : Str) (fuel current : Nat) (tokens : List Token)
    (post : Str) (h : rawCode.drop current = ')' :: post) :
    tokenizerLoop rawCode (fuel + 1) current tokens
      = tokenizerLoop rawCode fuel (current + 1) (tokens ++ [⟨.parentheses, [')']⟩]) := by
  rw [tokenizerLoop, if_pos (lt_length_of_drop_cons _ _ _ _ h)]
  simp [getElem?_of_drop_cons _ _ _ _ h]

theorem tokenizerLoop_space (rawCode : Str) (fuel current : Nat) (tokens : List Token)
    (c : Char) (post : Str) (h : rawCode.drop current = c :: post)
    (hc : isWhiteSpace c = true) :
    tokenizerLoop rawCode (fuel + 1) current tokens
      = tokenizerLoop rawCode fuel (current + 1) tokens := by
  obtain ⟨h1, h2⟩ := isWhiteSpace_not_special c hc
  rw [tokenizerLoop, if_pos (lt_length_of_drop_cons _ _ _ _ h)]
  simp [getElem?_of_drop_cons _ _ _ _ h, h1, h2, WHITESPACE_test_some, hc]

theorem tokenizerLoop_number (rawCode : Str) (fuel current : Nat) (tokens : List Token)
    (d : Char) (ds post : Str) (h : rawCode.drop current = (d :: ds) ++ post)
    (hds : ∀ x ∈ d :: ds, isNumber x = true) (hpost : NUMBERS.test post.head? = false)
    (hfuel : (d :: ds).length < fuel) :
    tokenizerLoop rawCode (fuel + 1) current tokens
      = tokenizerLoop rawCode fuel (current + (d :: ds).length)
          (tokens ++ [⟨.number, d :: ds⟩]) := by
  have hd := hds d (List.mem_cons_self _ _)
  obtain ⟨h1, h2, _, h4, _⟩ := isNumber_not_special d hd
  have hrun := numberLoop_run rawCode (d :: ds) post hds hpost fuel current [] h hfuel
  have hc : rawCode[current]? = some d := getElem?_of_drop_cons _ _ _ _ h
  rw [tokenizerLoop, if_pos (lt_length_of_drop_cons _ _ _ _ h)]
  simp only [hrun]
  simp [hc, h1, h2, WHITESPACE_test_some, h4, NUMBERS_test_some, hd]

theorem tokenizerLoop_string (rawCode : Str) (fuel current : Nat) (tokens : List Token)
    (s post : Str) (h : rawCode.drop current = '"' :: (s ++ '"' :: post))
    (hs : '"' ∉ s) (hfuel : s.length < fuel) :
    tokenizerLoop rawCode (fuel + 1) current tokens
      = tokenizerLoop rawCode fuel (current + 1 + s.length + 1)
          (tokens ++ [⟨.string, s⟩]) := by
  have hrun := stringLoop_run rawCode s post hs fuel (current + 1) []
    (drop_succ_of_drop_cons _ _ _ _ h) hfuel
  have hc : rawCode[current]? = some '"' := getElem?_of_drop_cons _ _ _ _ h
  have hw : WHITESPACE.test (some '"') = false := by rfl
  have hn : NUMBERS.test (some '"') = false := by rfl
  rw [tokenizerLoop, if_pos (lt_length_of_drop_cons _ _ _ _ h)]
  simp only [hrun]
  simp [hc, hw, hn]

theorem tokenizerLoop_name (rawCode : Str) (fuel current : Nat) (tokens : List Token)
    (l : Char) (ls post : Str) (h : rawCode.drop current = (l :: ls) ++ post)
    (hls : ∀ x ∈ l :: ls, isLetter x = true) (hpost : LETTERS.test post.head? = false)
    (hfuel : (l :: ls).length < fuel) :
    tokenizerLoop rawCode (fuel + 1) current tokens
      = tokenizerLoop rawCode fuel (current + (l :: ls).length)
          (tokens ++ [⟨.name, l :: ls⟩]) := by
  have hl := hls l (List.mem_cons_self _ _)
  obtain ⟨h1, h2, h3, h4, h5⟩ := isLetter_not_special l hl
  have hrun := nameLoop_run rawCode (l :: ls) post hls hpost fuel current [] h hfuel
  have hc : rawCode[current]? = some l := getElem?_of_drop_cons _ _ _ _ h
  rw [tokenizerLoop, if_pos (lt_length_of_drop_cons _ _ _ _ h)]
  simp only [hrun]
  simp [hc, h1, h2, h3, WHITESPACE_test_some, h4, NUMBERS_test_some, h5, LETTERS_test_some, hl]

/-- A turn that starts on a double quote with no later double quote never ends. -/
theorem tokenizerLoop_string_diverges (rawCode : Str) (fuel current : Nat)
    (tokens : List Token) (s : Str) (h : rawCode.drop current = '"' :: s) (hs : '"' ∉ s) :
    tokenizerLoop rawCode fuel current tokens = none := by
  cases fuel with
  | zero => rfl
  | succ fuel =>
    have hrun := stringLoop_diverges rawCode fuel (current + 1) []
      (by rw [drop_succ_of_drop_cons _ _ _ _ h]; exact hs)
    have hc : rawCode[current]? = some '"' := getElem?_of_drop_cons _ _ _ _ h
    have hw : WHITESPACE.test (some '"') = false := by rfl
    have hn : NUMBERS.test (some '"') = false := by rfl
    rw [tokenizerLoop, if_pos (lt_length_of_drop_cons _ _ _ _ h)]
    simp only [hrun]
    simp [hc, hw, hn]

/-- A turn that starts on a letter with only letters up to the end of the input never
ends. -/
theorem tokenizerLoop_name_diverges (rawCode : Str) (fuel current : Nat)
    (tokens : List Token) (l : Char) (ls : Str) (h : rawCode.drop current = l :: ls)
    (hls : ∀ x ∈ l :: ls, isLetter x = true) :
    tokenizerLoop rawCode fuel current tokens = none := by
  cases fuel with
  | zero => rfl
  | succ fuel =>
    have hl := hls l (List.mem_cons_self _ _)
    obtain ⟨h1, h2, h3, h4, h5⟩ := isLetter_not_special l hl
    have hrun := nameLoop_diverges rawCode fuel current [] (by rw [h]; exact hls)
    have hc : rawCode[current]? = some l := getElem?_of_drop_cons _ _ _ _ h
    rw [tokenizerLoop, if_pos (lt_length_of_drop_cons _ _ _ _ h)]
    simp only [hrun]
    simp [hc, h1, h2, h3, WHITESPACE_test_some, h4, NUMBERS_test_some, h5, LETTERS_test_some, hl]

/-! ## More fuel never changes an answer -/

theorem numberLoop_mono (rawCode : Str) :
    ∀ (fuel : Nat) (char : Option Char) (value : Str) (current : Nat) (r : Str × Nat),
      numberLoop rawCode fuel char value current = some r →
      numberLoop rawCode (fuel + 1) char value current = some r := by
  intro fuel
  induction fuel with
  | zero => intro char value current r h; simp [numberLoop] at h
  | succ fuel ih =>
    intro char value current r h
    rw [numberLoop] at h ⊢
    split
    · rename_i hc; rw [if_pos hc] at h; exact ih _ _ _ _ h
    · rename_i hc; rw [if_neg hc] at h; exact h

theorem stringLoop_mono (rawCode : Str) :
    ∀ (fuel : Nat) (char : Option Char) (value : Str) (current : Nat) (r : Str × Nat),
      stringLoop rawCode fuel char value current = some r →
      stringLoop rawCode (fuel + 1) char value current = some r := by
  intro fuel
  induction fuel with
  | zero => intro char value current r h; simp [stringLoop] at h
  | succ fuel ih =>
    intro char value current r h
    rw [stringLoop] at h ⊢
    split
    · rename_i hc; rw [if_pos hc] at h; exact ih _ _ _ _ h
    · rename_i hc; rw [if_neg hc] at h; exact h

theorem nameLoop_mono (rawCode : Str) :
    ∀ (fuel : Nat) (char : Option Char) (value : Str) (current : Nat) (r : Str × Nat),
      nameLoop rawCode fuel char value current = some r →
      nameLoop rawCode (fuel + 1) char value current = some r := by
  intro fuel
  induction fuel with
  | zero => intro char value current r h; simp [nameLoop] at h
  | succ fuel ih =>
    intro char value current r h
    rw [nameLoop] at h ⊢
    split
    · rename_i hc; rw [if_pos hc] at h; exact ih _ _ _ _ h
    · rename_i hc; rw [if_neg hc] at h; exact h

theorem tokenizerLoop_mono (rawCode : Str) :
    ∀ (fuel current : Nat) (tokens : List Token) (r : Except JsError (List Token)),
      tokenizerLoop rawCode fuel current tokens = some r →
      tokenizerLoop rawCode (fuel + 1) current tokens = some r := by
  intro fuel
  induction fuel with
  | zero => intro current tokens r h; simp [tokenizerLoop] at h
  | succ fuel ih =>
    intro current tokens r h
    rw [tokenizerLoop] at h ⊢
    by_cases hlen : rawCode.length > current
    · rw [if_pos hlen] at h ⊢
      simp only at h ⊢
      by_cases h1 : rawCode[current]? = some '('
      · rw [if_pos h1] at h ⊢; exact ih _ _ _ h
      rw [if_neg h1] at h ⊢
      by_cases h2 : rawCode[current]? = some ')'
      · rw [if_pos h2] at h ⊢; exact ih _ _ _ h
      rw [if_neg h2] at h ⊢
      by_cases h3 : WHITESPACE.test rawCode[current]? = true
      · rw [if_pos h3] at h ⊢; exact ih _ _ _ h
      rw [if_neg h3] at h ⊢
      by_cases h4 : NUMBERS.test rawCode[current]? = true
      · rw [if_pos h4] at h ⊢
        cases hn : numberLoop rawCode fuel rawCode[current]? [] current with
        | none => simp [hn] at h
        | some p =>
          rw [numberLoop_mono rawCode fuel _ _ _ p hn]
          rw [hn] at h
          exact ih _ _ _ h
      rw [if_neg h4] at h ⊢
      by_cases h5 : rawCode[current]? = some '"'
      · rw [if_pos h5] at h ⊢
        cases hn : stringLoop rawCode fuel rawCode[current + 1]? [] (current + 1) with
        | none => simp [hn] at h
        | some p =>
          rw [stringLoop_mono rawCode fuel _ _ _ p hn]
          rw [hn] at h
          exact ih _ _ _ h
      rw [if_neg h5] at h ⊢
      by_cases h6 : LETTERS.test rawCode[current]? = true
      · rw [if_pos h6] at h ⊢
        cases hn : nameLoop rawCode fuel rawCode[current]? [] current with
        | none => simp [hn] at h
        | some p =>
          rw [nameLoop_mono rawCode fuel _ _ _ p hn]
          rw [hn] at h
          exact ih _ _ _ h
      rw [if_neg h6] at h ⊢
      exact h
    · rw [if_neg hlen] at h ⊢
      exact h

theorem tokenizerLoop_mono_add (rawCode : Str) (fuel current : Nat) (tokens : List Token)
    (r : Except JsError (List Token)) (h : tokenizerLoop rawCode fuel current tokens = some r)
    (k : Nat) : tokenizerLoop rawCode (fuel + k) current tokens = some r := by
  induction k with
  | zero => exact h
  | succ k ih => exact tokenizerLoop_mono rawCode _ _ _ _ ih

/-- If the main loop has no answer however much fuel it gets beyond some amount, it has
no answer with any amount. -/
theorem tokenizerLoop_none_of_large (rawCode : Str) (current : Nat) (tokens : List Token)
    (n : Nat) (h : ∀ m, tokenizerLoop rawCode (n + m) current tokens = none) (fuel : Nat) :
    tokenizerLoop rawCode fuel current tokens = none := by
  cases hr : tokenizerLoop rawCode fuel current tokens with
  | none => rfl
  | some r =>
    have h1 := tokenizerLoop_mono_add rawCode fuel current tokens r hr n
    rw [Nat.add_comm, h fuel] at h1
    cases h1

/-! ## Inputs on which the tokenizer never returns -/

/-- An input that opens a string and has no second double quote: the tokenizer never
returns, whatever the fuel. -/
theorem tokenizer_open_string_diverges (s : Str) (hs : '"' ∉ s) (fuel : Nat) :
    tokenizer fuel ('"' :: s) = none :=
  tokenizerLoop_string_diverges _ fuel 0 [] s rfl hs

/-- An input made of a run of digits followed by a run of letters that reaches the end
of the input: the tokenizer never returns, whatever the fuel. -/
theorem tokenizer_digits_letters_diverges (d : Char) (ds : Str) (l : Char) (ls : Str)
    (hds : ∀ x ∈ d :: ds, isNumber x = true) (hls : ∀ x ∈ l :: ls, isLetter x = true)
    (fuel : Nat) : tokenizer fuel ((d :: ds) ++ (l :: ls)) = none := by
  apply tokenizerLoop_none_of_large _ 0 [] ((d :: ds).length + 1 + 1)
  intro m
  have hpost : NUMBERS.test (l :: ls).head? = false := by
    rw [List.head?_cons, NUMBERS_test_some]
    exact (isLetter_not_special l (hls l (List.mem_cons_self _ _))).2.2.2.2
  have hstep := tokenizerLoop_number ((d :: ds) ++ (l :: ls)) ((d :: ds).length + 1 + m) 0 []
    d ds (l :: ls) rfl hds hpost (by omega)
  have hfuel : (d :: ds).length + 1 + 1 + m = (d :: ds).length + 1 + m + 1 := by omega
  rw [hfuel, hstep]
  apply tokenizerLoop_name_diverges _ _ _ _ l ls _ hls
  exact drop_add_of_drop_append _ 0 (d :: ds) (l :: ls) rfl

/-- C2, on the code: on the input `"abc` (an opening double quote and no closing one)
the tokenizer neither returns tokens nor fails with an error; the scan runs past the
end of the input and no amount of fuel brings it to an end. -/
theorem tokenizer_unterminated_string_never_returns :
    ∀ fuel : Nat, tokenizer fuel "\"abc".toList = none :=
  fun fuel => tokenizer_open_string_diverges "abc".toList (by decide) fuel

/-- C3, on the code: on the input `123abc` the tokenizer does not return the two tokens
number `123`, name `abc`; the letter run reaches the end of the input and the scan never
ends, whatever the fuel. -/
theorem tokenizer_123abc_never_returns :
    ∀ fuel : Nat, tokenizer fuel "123abc".toList = none :=
  fun fuel => tokenizer_digits_letters_diverges '1' "23".toList 'a' "bc".toList
    (by decide) (by decide) fuel

/-! ## Parsing a flattened tree -/

theorem toNodes_eq_map (ts : List Tree) : Tree.toNodes ts = ts.map Tree.toNode := by
  induction ts with
  | nil => rfl
  | cons t ts ih => simp [Tree.toNodes, ih]

/-- The flattening of a tree starts with a token on which the parameter loop of `walk`
goes on: it is not a closing parenthesis. -/
theorem flatten_head (t : Tree) :
    ∃ token rest, flatten t = token :: rest ∧
      (token.type ≠ .parentheses ∨ (token.type = .parentheses ∧ token.value ≠ [')'])) := by
  cases t with
  | number value => exact ⟨_, _, rfl, Or.inl (by simp)⟩
  | string value => exact ⟨_, _, rfl, Or.inl (by simp)⟩
  | call name params =>
    exact ⟨⟨.parentheses, ['(']⟩, _, by simp [flatten]; rfl, Or.inr ⟨rfl, by decide⟩⟩

mutual

/-- On the flattening of a tree `walk` returns the node of that tree and moves the cursor
past the flattening. -/
theorem walk_flatten (tokens : List Token) :
    ∀ (t : Tree) (fuel current : Nat) (rest : List Token),
      tokens.drop current = flatten t ++ rest → (flatten t).length ≤ fuel →
      walk tokens fuel current = some (.ok (t.toNode, current + (flatten t).length))
  | .number value, fuel, current, rest, h, hf => by
    obtain ⟨fuel, rfl⟩ : ∃ k, fuel = k + 1 := ⟨fuel - 1, by simp [flatten] at hf; omega⟩
    simp only [flatten, List.singleton_append] at h
    simp [walk, getElem?_of_drop_cons _ _ _ _ h, flatten, Tree.toNode]
  | .string value, fuel, current, rest, h, hf => by
    obtain ⟨fuel, rfl⟩ : ∃ k, fuel = k + 1 := ⟨fuel - 1, by simp [flatten] at hf; omega⟩
    simp only [flatten, List.singleton_append] at h
    simp [walk, getElem?_of_drop_cons _ _ _ _ h, flatten, Tree.toNode]
  | .call name params, fuel, current, rest, h, hf => by
    obtain ⟨fuel, rfl⟩ : ∃ k, fuel = k + 1 := ⟨fuel - 1, by simp [flatten] at hf; omega⟩
    simp only [flatten, List.cons_append, List.nil_append, List.append_assoc] at h
    have h1 := drop_succ_of_drop_cons _ _ _ _ h
    have h2 := drop_succ_of_drop_cons _ _ _ _ h1
    have hp := walkParams_flattenAll tokens params fuel name [] (current + 1 + 1) rest h2
      (by simp [flatten] at hf; omega)
    simp [walk, getElem?_of_drop_cons _ _ _ _ h, getElem?_of_drop_cons _ _ _ _ h1, hp,
      flatten, Tree.toNode]
    omega

/-- On the flattenings of a list of trees followed by `)` the parameter loop of `walk`
collects the nodes of those trees in order and moves the cursor past the `)`. -/
theorem walkParams_flattenAll (tokens : List Token) :
    ∀ (ts : List Tree) (fuel : Nat) (name : Str) (params : List Node) (current : Nat)
      (rest : List Token),
      tokens.drop current = flattenAll ts ++ ⟨.parentheses, [')']⟩ :: rest →
      (flattenAll ts).length + 1 ≤ fuel →
      walkParams tokens fuel name params current
        = some (.ok (.CallExpression name (params ++ Tree.toNodes ts),
            current + (flattenAll ts).length + 1))
  | [], fuel, name, params, current, rest, h, hf => by
    obtain ⟨fuel, rfl⟩ : ∃ k, fuel = k + 1 := ⟨fuel - 1, by omega⟩
    simp only [flattenAll, List.nil_append] at h
    simp [walkParams, getElem?_of_drop_cons _ _ _ _ h, flattenAll, Tree.toNodes]
  | t :: ts, fuel, name, params, current, rest, h, hf => by
    obtain ⟨fuel, rfl⟩ : ∃ k, fuel = k + 1 := ⟨fuel - 1, by omega⟩
    obtain ⟨token, more, hflat, hgo⟩ := flatten_head t
    simp only [flattenAll, List.append_assoc] at h
    have hlen : (flatten t).length = more.length + 1 := by rw [hflat]; rfl
    have hw := walk_flatten tokens t fuel current _ h
      (by simp [flattenAll] at hf; omega)
    have hrest := drop_add_of_drop_append _ _ _ _ h
    have hp := walkParams_flattenAll tokens ts fuel name (params ++ [t.toNode])
      (current + (flatten t).length) rest hrest (by simp [flattenAll] at hf; omega)
    have hc : tokens[current]? = some token := by
      rw [hflat] at h; exact getElem?_of_drop_cons _ _ _ _ h
    rw [walkParams, hc]
    simp only [hw, hp]
    rw [if_pos hgo]
    simp [flattenAll, Tree.toNodes]
    omega

end

/-- On the flattenings of a list of trees that reach the end of the tokens, the main loop
of `parser` appends the nodes of those trees to the body and returns the `Program`. -/
theorem parserLoop_flattenAll (tokens : List Token) :
    ∀ (ts : List Tree) (fuel current : Nat) (body : List Node),
      tokens.drop current = flattenAll ts → (flattenAll ts).length + 1 ≤ fuel →
      parserLoop tokens fuel current body = some (.ok (.Program (body ++ Tree.toNodes ts)))
  | [], fuel, current, body, h, hf => by
    obtain ⟨fuel, rfl⟩ : ∃ k, fuel = k + 1 := ⟨fuel - 1, by omega⟩
    simp only [flattenAll, List.drop_eq_nil_iff] at h
    rw [parserLoop, if_neg (by omega)]
    simp [Tree.toNodes]
  | t :: ts, fuel, current, body, h, hf => by
    obtain ⟨fuel, rfl⟩ : ∃ k, fuel = k + 1 := ⟨fuel - 1, by omega⟩
    obtain ⟨token, more, hflat, -⟩ := flatten_head t
    simp only [flattenAll] at h
    have hlen : (flatten t).length = more.length + 1 := by rw [hflat]; rfl
    have hw := walk_flatten tokens t fuel current _ h (by simp [flattenAll] at hf; omega)
    have hrest := drop_add_of_drop_append _ _ _ _ h
    have hp := parserLoop_flattenAll tokens ts fuel (current + (flatten t).length)
      (body ++ [t.toNode]) hrest (by simp [flattenAll] at hf; omega)
    have hlt : current < tokens.length := by
      rw [hflat] at h; exact lt_length_of_drop_cons _ _ _ _ h
    rw [parserLoop, if_pos hlt]
    simp only [hw, hp]
    simp [Tree.toNodes]

/-- C4: parsing undoes flattening.  For every list `body` of source trees, `parser` on
the concatenation of their flattenings returns `Program` with exactly the nodes of
`body` as its body, in order (with any fuel from the number of tokens plus one on). -/
theorem parser_flattenAll (body : List Tree) :
    ∀ m : Nat, parser ((flattenAll body).length + 1 + m) (flattenAll body)
      = some (.ok (.Program (body.map Tree.toNode))) := by
  intro m
  have h := parserLoop_flattenAll (flattenAll body) body ((flattenAll body).length + 1 + m) 0 []
    rfl (by omega)
  rw [parser, h, toNodes_eq_map]
  rfl

/-! ## The token after an opening parenthesis is not checked -/

/-- C5, on the code: the tokens `(`, `(`, `)` (those of the source text `(()`) hold an
opening parenthesis that no `)` matches, and `parser` returns a `Program` for them
instead of failing: `walk` takes the second `(` as the name of the call. -/
theorem parser_returns_on_unmatched_open :
    ∀ m : Nat,
      tokenizer (4 + m) "(()".toList
        = some (.ok [⟨.parentheses, ['(']⟩, ⟨.parentheses, ['(']⟩, ⟨.parentheses, [')']⟩])
      ∧ parser (4 + m) [⟨.parentheses, ['(']⟩, ⟨.parentheses, ['(']⟩, ⟨.parentheses, [')']⟩]
        = some (.ok (.Program [.CallExpression ['('] []])) := by
  intro m
  constructor
  · exact tokenizerLoop_mono_add "(()".toList 4 0 []
      (.ok [⟨.parentheses, ['(']⟩, ⟨.parentheses, ['(']⟩, ⟨.parentheses, [')']⟩]) rfl m
  · rw [Nat.add_comm]
    simp [parser, parserLoop, walk, walkParams]

/-- C6, on the code: on the source text `(1 2)` the tokenizer and then the parser return
a `Program` whose `CallExpression` has the name `1`, the text of a number token: the
name is not the text of a name token and is not made of letters. -/
theorem parser_takes_number_as_name :
    ∀ m : Nat,
      tokenizer (6 + m) "(1 2)".toList
        = some (.ok [⟨.parentheses, ['(']⟩, ⟨.number, ['1']⟩, ⟨.number, ['2']⟩,
            ⟨.parentheses, [')']⟩])
      ∧ parser (6 + m) [⟨.parentheses, ['(']⟩, ⟨.number, ['1']⟩, ⟨.number, ['2']⟩,
            ⟨.parentheses, [')']⟩]
        = some (.ok (.Program [.CallExpression ['1'] [.NumberLiteral ['2']]])) := by
  intro m
  constructor
  · exact tokenizerLoop_mono_add "(1 2)".toList 6 0 []
      (.ok [⟨.parentheses, ['(']⟩, ⟨.number, ['1']⟩, ⟨.number, ['2']⟩,
        ⟨.parentheses, [')']⟩]) rfl m
  · rw [Nat.add_comm]
    simp [parser, parserLoop, walk, walkParams]

/-! ## Code generator -/

theorem foldl_join_step (separator : Str) (rest : List Str) (acc : Str) :
    rest.foldl (fun r next => r ++ separator ++ next) acc
      = acc ++ (rest.map (fun next => separator ++ next)).flatten := by
  induction rest generalizing acc with
  | nil => simp
  | cons x rest ih =>
    rw [List.foldl_cons, ih]
    simp [List.append_assoc]

theorem join_eq_intercalate (separator : Str) (xs : List Str) :
    join separator xs = separator.intercalate xs := by
  cases xs with
  | nil => rfl
  | cons first rest =>
    rw [join, foldl_join_step]
    induction rest generalizing first with
    | nil => simp [List.intercalate]
    | cons x rest ih =>
      have := ih x
      simp only [List.intercalate, List.intersperse, List.map_cons, List.flatten_cons] at this ⊢
      rw [← this]
      simp [List.append_assoc]

theorem codeGeneratorMap_eq_map (nodes : List TargetNode) :
    codeGeneratorMap nodes = nodes.map codeGenerator := by
  induction nodes with
  | nil => rfl
  | cons n ns ih => simp [codeGeneratorMap, ih]

/-- C9: the text `codeGenerator` returns, for every target tree.  A `Program` is its
body entries rendered and joined with a newline (nothing for an empty body; for a body
with a first entry, that entry followed by a newline and the rendering for each further
entry, so no newline leads or trails); an `ExpressionStatement` is its expression
followed by `;`; a `CallExpression` is its callee, `(`, its arguments rendered and joined
by a comma and a space, and `)`; an `Identifier` is its name; a `NumberLiteral` is its
value; a `StringLiteral` is its value between two double quotes. -/
theorem codeGenerator_renders :
    (∀ body : List TargetNode,
        codeGenerator (.Program body) = "\n".toList.intercalate (body.map codeGenerator))
    ∧ codeGenerator (.Program []) = []
    ∧ (∀ (first : TargetNode) (rest : List TargetNode),
        codeGenerator (.Program (first :: rest))
          = codeGenerator first ++ (rest.map (fun n => '\n' :: codeGenerator n)).flatten)
    ∧ (∀ expression : TargetNode,
        codeGenerator (.ExpressionStatement expression) = codeGenerator expression ++ [';'])
    ∧ (∀ (callee : TargetNode) (arguments : List TargetNode),
        codeGenerator (.CallExpression callee arguments)
          = codeGenerator callee ++ ['('] ++ ", ".toList.intercalate (arguments.map codeGenerator)
              ++ [')'])
    ∧ (∀ name : Str, codeGenerator (.Identifier name) = name)
    ∧ (∀ value : Str, codeGenerator (.NumberLiteral value) = value)
    ∧ (∀ value : Str, codeGenerator (.StringLiteral value) = ['"'] ++ value ++ ['"']) := by
  refine ⟨?_, ?_, ?_, ?_, ?_, ?_, ?_, ?_⟩
  · intro body
    rw [codeGenerator, codeGeneratorMap_eq_map, join_eq_intercalate]
  · rfl
  · intro first rest
    rw [codeGenerator, codeGeneratorMap_eq_map, List.map_cons, join, foldl_join_step,
      List.map_map]
    rfl
  · intro expression; rw [codeGenerator]; rfl
  · intro callee arguments
    rw [codeGenerator, codeGeneratorMap_eq_map, join_eq_intercalate]; rfl
  · intro name; rw [codeGenerator]
  · intro value; rw [codeGenerator]
  · intro value; rw [codeGenerator]; rfl

/-! ## Traverser -/

theorem run_append {σ : Type} (o : Observers σ) (a b : List Event) (s : σ) :
    o.run (a ++ b) s
      = match o.run a s with
        | .error e => .error e
        | .ok s => o.run b s := by
  induction a generalizing s with
  | nil => rfl
  | cons e a ih =>
    simp only [List.cons_append, Observers.run]
    cases o.call e s with
    | error err => rfl
    | ok s1 => exact ih s1

theorem visitor_get {σ : Type} (o : Observers σ) (node : Node) :
    o.visitor.get node
      = some ⟨some (observe (o.get node).enter), some (observe (o.get node).exit)⟩ := by
  cases node <;> rfl

theorem callMethod_observe {σ : Type} (f : Observer σ) (node : NodeRef)
    (parent : Option NodeRef) (s : σ) :
    callMethod (some (observe f)) node parent s
      = match f node.node (parent.map NodeRef.node) s with
        | .error e => .error e
        | .ok s => .ok (node._context, s) := rfl

mutual

/-- With observers as callbacks, `traverseNode` has the effect of the invocations of the
depth-first order made one after the other. -/
theorem traverseNode_observers {σ : Type} (o : Observers σ) :
    ∀ (node : Node) (context : Option Nat) (parent : Option NodeRef) (s : σ),
      traverseNode o.visitor node context parent s
        = o.run (depthFirst node (parent.map NodeRef.node)) s
  | .Program body, context, parent, s => by
    rw [traverseNode, depthFirst]
    simp only [visitor_get, Option.some_bind, callMethod_observe, Observers.run,
      Observers.call, run_append]
    cases (o.get (.Program body)).enter (.Program body) (parent.map NodeRef.node) s with
    | error e => rfl
    | ok s1 =>
      simp only [traverseArray_observers o body ⟨.Program body, context⟩ s1]
      cases o.run (depthFirstAll body (.Program body)) s1 with
      | error e => rfl
      | ok s2 =>
        simp only []
        cases (o.get (.Program body)).exit (.Program body) (parent.map NodeRef.node) s2 with
        | error e => rfl
        | ok s3 => rfl
  | .CallExpression name params, context, parent, s => by
    rw [traverseNode, depthFirst]
    simp only [visitor_get, Option.some_bind, callMethod_observe, Observers.run,
      Observers.call, run_append]
    cases (o.get (.CallExpression name params)).enter (.CallExpression name params)
        (parent.map NodeRef.node) s with
    | error e => rfl
    | ok s1 =>
      simp only [traverseArray_observers o params ⟨.CallExpression name params, context⟩ s1]
      cases o.run (depthFirstAll params (.CallExpression name params)) s1 with
      | error e => rfl
      | ok s2 =>
        simp only []
        cases (o.get (.CallExpression name params)).exit (.CallExpression name params)
            (parent.map NodeRef.node) s2 with
        | error e => rfl
        | ok s3 => rfl
  | .NumberLiteral value, context, parent, s => by
    rw [traverseNode, depthFirst]
    simp only [visitor_get, Option.some_bind, callMethod_observe, Observers.run,
      Observers.call]
    cases (o.get (.NumberLiteral value)).enter (.NumberLiteral value)
        (parent.map NodeRef.node) s with
    | error e => rfl
    | ok s1 =>
      simp only []
      cases (o.get (.NumberLiteral value)).exit (.NumberLiteral value)
          (parent.map NodeRef.node) s1 with
      | error e => rfl
      | ok s3 => rfl
  | .StringLiteral value, context, parent, s => by
    rw [traverseNode, depthFirst]
    simp only [visitor_get, Option.some_bind, callMethod_observe, Observers.run,
      Observers.call]
    cases (o.get (.StringLiteral value)).enter (.StringLiteral value)
        (parent.map NodeRef.node) s with
    | error e => rfl
    | ok s1 =>
      simp only []
      cases (o.get (.StringLiteral value)).exit (.StringLiteral value)
          (parent.map NodeRef.node) s1 with
      | error e => rfl
      | ok s3 => rfl

theorem traverseArray_observers {σ : Type} (o : Observers σ) :
    ∀ (array : List Node) (parent : NodeRef) (s : σ),
      traverseArray o.visitor array parent s = o.run (depthFirstAll array parent.node) s
  | [], parent, s => by
    rw [traverseArray, depthFirstAll]; rfl
  | child :: rest, parent, s => by
    rw [traverseArray, depthFirstAll, run_append,
      traverseNode_observers o child none (some parent) s]
    simp only [Option.map]
    cases o.run (depthFirst child (some parent.node)) s with
    | error e => rfl
    | ok s1 => exact traverseArray_observers o rest parent s1

end


theorem recorded_get {σ : Type} (v : Callbacks σ) (node : Node) :
    v.recorded.get node
      = ⟨recording .enter (v.get node).enter, recording .exit (v.get node).exit⟩ := by
  cases node <;> rfl

theorem callbacks_visitor_get {σ : Type} (v : Callbacks σ) (node : Node) :
    v.visitor.get node = some ⟨some (v.get node).enter, some (v.get node).exit⟩ := by
  cases node <;> rfl

theorem callMethod_recording {σ : Type} (event : Node → Option Node → Event) (f : Callback σ)
    (node : NodeRef) (parent : Option NodeRef) (s : σ × List Event) :
    callMethod (some (recording event f)) node parent s
      = match callMethod (some f) node parent s.1 with
        | .error e => .error e
        | .ok (context, s1) =>
          .ok (context, (s1, s.2 ++ [event node.node (parent.map NodeRef.node)])) := rfl

mutual

theorem traverseNode_recorded {σ : Type} (v : Callbacks σ) :
    ∀ (node : Node) (context : Option Nat) (parent : Option NodeRef) (s : σ)
      (log : List Event),
      traverseNode v.recorded.visitor node context parent (s, log)
        = match traverseNode v.visitor node context parent s with
          | .error e => .error e
          | .ok s1 => .ok (s1, log ++ depthFirst node (parent.map NodeRef.node))
  | .Program body, context, parent, s, log => by
    rw [traverseNode, traverseNode, depthFirst]
    simp only [callbacks_visitor_get, recorded_get, Option.some_bind,
      callMethod_recording]
    cases callMethod (some (v.get (.Program body)).enter) ⟨.Program body, context⟩ parent s with
    | error e => rfl
    | ok r =>
      obtain ⟨c1, s1⟩ := r
      simp only [traverseArray_recorded v body ⟨.Program body, c1⟩ s1]
      cases traverseArray v.visitor body ⟨.Program body, c1⟩ s1 with
      | error e => rfl
      | ok s2 =>
        simp only []
        cases callMethod (some (v.get (.Program body)).exit) ⟨.Program body, c1⟩ parent s2 with
        | error e => rfl
        | ok r3 => simp
  | .CallExpression name params, context, parent, s, log => by
    rw [traverseNode, traverseNode, depthFirst]
    simp only [callbacks_visitor_get, recorded_get, Option.some_bind,
      callMethod_recording]
    cases callMethod (some (v.get (.CallExpression name params)).enter)
        ⟨.CallExpression name params, context⟩ parent s with
    | error e => rfl
    | ok r =>
      obtain ⟨c1, s1⟩ := r
      simp only [traverseArray_recorded v params ⟨.CallExpression name params, c1⟩ s1]
      cases traverseArray v.visitor params ⟨.CallExpression name params, c1⟩ s1 with
      | error e => rfl
      | ok s2 =>
        simp only []
        cases callMethod (some (v.get (.CallExpression name params)).exit)
            ⟨.CallExpression name params, c1⟩ parent s2 with
        | error e => rfl
        | ok r3 => simp
  | .NumberLiteral value, context, parent, s, log => by
    rw [traverseNode, traverseNode, depthFirst]
    simp only [callbacks_visitor_get, recorded_get, Option.some_bind,
      callMethod_recording]
    cases callMethod (some (v.get (.NumberLiteral value)).enter)
        ⟨.NumberLiteral value, context⟩ parent s with
    | error e => rfl
    | ok r =>
      obtain ⟨c1, s1⟩ := r
      simp only []
      cases callMethod (some (v.get (.NumberLiteral value)).exit)
          ⟨.NumberLiteral value, c1⟩ parent s1 with
      | error e => rfl
      | ok r3 => simp
  | .StringLiteral value, context, parent, s, log => by
    rw [traverseNode, traverseNode, depthFirst]
    simp only [callbacks_visitor_get, recorded_get, Option.some_bind,
      callMethod_recording]
    cases callMethod (some (v.get (.StringLiteral value)).enter)
        ⟨.StringLiteral value, context⟩ parent s with
    | error e => rfl
    | ok r =>
      obtain ⟨c1, s1⟩ := r
      simp only []
      cases callMethod (some (v.get (.StringLiteral value)).exit)
          ⟨.StringLiteral value, c1⟩ parent s1 with
      | error e => rfl
      | ok r3 => simp

theorem traverseArray_recorded {σ : Type} (v : Callbacks σ) :
    ∀ (array : List Node) (parent : NodeRef) (s : σ) (log : List Event),
      traverseArray v.recorded.visitor array parent (s, log)
        = match traverseArray v.visitor array parent s with
          | .error e => .error e
          | .ok s1 => .ok (s1, log ++ depthFirstAll array parent.node)
  | [], parent, s, log => by
    rw [traverseArray, traverseArray, depthFirstAll]; simp
  | child :: rest, parent, s, log => by
    rw [traverseArray, traverseArray, depthFirstAll,
      traverseNode_recorded v child none (some parent) s log]
    cases traverseNode v.visitor child none (some parent) s with
    | error e => rfl
    | ok s1 =>
      simp only [traverseArray_recorded v rest parent s1, Option.map, List.append_assoc]

end


/-! ## The depth-first order -/

theorem depthFirstAll_eq (array : List Node) (parent : Node) :
    depthFirstAll array parent = (array.map (fun c => depthFirst c (some parent))).flatten := by
  induction array with
  | nil => rfl
  | cons c cs ih => rw [depthFirstAll, ih]; rfl

theorem depthFirst_eq (node : Node) (parent : Option Node) :
    depthFirst node parent
      = .enter node parent :: (depthFirstAll node.children node ++ [.exit node parent]) := by
  cases node <;> rfl

mutual

theorem entered_depthFirst :
    ∀ (node : Node) (parent : Option Node),
      (depthFirst node parent).filterMap Event.entered = occurrences node parent
  | .Program body, parent => by
    simp [depthFirst, occurrences, Event.entered, List.filterMap_append,
      entered_depthFirstAll body (.Program body)]
  | .CallExpression name params, parent => by
    simp [depthFirst, occurrences, Event.entered, List.filterMap_append,
      entered_depthFirstAll params (.CallExpression name params)]
  | .NumberLiteral value, parent => by
    simp [depthFirst, occurrences, Event.entered]
  | .StringLiteral value, parent => by
    simp [depthFirst, occurrences, Event.entered]

theorem entered_depthFirstAll :
    ∀ (array : List Node) (parent : Node),
      (depthFirstAll array parent).filterMap Event.entered = occurrencesAll array parent
  | [], parent => by simp [depthFirstAll, occurrencesAll]
  | child :: rest, parent => by
    simp [depthFirstAll, occurrencesAll, List.filterMap_append,
      entered_depthFirst child (some parent), entered_depthFirstAll rest parent]

end

mutual

theorem exited_depthFirst :
    ∀ (node : Node) (parent : Option Node),
      ((depthFirst node parent).filterMap Event.exited).Perm (occurrences node parent)
  | .Program body, parent => by
    simp only [depthFirst, occurrences, Event.exited, List.filterMap_cons,
      List.filterMap_append, List.filterMap_nil]
    exact (List.perm_append_comm).trans
      (List.Perm.cons _ (exited_depthFirstAll body (.Program body)))
  | .CallExpression name params, parent => by
    simp only [depthFirst, occurrences, Event.exited, List.filterMap_cons,
      List.filterMap_append, List.filterMap_nil]
    exact (List.perm_append_comm).trans
      (List.Perm.cons _ (exited_depthFirstAll params (.CallExpression name params)))
  | .NumberLiteral value, parent => by
    simp [depthFirst, occurrences, Event.exited]
  | .StringLiteral value, parent => by
    simp [depthFirst, occurrences, Event.exited]

theorem exited_depthFirstAll :
    ∀ (array : List Node) (parent : Node),
      ((depthFirstAll array parent).filterMap Event.exited).Perm (occurrencesAll array parent)
  | [], parent => by simp [depthFirstAll, occurrencesAll]
  | child :: rest, parent => by
    simp only [depthFirstAll, occurrencesAll, List.filterMap_append]
    exact List.Perm.append (exited_depthFirst child (some parent))
      (exited_depthFirstAll rest parent)

end

mutual

theorem parent_depthFirst :
    ∀ (node : Node) (parent : Option Node) (e : Event), e ∈ depthFirst node parent →
      (e.node = node ∧ e.parent = parent) ∨ ∃ p, e.parent = some p ∧ e.node ∈ p.children
  | .Program body, parent, e, h => by
    simp only [depthFirst, List.mem_cons, List.mem_append, List.mem_singleton,
      List.not_mem_nil, or_false] at h
    rcases h with rfl | h | rfl
    · exact Or.inl ⟨rfl, rfl⟩
    · exact Or.inr (parent_depthFirstAll body (.Program body) (fun c hc => hc) e h)
    · exact Or.inl ⟨rfl, rfl⟩
  | .CallExpression name params, parent, e, h => by
    simp only [depthFirst, List.mem_cons, List.mem_append, List.mem_singleton,
      List.not_mem_nil, or_false] at h
    rcases h with rfl | h | rfl
    · exact Or.inl ⟨rfl, rfl⟩
    · exact Or.inr (parent_depthFirstAll params (.CallExpression name params)
        (fun c hc => hc) e h)
    · exact Or.inl ⟨rfl, rfl⟩
  | .NumberLiteral value, parent, e, h => by
    simp only [depthFirst, List.mem_cons, List.mem_singleton, List.not_mem_nil,
      or_false] at h
    rcases h with rfl | rfl <;> exact Or.inl ⟨rfl, rfl⟩
  | .StringLiteral value, parent, e, h => by
    simp only [depthFirst, List.mem_cons, List.mem_singleton, List.not_mem_nil,
      or_false] at h
    rcases h with rfl | rfl <;> exact Or.inl ⟨rfl, rfl⟩

theorem parent_depthFirstAll :
    ∀ (array : List Node) (parent : Node), (∀ c ∈ array, c ∈ parent.children) →
      ∀ e : Event, e ∈ depthFirstAll array parent →
        ∃ p, e.parent = some p ∧ e.node ∈ p.children
  | [], parent, _, e, h => by simp [depthFirstAll] at h
  | child :: rest, parent, hsub, e, h => by
    simp only [depthFirstAll, List.mem_append] at h
    rcases h with h | h
    · rcases parent_depthFirst child (some parent) e h with ⟨h1, h2⟩ | h'
      · exact ⟨parent, h2, h1 ▸ hsub child (List.mem_cons_self _ _)⟩
      · exact h'
    · exact parent_depthFirstAll rest parent
        (fun c hc => hsub c (List.mem_cons_of_mem _ hc)) e h

end

/-- C10: `traverser` invokes the callbacks in depth-first order.  For every source tree
`ast` and every visitor that defines `enter` and `exit` for all four node types:
(1) when each callback also records its invocation, a traversal that completes has
recorded exactly the sequence `depthFirst ast none`, and is otherwise the traversal
without recording; (2) for callbacks that only observe, the traversal is those
invocations made one after the other, up to the first that throws; (3) in that sequence
the enter of a node comes first, then the sequences of its children from left to right,
then its exit; (4) the invocations of `enter` list each node of the tree once, with its
parent, and (5) so do, in another order, the invocations of `exit`; (6) every invocation
other than the enter and exit of the root is given as parent a node, never `null`, and
that node directly contains the node of the invocation, while the root is given `null`. -/
theorem traverser_depth_first {σ : Type} (v : Callbacks σ) (o : Observers σ) (ast : Node)
    (context : Option Nat) (s : σ) (log : List Event) :
    traverser ast context v.recorded.visitor (s, log)
        = (match traverser ast context v.visitor s with
          | .error e => .error e
          | .ok s1 => .ok (s1, log ++ depthFirst ast none))
    ∧ traverser ast context o.visitor s = o.run (depthFirst ast none) s
    ∧ (∀ (node : Node) (parent : Option Node),
        depthFirst node parent
          = .enter node parent
              :: ((node.children.map (fun c => depthFirst c (some node))).flatten
                  ++ [.exit node parent]))
    ∧ (depthFirst ast none).filterMap Event.entered = occurrences ast none
    ∧ ((depthFirst ast none).filterMap Event.exited).Perm (occurrences ast none)
    ∧ (∀ e ∈ (ast.children.map (fun c => depthFirst c (some ast))).flatten,
        ∃ p, e.parent = some p ∧ e.node ∈ p.children) := by
  refine ⟨?_, ?_, ?_, ?_, ?_, ?_⟩
  · exact traverseNode_recorded v ast context none s log
  · exact traverseNode_observers o ast context none s
  · intro node parent
    rw [depthFirst_eq, depthFirstAll_eq]
  · exact entered_depthFirst ast none
  · exact exited_depthFirst ast none
  · intro e he
    rw [← depthFirstAll_eq] at he
    exact parent_depthFirstAll ast.children ast (fun c hc => hc) e he

/-! ## Pushing into the store -/

theorem push_eq_extend (store : Store) (address : Nat) (x : TargetRef) :
    store.push address x = store.extend address [x] := by
  induction store generalizing address with
  | nil => rfl
  | cons array rest ih =>
    cases address with
    | zero => rfl
    | succ address => simp [Store.push, Store.extend, ih]

theorem length_extend (store : Store) (address : Nat) (xs : List TargetRef) :
    (store.extend address xs).length = store.length := by
  induction store generalizing address with
  | nil => rfl
  | cons array rest ih =>
    cases address with
    | zero => rfl
    | succ address => simp [Store.extend, ih]

theorem extend_nil (store : Store) (address : Nat) : store.extend address [] = store := by
  induction store generalizing address with
  | nil => rfl
  | cons array rest ih =>
    cases address with
    | zero => simp [Store.extend]
    | succ address => simp [Store.extend, ih]

theorem extend_extend (store : Store) (address : Nat) (xs ys : List TargetRef) :
    (store.extend address xs).extend address ys = store.extend address (xs ++ ys) := by
  induction store generalizing address with
  | nil => rfl
  | cons array rest ih =>
    cases address with
    | zero => simp [Store.extend]
    | succ address => simp [Store.extend, ih]

theorem extend_append (store more : Store) (address : Nat) (xs : List TargetRef)
    (h : address < store.length) :
    Store.extend (store ++ more) address xs = store.extend address xs ++ more := by
  induction store generalizing address with
  | nil => simp at h
  | cons array rest ih =>
    cases address with
    | zero => rfl
    | succ address =>
      simp only [List.cons_append, Store.extend, List.cons.injEq, true_and]
      exact ih address (by simpa using h)

theorem extend_last (store more : Store) (array xs : List TargetRef) :
    Store.extend (store ++ array :: more) store.length xs = store ++ (array ++ xs) :: more := by
  induction store with
  | nil => rfl
  | cons first rest ih => simp [Store.extend, ih]

theorem length_arrays_all :
    (∀ (t : Tree) (address : Nat), (t.arrays address).length = t.calls)
    ∧ (∀ (ts : List Tree) (address : Nat), (Tree.arraysAll ts address).length = Tree.callsAll ts) := by
  suffices h : ∀ n : Nat,
      (∀ (t : Tree) (address : Nat), t.size ≤ n → (t.arrays address).length = t.calls)
      ∧ (∀ (ts : List Tree) (address : Nat), Tree.sizeAll ts ≤ n →
          (Tree.arraysAll ts address).length = Tree.callsAll ts) from
    ⟨fun t a => (h t.size).1 t a (Nat.le_refl _),
      fun ts a => (h (Tree.sizeAll ts)).2 ts a (Nat.le_refl _)⟩
  intro n
  induction n with
  | zero =>
    constructor
    · intro t address h
      cases t <;> simp [Tree.size] at h
    · intro ts address h
      cases ts with
      | nil => rfl
      | cons t ts =>
        cases t <;> simp [Tree.sizeAll, Tree.size] at h
  | succ n ih =>
    constructor
    · intro t address h
      cases t with
      | number value => rfl
      | string value => rfl
      | call name params =>
        simp only [Tree.size] at h
        simp [Tree.arrays, Tree.calls, ih.2 params (address + 1) (by omega), Nat.add_comm]
    · intro ts address h
      cases ts with
      | nil => rfl
      | cons t ts =>
        simp only [Tree.sizeAll] at h
        have hpos : 1 ≤ t.size := by cases t <;> simp [Tree.size]
        have h1 : (t.arrays address).length = t.calls := by
          cases t with
          | number value => rfl
          | string value => rfl
          | call name params =>
            simp only [Tree.size] at h
            simp [Tree.arrays, Tree.calls, ih.2 params (address + 1) (by omega), Nat.add_comm]
        simp [Tree.arraysAll, Tree.callsAll, h1, ih.2 ts (address + t.calls) (by omega)]

/-! ## What the transformer does to the store -/

theorem transformerVisitor_get_number (value : Str) :
    transformerVisitor.get (.NumberLiteral value) = some ⟨some numberLiteralEnter, none⟩ := rfl

theorem transformerVisitor_get_string (value : Str) :
    transformerVisitor.get (.StringLiteral value) = some ⟨some stringLiteralEnter, none⟩ := rfl

theorem transformerVisitor_get_call (name : Str) (params : List Node) :
    transformerVisitor.get (.CallExpression name params)
      = some ⟨some callExpressionEnter, none⟩ := rfl

theorem isCallExpression_call (name : Str) (params : List Node) :
    (Node.CallExpression name params).isCallExpression = true := rfl

theorem transformerVisitor_get_program (body : List Node) :
    transformerVisitor.get (.Program body) = none := rfl

mutual

theorem traverseNode_transformer :
    ∀ (t : Tree) (parent : NodeRef) (address : Nat) (store : Store),
      parent._context = some address → address < store.length →
      traverseNode transformerVisitor t.toNode none (some parent) store
        = .ok (store.extend address [t.ref (!parent.node.isCallExpression) store.length]
            ++ t.arrays store.length)
  | .number value, parent, address, store, hc, hlt => by
    rw [Tree.toNode, traverseNode]
    simp [transformerVisitor_get_number, callMethod, numberLiteralEnter, pushToParent, hc,
      push_eq_extend, Node.value, Tree.ref, Tree.arrays]
  | .string value, parent, address, store, hc, hlt => by
    rw [Tree.toNode, traverseNode]
    simp [transformerVisitor_get_string, callMethod, stringLiteralEnter, pushToParent, hc,
      push_eq_extend, Node.value, Tree.ref, Tree.arrays]
  | .call name params, parent, address, store, hc, hlt => by
    generalize hr : Tree.ref (!parent.node.isCallExpression) (.call name params) store.length = r
    have hwrap : (if parent.node.isCallExpression = false then
          TargetRef.ExpressionStatement (.CallExpression (.Identifier name) store.length)
        else .CallExpression (.Identifier name) store.length) = r := by
      rw [← hr]; cases parent.node.isCallExpression <;> simp [Tree.ref]
    generalize hs1 : store.extend address [r] = s1
    have hlen : s1.length = store.length := by rw [← hs1]; exact length_extend _ _ _
    have hkids := traverseArray_transformer params
      ⟨.CallExpression name (Tree.toNodes params), some store.length⟩ store.length
      (s1 ++ [[]]) rfl (by simp [hlen])
    have hlast : ∀ R : List TargetRef,
        Store.extend (s1 ++ [[]]) store.length R = s1 ++ [R] := by
      intro R; rw [← hlen]; simpa using extend_last s1 [] [] R
    simp only [isCallExpression_call, Bool.not_true, List.length_append, hlen,
      List.length_singleton, hlast] at hkids
    rw [Tree.toNode, traverseNode]
    simp only [transformerVisitor_get_call, Option.some_bind, callMethod,
      callExpressionEnter, pushToParent, hc, push_eq_extend, Node.name,
      extend_append store [[]] address _ hlt, hwrap, hs1, hkids]
    simp [Tree.arrays]

theorem traverseArray_transformer :
    ∀ (ts : List Tree) (parent : NodeRef) (address : Nat) (store : Store),
      parent._context = some address → address < store.length →
      traverseArray transformerVisitor (Tree.toNodes ts) parent store
        = .ok (store.extend address (Tree.refs (!parent.node.isCallExpression) ts store.length)
            ++ Tree.arraysAll ts store.length)
  | [], parent, address, store, hc, hlt => by
    rw [Tree.toNodes, traverseArray]
    simp [Tree.refs, Tree.arraysAll, extend_nil]
  | t :: ts, parent, address, store, hc, hlt => by
    have h1 := traverseNode_transformer t parent address store hc hlt
    have hlen : (store.extend address [t.ref (!parent.node.isCallExpression) store.length]
        ++ t.arrays store.length).length = store.length + t.calls := by
      simp [length_extend, length_arrays_all.1]
    have h2 := traverseArray_transformer ts parent address
      (store.extend address [t.ref (!parent.node.isCallExpression) store.length]
        ++ t.arrays store.length) hc (by omega)
    rw [Tree.toNodes, traverseArray]
    simp only [h1, h2, hlen]
    rw [extend_append _ _ _ _ (by simp [length_extend]; exact hlt), extend_extend]
    simp [Tree.refs, Tree.arraysAll]

end

/-! ## Reading the target tree back from the store -/

theorem targets_eq_map (ts : List Tree) : Tree.targets ts = ts.map Tree.target := by
  induction ts with
  | nil => rfl
  | cons t ts ih => simp [Tree.targets, ih]

theorem size_pos (t : Tree) : 1 ≤ t.size := by
  cases t <;> simp [Tree.size]

mutual

theorem read_ref (store : Store) :
    ∀ (t : Tree) (address : Nat) (post : Store) (fuel : Nat),
      store.drop address = t.arrays address ++ post → 2 * t.size ≤ fuel →
      (t.ref false address).read store fuel = some t.target
  | .number value, address, post, fuel, h, hf => by
    obtain ⟨fuel, rfl⟩ : ∃ k, fuel = k + 1 := ⟨fuel - 1, by simp [Tree.size] at hf; omega⟩
    simp [Tree.ref, TargetRef.read, Tree.target]
  | .string value, address, post, fuel, h, hf => by
    obtain ⟨fuel, rfl⟩ : ∃ k, fuel = k + 1 := ⟨fuel - 1, by simp [Tree.size] at hf; omega⟩
    simp [Tree.ref, TargetRef.read, Tree.target]
  | .call name params, address, post, fuel, h, hf => by
    obtain ⟨fuel, rfl⟩ : ∃ k, fuel = k + 1 + 1 :=
      ⟨fuel - 2, by simp [Tree.size] at hf; omega⟩
    simp only [Tree.arrays, List.cons_append] at h
    have hk := read_refs store params (address + 1) post fuel
      (drop_succ_of_drop_cons _ _ _ _ h) (by simp [Tree.size] at hf; omega)
    simp only [Tree.ref, Bool.false_eq_true, if_false, TargetRef.read, Store.readArray,
      getElem?_of_drop_cons _ _ _ _ h, hk, Tree.target]

theorem read_refs (store : Store) :
    ∀ (ts : List Tree) (address : Nat) (post : Store) (fuel : Nat),
      store.drop address = Tree.arraysAll ts address ++ post → 2 * Tree.sizeAll ts ≤ fuel →
      (Tree.refs false ts address).mapM (TargetRef.read store fuel) = some (Tree.targets ts)
  | [], address, post, fuel, h, hf => by
    rw [Tree.refs, List.mapM_nil]; rfl
  | t :: ts, address, post, fuel, h, hf => by
    simp only [Tree.arraysAll, List.append_assoc] at h
    have h1 := read_ref store t address _ fuel h (by simp [Tree.sizeAll] at hf; omega)
    have hd := drop_add_of_drop_append _ _ _ _ h
    rw [length_arrays_all.1] at hd
    have h2 := read_refs store ts (address + t.calls) post fuel hd
      (by simp [Tree.sizeAll] at hf; omega)
    rw [Tree.refs, List.mapM_cons, h1, h2]
    rfl

end

theorem read_statements (store : Store) :
    ∀ (ts : List Tree) (address : Nat) (post : Store) (fuel : Nat),
      store.drop address = Tree.arraysAll ts address ++ post → 2 * Tree.sizeAll ts + 1 ≤ fuel →
      (Tree.refs true ts address).mapM (TargetRef.read store fuel)
        = some (ts.map Tree.statement)
  | [], address, post, fuel, h, hf => by
    rw [Tree.refs, List.mapM_nil]; rfl
  | t :: ts, address, post, fuel, h, hf => by
    simp only [Tree.arraysAll, List.append_assoc] at h
    have hd := drop_add_of_drop_append _ _ _ _ h
    rw [length_arrays_all.1] at hd
    have h2 := read_statements store ts (address + t.calls) post fuel hd
      (by simp [Tree.sizeAll] at hf; omega)
    obtain ⟨fuel, rfl⟩ : ∃ k, fuel = k + 1 := ⟨fuel - 1, by omega⟩
    have h1 : (t.ref true address).read store (fuel + 1) = some t.statement := by
      cases t with
      | number value => simp [Tree.ref, TargetRef.read, Tree.statement]
      | string value => simp [Tree.ref, TargetRef.read, Tree.statement]
      | call name params =>
        have := read_ref store (.call name params) address _ fuel h
          (by simp [Tree.sizeAll] at hf; omega)
        simp only [Tree.ref, if_true, Bool.false_eq_true, if_false] at this ⊢
        simp [TargetRef.read, this, Tree.statement]
    rw [Tree.refs, List.mapM_cons, h1, h2]
    rfl

/-- The store and the root that `transformer` returns for a `Program` whose body is the
nodes of the trees `body`. -/
theorem transformer_program (body : List Tree) :
    transformer (.Program (Tree.toNodes body))
      = .ok (.Program 0, Tree.refs true body 1 :: Tree.arraysAll body 1) := by
  have h := traverseArray_transformer body ⟨.Program (Tree.toNodes body), some 0⟩ 0 [[]]
    rfl (by simp)
  rw [transformer, traverser, traverseNode]
  simp only [transformerVisitor_get_program, Option.none_bind, callMethod, h]
  simp [Store.extend, Node.isCallExpression]

theorem read_program (body : List Tree) (m : Nat) :
    (TargetRef.Program 0).read (Tree.refs true body 1 :: Tree.arraysAll body 1)
        (2 * Tree.sizeAll body + 3 + m)
      = some (.Program (body.map Tree.statement)) := by
  have h := read_statements (Tree.refs true body 1 :: Tree.arraysAll body 1) body 1 []
    (2 * Tree.sizeAll body + 1 + m) (by simp) (by omega)
  have hf : 2 * Tree.sizeAll body + 3 + m = (2 * Tree.sizeAll body + 1 + m) + 1 + 1 := by omega
  rw [hf, TargetRef.read, Store.readArray]
  simp only [List.getElem?_cons_zero, h, Option.map_some']

/-! ## What the parser can return -/

theorem toNodes_append (ts : List Tree) (t : Tree) :
    Tree.toNodes (ts ++ [t]) = Tree.toNodes ts ++ [t.toNode] := by
  simp [toNodes_eq_map]

/-- Whatever the tokens, a node that `walk` returns is the node of a source tree, and so
is one that its parameter loop returns from parameters that are nodes of source trees. -/
theorem walk_returns_tree (tokens : List Token) :
    ∀ fuel : Nat,
      (∀ (current : Nat) (node : Node) (next : Nat),
        walk tokens fuel current = some (.ok (node, next)) → ∃ t : Tree, node = t.toNode)
      ∧ (∀ (name : Str) (ts : List Tree) (current : Nat) (node : Node) (next : Nat),
        walkParams tokens fuel name (Tree.toNodes ts) current = some (.ok (node, next)) →
          ∃ t : Tree, node = t.toNode) := by
  intro fuel
  induction fuel with
  | zero =>
    constructor
    · intro current node next h; simp [walk] at h
    · intro name ts current node next h; simp [walkParams] at h
  | succ fuel ih =>
    constructor
    · intro current node next h
      rw [walk] at h
      split at h
      · simp at h
      · rename_i token _
        split at h
        · simp only [Option.some.injEq, Except.ok.injEq, Prod.mk.injEq] at h
          exact ⟨.number token.value, h.1.symm⟩
        · split at h
          · simp only [Option.some.injEq, Except.ok.injEq, Prod.mk.injEq] at h
            exact ⟨.string token.value, h.1.symm⟩
          · split at h
            · split at h
              · simp at h
              · rename_i nameToken _
                exact ih.2 nameToken.value [] _ node next h
            · simp at h
    · intro name ts current node next h
      rw [walkParams] at h
      split at h
      · simp at h
      · split at h
        · split at h
          · simp at h
          · simp at h
          · rename_i child mid hw
            obtain ⟨t, rfl⟩ := ih.1 _ _ _ hw
            rw [← toNodes_append] at h
            exact ih.2 name (ts ++ [t]) _ node next h
        · simp only [Option.some.injEq, Except.ok.injEq, Prod.mk.injEq] at h
          exact ⟨.call name ts, by rw [Tree.toNode]; exact h.1.symm⟩

theorem parserLoop_returns_trees (tokens : List Token) :
    ∀ (fuel current : Nat) (ts : List Tree) (ast : Node),
      parserLoop tokens fuel current (Tree.toNodes ts) = some (.ok ast) →
      ∃ body : List Tree, ast = .Program (Tree.toNodes body) := by
  intro fuel
  induction fuel with
  | zero => intro current ts ast h; simp [parserLoop] at h
  | succ fuel ih =>
    intro current ts ast h
    rw [parserLoop] at h
    split at h
    · split at h
      · simp at h
      · simp at h
      · rename_i child mid hw
        obtain ⟨t, rfl⟩ := (walk_returns_tree tokens fuel).1 _ _ _ hw
        rw [← toNodes_append] at h
        exact ih _ _ _ h
    · simp only [Option.some.injEq, Except.ok.injEq] at h
      exact ⟨ts, h.symm⟩

/-- A `Program` that `parser` returns has the nodes of source trees as its body. -/
theorem parser_returns_trees (fuel : Nat) (tokens : List Token) (ast : Node)
    (h : parser fuel tokens = some (.ok ast)) :
    ∃ body : List Tree, ast = .Program (body.map Tree.toNode) := by
  obtain ⟨body, hb⟩ := parserLoop_returns_trees tokens fuel 0 [] ast h
  exact ⟨body, by rw [hb, toNodes_eq_map]⟩

/-! ## Transformer -/

/-- C8: `transformer` is the structural map `T`.  For every source `Program` whose body
is the nodes of the trees `body`, `transformer` returns a target `Program` that reads as
the body mapped in order, where a call becomes the `ExpressionStatement` of its image
under `T`, a literal becomes its image under `T`, and `T` keeps literals, turns a call
into a `CallExpression` with an `Identifier` callee and maps its parameters in order
without wrapping any of them. -/
theorem transformer_structural_map (body : List Tree) :
    (∃ store : Store,
      transformer (.Program (body.map Tree.toNode)) = .ok (.Program 0, store)
      ∧ ∀ m : Nat, (TargetRef.Program 0).read store (2 * Tree.sizeAll body + 3 + m)
          = some (.Program (body.map Tree.statement)))
    ∧ (∀ (name : Str) (params : List Tree),
        Tree.statement (.call name params)
          = .ExpressionStatement (Tree.target (.call name params)))
    ∧ (∀ (name : Str) (params : List Tree),
        Tree.target (.call name params)
          = .CallExpression (.Identifier name) (params.map Tree.target))
    ∧ (∀ value : Str, Tree.statement (.number value) = .NumberLiteral value
        ∧ Tree.target (.number value) = .NumberLiteral value)
    ∧ (∀ value : Str, Tree.statement (.string value) = .StringLiteral value
        ∧ Tree.target (.string value) = .StringLiteral value) := by
  refine ⟨⟨Tree.refs true body 1 :: Tree.arraysAll body 1, ?_, ?_⟩, ?_, ?_, ?_, ?_⟩
  · rw [← toNodes_eq_map]; exact transformer_program body
  · exact read_program body
  · intro name params; rfl
  · intro name params; rw [Tree.target, targets_eq_map]
  · intro value; exact ⟨rfl, by rw [Tree.target]⟩
  · intro value; exact ⟨rfl, by rw [Tree.target]⟩

theorem statement_shape (t : Tree) :
    (t.statement.isStatement = true ∧ t.isCall = true)
      ∨ (t.statement.isLiteral = true ∧ t.isCall = false) := by
  cases t with
  | number value => exact Or.inr ⟨rfl, rfl⟩
  | string value => exact Or.inr ⟨rfl, rfl⟩
  | call name params =>
    exact Or.inl ⟨by simp [Tree.statement, Tree.target, TargetNode.isStatement], rfl⟩

/-- C7 as stated fails: `parser` returns the `Program` with body `NumberLiteral 1` for the
single token number `1`, and the body of the target `Program` that `transformer` returns
for it has the entry `NumberLiteral 1`, which is not an `ExpressionStatement`. -/
theorem transformer_body_not_only_statements :
    ¬ ∀ (fuel : Nat) (tokens : List Token) (ast : Node) (newAst : TargetRef) (store : Store)
        (body : List TargetNode),
        parser fuel tokens = some (.ok ast) → transformer ast = .ok (newAst, store) →
        newAst.read store fuel = some (.Program body) →
        ∀ entry ∈ body, entry.isStatement = true := by
  intro h
  have := h 3 [⟨.number, ['1']⟩] (.Program [.NumberLiteral ['1']]) (.Program 0)
    [[.NumberLiteral ['1']]] [.NumberLiteral ['1']] rfl rfl rfl (.NumberLiteral ['1'])
    (List.mem_singleton.mpr rfl)
  simp [TargetNode.isStatement] at this

/-- C7, amended: for every source `Program` returned by `parser`, `transformer` returns a
target `Program` whose body has one entry for each top-level node, in order: an
`ExpressionStatement` whose expression is a `CallExpression` for a call, and a
`NumberLiteral` or `StringLiteral` for a literal; so the body is a sequence of
statements only when every top-level node is a call. -/
theorem transformer_body_entries (fuel : Nat) (tokens : List Token) (ast : Node)
    (h : parser fuel tokens = some (.ok ast)) :
    ∃ (trees : List Tree) (store : Store),
      ast = .Program (trees.map Tree.toNode)
      ∧ transformer ast = .ok (.Program 0, store)
      ∧ (∀ m : Nat, (TargetRef.Program 0).read store (2 * Tree.sizeAll trees + 3 + m)
          = some (.Program (trees.map Tree.statement)))
      ∧ (∀ t ∈ trees, (t.statement.isStatement = true ∧ t.isCall = true)
          ∨ (t.statement.isLiteral = true ∧ t.isCall = false))
      ∧ ((∀ t ∈ trees, t.isCall = true) →
          ∀ entry ∈ trees.map Tree.statement, entry.isStatement = true) := by
  obtain ⟨trees, rfl⟩ := parser_returns_trees fuel tokens ast h
  refine ⟨trees, Tree.refs true trees 1 :: Tree.arraysAll trees 1, rfl, ?_, ?_, ?_, ?_⟩
  · rw [← toNodes_eq_map]; exact transformer_program trees
  · exact read_program trees
  · intro t _; exact statement_shape t
  · intro hall entry hentry
    obtain ⟨t, ht, rfl⟩ := List.mem_map.mp hentry
    rcases statement_shape t with h1 | h1
    · exact h1.1
    · have := hall t ht
      rw [h1.2] at this
      cases this

/-- C7, amended, at the tokens of `1 (a)`: the target body is `NumberLiteral 1` followed
by the statement of the call `a`. -/
theorem transformer_body_entries_witness :
    parser 5 [⟨.number, ['1']⟩, ⟨.parentheses, ['(']⟩, ⟨.name, ['a']⟩, ⟨.parentheses, [')']⟩]
        = some (.ok (.Program [.NumberLiteral ['1'], .CallExpression ['a'] []]))
    ∧ ∃ (trees : List Tree) (store : Store),
      Node.Program [.NumberLiteral ['1'], .CallExpression ['a'] []]
        = .Program (trees.map Tree.toNode)
      ∧ transformer (.Program [.NumberLiteral ['1'], .CallExpression ['a'] []])
        = .ok (.Program 0, store)
      ∧ (∀ m : Nat, (TargetRef.Program 0).read store (2 * Tree.sizeAll trees + 3 + m)
          = some (.Program (trees.map Tree.statement)))
      ∧ (∀ t ∈ trees, (t.statement.isStatement = true ∧ t.isCall = true)
          ∨ (t.statement.isLiteral = true ∧ t.isCall = false))
      ∧ ((∀ t ∈ trees, t.isCall = true) →
          ∀ entry ∈ trees.map Tree.statement, entry.isStatement = true) :=
  ⟨rfl, transformer_body_entries 5
    [⟨.number, ['1']⟩, ⟨.parentheses, ['(']⟩, ⟨.name, ['a']⟩, ⟨.parentheses, [')']⟩]
    (.Program [.NumberLiteral ['1'], .CallExpression ['a'] []]) rfl⟩

/-! ## The tokenizer, one token at a time -/

theorem lexes_end (rawCode : Str) (tokens : List Token) :
    Lexes rawCode [] tokens (.ok tokens) := by
  intro current h
  exact ⟨1, fun m => by rw [Nat.add_comm]; exact tokenizerLoop_end rawCode m current tokens h⟩

theorem lexes_open (rawCode post : Str) (tokens : List Token)
    (r : Except JsError (List Token))
    (h : Lexes rawCode post (tokens ++ [⟨.parentheses, ['(']⟩]) r) :
    Lexes rawCode ('(' :: post) tokens r := by
  intro current hd
  obtain ⟨n, hn⟩ := h (current + 1) (drop_succ_of_drop_cons _ _ _ _ hd)
  refine ⟨n + 1, fun m => ?_⟩
  rw [show n + 1 + m = n + m + 1 by omega, tokenizerLoop_open _ _ _ _ post hd]
  exact hn m

theorem lexes_close (rawCode post : Str) (tokens : List Token)
    (r : Except JsError (List Token))
    (h : Lexes rawCode post (tokens ++ [⟨.parentheses, [')']⟩]) r) :
    Lexes rawCode (')' :: post) tokens r := by
  intro current hd
  obtain ⟨n, hn⟩ := h (current + 1) (drop_succ_of_drop_cons _ _ _ _ hd)
  refine ⟨n + 1, fun m => ?_⟩
  rw [show n + 1 + m = n + m + 1 by omega, tokenizerLoop_close _ _ _ _ post hd]
  exact hn m

theorem lexes_space (rawCode post : Str) (c : Char) (hc : isWhiteSpace c = true)
    (tokens : List Token) (r : Except JsError (List Token))
    (h : Lexes rawCode post tokens r) :
    Lexes rawCode (c :: post) tokens r := by
  intro current hd
  obtain ⟨n, hn⟩ := h (current + 1) (drop_succ_of_drop_cons _ _ _ _ hd)
  refine ⟨n + 1, fun m => ?_⟩
  rw [show n + 1 + m = n + m + 1 by omega, tokenizerLoop_space _ _ _ _ c post hd hc]
  exact hn m

theorem lexes_number (rawCode post : Str) (d : Char) (ds : Str)
    (hds : ∀ x ∈ d :: ds, isNumber x = true) (hpost : NUMBERS.test post.head? = false)
    (tokens : List Token) (r : Except JsError (List Token))
    (h : Lexes rawCode post (tokens ++ [⟨.number, d :: ds⟩]) r) :
    Lexes rawCode ((d :: ds) ++ post) tokens r := by
  intro current hd
  obtain ⟨n, hn⟩ := h (current + (d :: ds).length) (drop_add_of_drop_append _ _ _ _ hd)
  refine ⟨n + (d :: ds).length + 1 + 1, fun m => ?_⟩
  rw [show n + (d :: ds).length + 1 + 1 + m = n + ((d :: ds).length + 1 + m) + 1 by omega,
    tokenizerLoop_number _ _ _ _ d ds post hd hds hpost (by omega)]
  exact hn _

theorem lexes_string (rawCode post s : Str) (hs : '"' ∉ s)
    (tokens : List Token) (r : Except JsError (List Token))
    (h : Lexes rawCode post (tokens ++ [⟨.string, s⟩]) r) :
    Lexes rawCode ('"' :: (s ++ '"' :: post)) tokens r := by
  intro current hd
  have h1 := drop_succ_of_drop_cons _ _ _ _ hd
  have h2 := drop_add_of_drop_append _ _ _ _ h1
  have h3 := drop_succ_of_drop_cons _ _ _ _ h2
  obtain ⟨n, hn⟩ := h (current + 1 + s.length + 1) h3
  refine ⟨n + s.length + 1 + 1, fun m => ?_⟩
  rw [show n + s.length + 1 + 1 + m = n + (s.length + 1 + m) + 1 by omega,
    tokenizerLoop_string _ _ _ _ s post hd hs (by omega)]
  exact hn _

theorem lexes_name (rawCode post : Str) (l : Char) (ls : Str)
    (hls : ∀ x ∈ l :: ls, isLetter x = true) (hpost : LETTERS.test post.head? = false)
    (tokens : List Token) (r : Except JsError (List Token))
    (h : Lexes rawCode post (tokens ++ [⟨.name, l :: ls⟩]) r) :
    Lexes rawCode ((l :: ls) ++ post) tokens r := by
  intro current hd
  obtain ⟨n, hn⟩ := h (current + (l :: ls).length) (drop_add_of_drop_append _ _ _ _ hd)
  refine ⟨n + (l :: ls).length + 1 + 1, fun m => ?_⟩
  rw [show n + (l :: ls).length + 1 + 1 + m = n + ((l :: ls).length + 1 + m) + 1 by omega,
    tokenizerLoop_name _ _ _ _ l ls post hd hls hpost (by omega)]
  exact hn _

/-- What the main loop answers from the start of the input is what `tokenizer` returns. -/
theorem tokenizer_of_lexes (rawCode : Str) (r : Except JsError (List Token))
    (h : Lexes rawCode rawCode [] r) : ∃ n : Nat, ∀ m : Nat, tokenizer (n + m) rawCode = some r :=
  h 0 rfl

/-! ## The tokenizer on the source text of a tree -/

theorem printParams_head (ts : List Tree) (post : Str) :
    NUMBERS.test (Tree.printParams ts ++ ')' :: post).head? = false
    ∧ LETTERS.test (Tree.printParams ts ++ ')' :: post).head? = false := by
  cases ts with
  | nil => exact ⟨rfl, rfl⟩
  | cons t ts => exact ⟨rfl, rfl⟩

theorem isWhiteSpace_space : isWhiteSpace ' ' = true := by rfl

mutual

theorem lexes_tree (rawCode : Str) :
    ∀ (t : Tree), t.wellFormed = true → ∀ (post : Str) (tokens : List Token)
      (r : Except JsError (List Token)), NUMBERS.test post.head? = false →
      Lexes rawCode post (tokens ++ flatten t) r → Lexes rawCode (t.print ++ post) tokens r
  | .number value, hwf, post, tokens, r, hpost, h => by
    simp only [Tree.wellFormed, Bool.and_eq_true, Bool.not_eq_true', List.isEmpty_eq_false,
      List.all_eq_true] at hwf
    cases value with
    | nil => exact absurd rfl hwf.1
    | cons d ds => exact lexes_number rawCode post d ds hwf.2 hpost tokens r h
  | .string value, hwf, post, tokens, r, hpost, h => by
    simp only [Tree.wellFormed, List.all_eq_true, bne_iff_ne, ne_eq] at hwf
    have hs : '"' ∉ value := fun hm => hwf _ hm rfl
    simpa [Tree.print] using lexes_string rawCode post value hs tokens r h
  | .call name params, hwf, post, tokens, r, hpost, h => by
    simp only [Tree.wellFormed, Bool.and_eq_true, Bool.not_eq_true', List.isEmpty_eq_false,
      List.all_eq_true] at hwf
    obtain ⟨⟨hne, hletters⟩, hparams⟩ := hwf
    cases name with
    | nil => exact absurd rfl hne
    | cons l ls =>
      have hshape : tokens ++ flatten (.call (l :: ls) params)
          = (((tokens ++ [⟨.parentheses, ['(']⟩]) ++ [⟨.name, l :: ls⟩]) ++ flattenAll params)
              ++ [⟨.parentheses, [')']⟩] := by
        simp [flatten]
      rw [hshape] at h
      have h1 := lexes_close rawCode post _ r h
      have h2 := lexes_params rawCode params hparams post _ r h1
      have h3 := lexes_name rawCode _ l ls hletters (printParams_head params post).2 _ r h2
      have h4 := lexes_open rawCode _ tokens r h3
      simpa [Tree.print] using h4

theorem lexes_params (rawCode : Str) :
    ∀ (ts : List Tree), Tree.wellFormedAll ts = true → ∀ (post : Str) (tokens : List Token)
      (r : Except JsError (List Token)),
      Lexes rawCode (')' :: post) (tokens ++ flattenAll ts) r →
      Lexes rawCode (Tree.printParams ts ++ ')' :: post) tokens r
  | [], _, post, tokens, r, h => by
    simpa [Tree.printParams, flattenAll] using h
  | t :: ts, hwf, post, tokens, r, h => by
    simp only [Tree.wellFormedAll, Bool.and_eq_true] at hwf
    simp only [flattenAll, ← List.append_assoc] at h
    have h1 := lexes_params rawCode ts hwf.2 post _ r h
    have h2 := lexes_tree rawCode t hwf.1 _ tokens r (printParams_head ts post).1 h1
    have h3 := lexes_space rawCode _ ' ' isWhiteSpace_space tokens r h2
    simpa [Tree.printParams] using h3

end

theorem intercalate_cons_cons {α : Type} (sep x y : List α) (rest : List (List α)) :
    sep.intercalate (x :: y :: rest) = x ++ sep ++ sep.intercalate (y :: rest) := by
  simp [List.intercalate, List.intersperse]

theorem intercalate_singleton {α : Type} (sep x : List α) :
    sep.intercalate [x] = x := by
  simp [List.intercalate, List.intersperse]

/-- The tokenizer on the source text of a program made of well-formed trees. -/
theorem lexes_program (rawCode : Str) :
    ∀ (forms : List Tree), (∀ f ∈ forms, f.wellFormed = true) → ∀ tokens : List Token,
      Lexes rawCode (printProgram forms) tokens (.ok (tokens ++ flattenAll forms))
  | [], _, tokens => by
    simpa [printProgram, flattenAll, List.intercalate] using lexes_end rawCode tokens
  | [f], hwf, tokens => by
    have h := lexes_tree rawCode f (hwf f (List.mem_singleton.mpr rfl)) [] tokens
      (.ok (tokens ++ flattenAll [f])) rfl
      (by simpa [flattenAll] using lexes_end rawCode (tokens ++ flatten f))
    simpa [printProgram, intercalate_singleton] using h
  | f :: g :: rest, hwf, tokens => by
    have hrec := lexes_program rawCode (g :: rest)
      (fun x hx => hwf x (List.mem_cons_of_mem _ hx)) (tokens ++ flatten f)
    have h1 := lexes_space rawCode _ ' ' isWhiteSpace_space _ _ hrec
    have h2 := lexes_tree rawCode f (hwf f (List.mem_cons_self _ _))
      (' ' :: printProgram (g :: rest)) tokens
      (.ok (tokens ++ flatten f ++ flattenAll (g :: rest))) rfl h1
    have hp : printProgram (f :: g :: rest) = f.print ++ ' ' :: printProgram (g :: rest) := by
      simp [printProgram, intercalate_cons_cons]
    rw [hp]
    simpa [flattenAll, List.append_assoc] using h2

mutual

theorem codeGenerator_target :
    ∀ t : Tree, codeGenerator t.target = t.render
  | .number value => by rw [Tree.target, codeGenerator, Tree.render]
  | .string value => by rw [Tree.target, codeGenerator, Tree.render]; rfl
  | .call name params => by
    rw [Tree.target, codeGenerator, codeGenerator, Tree.render, join_eq_intercalate,
      codeGeneratorMap_targets params]
    rfl

theorem codeGeneratorMap_targets :
    ∀ ts : List Tree, codeGeneratorMap (Tree.targets ts) = Tree.renderAll ts
  | [] => by rw [Tree.targets, codeGeneratorMap, Tree.renderAll]
  | t :: ts => by
    rw [Tree.targets, codeGeneratorMap, Tree.renderAll, codeGenerator_target t,
      codeGeneratorMap_targets ts]

end

theorem codeGenerator_statement (t : Tree) (h : t.isCall = true) :
    codeGenerator t.statement = t.render ++ [';'] := by
  cases t with
  | number value => cases h
  | string value => cases h
  | call name params =>
    rw [Tree.statement, codeGenerator, codeGenerator_target]; rfl

theorem codeGenerator_program (forms : List Tree) (hcall : ∀ f ∈ forms, f.isCall = true) :
    codeGenerator (.Program (forms.map Tree.statement)) = renderProgram forms := by
  rw [codeGenerator, codeGeneratorMap_eq_map, join_eq_intercalate, renderProgram, List.map_map]
  congr 1
  apply List.map_congr_left
  intro f hf
  exact codeGenerator_statement f (hcall f hf)

/-! ## Compiler -/

/-- C1: for every source program made of zero or more well-formed call forms, written as
S-expressions and separated by one space, `compile` returns (given enough fuel, and then
with any more) each top-level call rendered as `name(arg, arg, ...)` followed by `;`,
these lines joined by a single newline, nested calls rendered the same way without `;`,
numbers with their source digits and strings in double quotes with their source
content. -/
theorem compile_renders (forms : List Tree) (hcall : ∀ f ∈ forms, f.isCall = true)
    (hwf : ∀ f ∈ forms, f.wellFormed = true) :
    ∃ n : Nat, ∀ m : Nat,
      compile (n + m) (printProgram forms) = some (.ok (renderProgram forms)) := by
  obtain ⟨n1, h1⟩ := tokenizer_of_lexes (printProgram forms) _
    (lexes_program (printProgram forms) forms hwf [])
  simp only [List.nil_append] at h1
  refine ⟨n1 + ((flattenAll forms).length + 1) + (2 * Tree.sizeAll forms + 3), fun m => ?_⟩
  have ht := h1 ((flattenAll forms).length + 1 + (2 * Tree.sizeAll forms + 3) + m)
  have hp := parserLoop_flattenAll (flattenAll forms) forms
    (n1 + ((flattenAll forms).length + 1) + (2 * Tree.sizeAll forms + 3) + m) 0 [] rfl
    (by omega)
  have hr := read_program forms (n1 + ((flattenAll forms).length + 1) + m)
  rw [show n1 + ((flattenAll forms).length + 1 + (2 * Tree.sizeAll forms + 3) + m)
      = n1 + ((flattenAll forms).length + 1) + (2 * Tree.sizeAll forms + 3) + m by omega] at ht
  rw [show 2 * Tree.sizeAll forms + 3 + (n1 + ((flattenAll forms).length + 1) + m)
      = n1 + ((flattenAll forms).length + 1) + (2 * Tree.sizeAll forms + 3) + m by omega] at hr
  rw [compile, ht]
  simp only [parser, hp, List.nil_append, transformer_program, hr,
    codeGenerator_program forms hcall]


/-- C1 at the program `(add 2 (sub 4 1))`, with the two other witnesses of the claim,
`(foo 1 "bar")` and `(a) (b)`, evaluated. -/
theorem compile_renders_witness :
    (∀ f ∈ [Tree.call "add".toList
        [.number "2".toList, .call "sub".toList [.number "4".toList, .number "1".toList]]],
      f.isCall = true)
    ∧ (∀ f ∈ [Tree.call "add".toList
        [.number "2".toList, .call "sub".toList [.number "4".toList, .number "1".toList]]],
      f.wellFormed = true)
    ∧ printProgram [Tree.call "add".toList
        [.number "2".toList, .call "sub".toList [.number "4".toList, .number "1".toList]]]
      = "(add 2 (sub 4 1))".toList
    ∧ renderProgram [Tree.call "add".toList
        [.number "2".toList, .call "sub".toList [.number "4".toList, .number "1".toList]]]
      = "add(2, sub(4, 1));".toList
    ∧ (∃ n : Nat, ∀ m : Nat,
        compile (n + m) "(add 2 (sub 4 1))".toList = some (.ok "add(2, sub(4, 1));".toList))
    ∧ compile 20 "(add 2 (sub 4 1))".toList = some (.ok "add(2, sub(4, 1));".toList)
    ∧ compile 20 "(foo 1 \"bar\")".toList = some (.ok "foo(1, \"bar\");".toList)
    ∧ compile 20 "(a) (b)".toList = some (.ok "a();\nb();".toList)
    ∧ compile 20 "".toList = some (.ok []) :=
  ⟨by decide, by decide, rfl, rfl,
    compile_renders [Tree.call "add".toList
        [.number "2".toList, .call "sub".toList [.number "4".toList, .number "1".toList]]]
      (by decide) (by decide),
    rfl, rfl, rfl, rfl⟩

/-! ## Maximal munch away from the end of the input -/

/-- A run of digits, a run of letters and then a space: the tokenizer returns the number
token followed by the name token. -/
theorem tokenizer_digits_letters_space (d : Char) (ds : Str) (l : Char) (ls : Str)
    (hds : ∀ x ∈ d :: ds, isNumber x = true) (hls : ∀ x ∈ l :: ls, isLetter x = true) :
    ∃ n : Nat, ∀ m : Nat,
      tokenizer (n + m) ((d :: ds) ++ ((l :: ls) ++ [' ']))
        = some (.ok [⟨.number, d :: ds⟩, ⟨.name, l :: ls⟩]) := by
  apply tokenizer_of_lexes
  have hpost : NUMBERS.test ((l :: ls) ++ [' ']).head? = false := by
    rw [List.cons_append, List.head?_cons, NUMBERS_test_some]
    exact (isLetter_not_special l (hls l (List.mem_cons_self _ _))).2.2.2.2
  apply lexes_number _ _ d ds hds hpost
  apply lexes_name _ _ l ls hls (by rfl)
  apply lexes_space _ _ ' ' isWhiteSpace_space
  exact lexes_end _ _

/-! ## Tokens that end inside an open group -/

theorem walkParams_then_error (tokens : List Token) (e : JsError) :
    ∀ (ts : List Tree) (bound fuel : Nat) (name : Str) (params : List Node) (current : Nat)
      (tail : List Token),
      tokens.drop current = flattenAll ts ++ tail → 1 ≤ bound →
      bound + (flattenAll ts).length ≤ fuel →
      (∀ (fuel : Nat) (name : Str) (params : List Node), bound ≤ fuel →
        walkParams tokens fuel name params (current + (flattenAll ts).length)
          = some (.error e)) →
      walkParams tokens fuel name params current = some (.error e)
  | [], bound, fuel, name, params, current, tail, h, hb, hf, hend => by
    simpa [flattenAll] using hend fuel name params (by simpa [flattenAll] using hf)
  | t :: ts, bound, fuel, name, params, current, tail, h, hb, hf, hend => by
    obtain ⟨fuel, rfl⟩ : ∃ k, fuel = k + 1 := ⟨fuel - 1, by omega⟩
    obtain ⟨token, more, hflat, hgo⟩ := flatten_head t
    simp only [flattenAll, List.append_assoc] at h
    have hlen : (flatten t).length = more.length + 1 := by rw [hflat]; rfl
    simp only [flattenAll, List.length_append] at hf
    have hw := walk_flatten tokens t fuel current _ h (by omega)
    have hrest := drop_add_of_drop_append _ _ _ _ h
    have hp := walkParams_then_error tokens e ts bound fuel name (params ++ [t.toNode])
      (current + (flatten t).length) tail hrest hb (by omega)
      (by
        intro fuel name params hfuel
        have := hend fuel name params hfuel
        simpa [flattenAll, Nat.add_assoc] using this)
    have hc : tokens[current]? = some token := by
      rw [hflat] at h; exact getElem?_of_drop_cons _ _ _ _ h
    rw [walkParams, hc]
    simp only [hw, hp]
    rw [if_pos hgo]

/-- When the tokens end inside groups that `walk` has opened, `walk` throws the
`TypeError` of reading `token.type` past the end of the tokens. -/
theorem walk_unclosed (tokens : List Token) :
    ∀ (frame : Token × List Tree) (inner : List (Token × List Tree)) (fuel current : Nat),
      tokens.drop current = unclosed (frame :: inner) →
      (unclosed (frame :: inner)).length + 1 ≤ fuel →
      walk tokens fuel current = some (.error (.TypeError "token.type".toList))
  | (nameToken, args), inner, fuel, current, h, hf => by
    obtain ⟨fuel, rfl⟩ : ∃ k, fuel = k + 1 := ⟨fuel - 1, by omega⟩
    simp only [unclosed] at h
    simp only [unclosed, List.length_cons, List.length_append] at hf
    have h1 := drop_succ_of_drop_cons _ _ _ _ h
    have h2 := drop_succ_of_drop_cons _ _ _ _ h1
    have hp := walkParams_then_error tokens (.TypeError "token.type".toList) args
      ((unclosed inner).length + 1 + 1) fuel nameToken.value [] (current + 1 + 1)
      (unclosed inner) h2 (by omega) (by omega)
      (by
        intro fuel name params hfuel
        obtain ⟨fuel, rfl⟩ : ∃ k, fuel = k + 1 := ⟨fuel - 1, by omega⟩
        have hd := drop_add_of_drop_append _ _ _ _ h2
        cases inner with
        | nil =>
          simp only [unclosed] at hd
          rw [walkParams, getElem?_of_drop_nil _ _ hd]
        | cons frame2 inner2 =>
          have hw := walk_unclosed tokens frame2 inner2 fuel _ hd (by omega)
          obtain ⟨name2, args2⟩ := frame2
          simp only [unclosed] at hd
          rw [walkParams, getElem?_of_drop_cons _ _ _ _ hd]
          simp [hw])
    rw [walk, getElem?_of_drop_cons _ _ _ _ h]
    simp [getElem?_of_drop_cons _ _ _ _ h1, hp]
termination_by _ inner => inner.length

theorem parserLoop_then_error (tokens : List Token) (e : JsError) :
    ∀ (ts : List Tree) (bound fuel current : Nat) (body : List Node) (tail : List Token),
      tokens.drop current = flattenAll ts ++ tail → 1 ≤ bound →
      bound + (flattenAll ts).length ≤ fuel →
      (∀ (fuel : Nat) (body : List Node), bound ≤ fuel →
        parserLoop tokens fuel (current + (flattenAll ts).length) body = some (.error e)) →
      parserLoop tokens fuel current body = some (.error e)
  | [], bound, fuel, current, body, tail, h, hb, hf, hend => by
    simpa [flattenAll] using hend fuel body (by simpa [flattenAll] using hf)
  | t :: ts, bound, fuel, current, body, tail, h, hb, hf, hend => by
    obtain ⟨fuel, rfl⟩ : ∃ k, fuel = k + 1 := ⟨fuel - 1, by omega⟩
    obtain ⟨token, more, hflat, -⟩ := flatten_head t
    simp only [flattenAll, List.append_assoc] at h
    have hlen : (flatten t).length = more.length + 1 := by rw [hflat]; rfl
    simp only [flattenAll, List.length_append] at hf
    have hw := walk_flatten tokens t fuel current _ h (by omega)
    have hrest := drop_add_of_drop_append _ _ _ _ h
    have hp := parserLoop_then_error tokens e ts bound fuel (current + (flatten t).length)
      (body ++ [t.toNode]) tail hrest hb (by omega)
      (by
        intro fuel body hfuel
        have := hend fuel body hfuel
        simpa [flattenAll, Nat.add_assoc] using this)
    have hlt : current < tokens.length := by
      rw [hflat] at h; exact lt_length_of_drop_cons _ _ _ _ h
    rw [parserLoop, if_pos hlt]
    simp only [hw, hp]

/-- Complete trees followed by groups that are left open, each with a token in name
position: `parser` fails with the `TypeError` of reading past the end of the tokens. -/
theorem parser_fails_in_open_group (pre : List Tree) (frame : Token × List Tree)
    (inner : List (Token × List Tree)) :
    ∀ m : Nat,
      parser ((flattenAll pre ++ unclosed (frame :: inner)).length + 1 + 1 + m)
          (flattenAll pre ++ unclosed (frame :: inner))
        = some (.error (.TypeError "token.type".toList)) := by
  intro m
  rw [parser]
  apply parserLoop_then_error _ _ pre ((unclosed (frame :: inner)).length + 1 + 1) _ 0 []
    (unclosed (frame :: inner)) rfl (by omega) (by simp; omega)
  intro fuel body hfuel
  obtain ⟨fuel, rfl⟩ : ∃ k, fuel = k + 1 := ⟨fuel - 1, by omega⟩
  have hd : (flattenAll pre ++ unclosed (frame :: inner)).drop (0 + (flattenAll pre).length)
      = unclosed (frame :: inner) := by simp
  have hw := walk_unclosed _ frame inner fuel _ hd (by omega)
  have hlt : 0 + (flattenAll pre).length
      < (flattenAll pre ++ unclosed (frame :: inner)).length := by
    obtain ⟨n, a⟩ := frame
    simp [unclosed]
  simp only [Nat.zero_add] at hw hlt ⊢
  rw [parserLoop, if_pos hlt]
  simp only [hw]

/-! ## The scanning rules describe the tokenizer -/

theorem prepend_prepend (a b : List Token) (r : Except JsError (List Token)) :
    prepend a (prepend b r) = prepend (a ++ b) r := by
  cases r <;> simp [prepend]

theorem prepend_nil (r : Except JsError (List Token)) : prepend [] r = r := by
  cases r <;> rfl

theorem map_prepend_nil (o : Option (Except JsError (List Token))) :
    o.map (prepend []) = o := by
  cases o with
  | none => rfl
  | some r => simp [prepend_nil]

theorem map_prepend_prepend (a b : List Token) (o : Option (Except JsError (List Token))) :
    (o.map (prepend b)).map (prepend a) = o.map (prepend (a ++ b)) := by
  cases o with
  | none => rfl
  | some r => simp [prepend_prepend]

/-- A turn of the main loop that leads, for every large amount of fuel, to a state from
which the loop never ends, never ends. -/
theorem runs_none_of_step (rawCode : Str) (current next : Nat) (tokens more : List Token)
    (n : Nat)
    (hstep : ∀ m : Nat, tokenizerLoop rawCode (n + m + 1) current tokens
      = tokenizerLoop rawCode (n + m) next more)
    (h : ∀ fuel : Nat, tokenizerLoop rawCode fuel next more = none) (fuel : Nat) :
    tokenizerLoop rawCode fuel current tokens = none := by
  apply tokenizerLoop_none_of_large rawCode current tokens (n + 1)
  intro m
  rw [show n + 1 + m = n + m + 1 by omega, hstep m]
  exact h _

theorem runs_opening (rawCode rest : Str) (tokens : List Token)
    (o : Option (Except JsError (List Token)))
    (h : Runs rawCode rest (tokens ++ [⟨.parentheses, ['(']⟩]) o) :
    Runs rawCode ('(' :: rest) tokens (o.map (prepend [⟨.parentheses, ['(']⟩])) := by
  cases o with
  | some r =>
    simp only [Runs, Option.map_some', prepend_prepend] at h ⊢
    exact lexes_open _ _ _ _ h
  | none =>
    intro current hd fuel
    exact runs_none_of_step rawCode current (current + 1) tokens _ 0
      (fun m => by rw [Nat.zero_add]; exact tokenizerLoop_open _ _ _ _ rest hd)
      (h (current + 1) (drop_succ_of_drop_cons _ _ _ _ hd)) fuel

theorem runs_closing (rawCode rest : Str) (tokens : List Token)
    (o : Option (Except JsError (List Token)))
    (h : Runs rawCode rest (tokens ++ [⟨.parentheses, [')']⟩]) o) :
    Runs rawCode (')' :: rest) tokens (o.map (prepend [⟨.parentheses, [')']⟩])) := by
  cases o with
  | some r =>
    simp only [Runs, Option.map_some', prepend_prepend] at h ⊢
    exact lexes_close _ _ _ _ h
  | none =>
    intro current hd fuel
    exact runs_none_of_step rawCode current (current + 1) tokens _ 0
      (fun m => by rw [Nat.zero_add]; exact tokenizerLoop_close _ _ _ _ rest hd)
      (h (current + 1) (drop_succ_of_drop_cons _ _ _ _ hd)) fuel

theorem runs_space (rawCode rest : Str) (c : Char) (hc : isWhiteSpace c = true)
    (tokens : List Token) (o : Option (Except JsError (List Token)))
    (h : Runs rawCode rest tokens o) : Runs rawCode (c :: rest) tokens o := by
  cases o with
  | some r => exact lexes_space _ _ c hc _ _ h
  | none =>
    intro current hd fuel
    exact runs_none_of_step rawCode current (current + 1) tokens _ 0
      (fun m => by rw [Nat.zero_add]; exact tokenizerLoop_space _ _ _ _ c rest hd hc)
      (h (current + 1) (drop_succ_of_drop_cons _ _ _ _ hd)) fuel

theorem runs_number (rawCode post : Str) (d : Char) (ds : Str)
    (hds : ∀ x ∈ d :: ds, isNumber x = true) (hpost : NUMBERS.test post.head? = false)
    (tokens : List Token) (o : Option (Except JsError (List Token)))
    (h : Runs rawCode post (tokens ++ [⟨.number, d :: ds⟩]) o) :
    Runs rawCode ((d :: ds) ++ post) tokens (o.map (prepend [⟨.number, d :: ds⟩])) := by
  cases o with
  | some r =>
    simp only [Runs, Option.map_some', prepend_prepend] at h ⊢
    exact lexes_number _ _ d ds hds hpost _ _ h
  | none =>
    intro current hd fuel
    exact runs_none_of_step rawCode current (current + (d :: ds).length) tokens _
      ((d :: ds).length + 1)
      (fun m => tokenizerLoop_number _ _ _ _ d ds post hd hds hpost (by omega))
      (h _ (drop_add_of_drop_append _ _ _ _ hd)) fuel

theorem runs_string (rawCode post s : Str) (hs : '"' ∉ s)
    (tokens : List Token) (o : Option (Except JsError (List Token)))
    (h : Runs rawCode post (tokens ++ [⟨.string, s⟩]) o) :
    Runs rawCode ('"' :: (s ++ '"' :: post)) tokens (o.map (prepend [⟨.string, s⟩])) := by
  cases o with
  | some r =>
    simp only [Runs, Option.map_some', prepend_prepend] at h ⊢
    exact lexes_string _ _ s hs _ _ h
  | none =>
    intro current hd fuel
    have h1 := drop_succ_of_drop_cons _ _ _ _ hd
    have h2 := drop_add_of_drop_append _ _ _ _ h1
    have h3 := drop_succ_of_drop_cons _ _ _ _ h2
    exact runs_none_of_step rawCode current (current + 1 + s.length + 1) tokens _
      (s.length + 1)
      (fun m => tokenizerLoop_string _ _ _ _ s post hd hs (by omega))
      (h _ h3) fuel

theorem runs_name (rawCode post : Str) (l : Char) (ls : Str)
    (hls : ∀ x ∈ l :: ls, isLetter x = true) (hpost : LETTERS.test post.head? = false)
    (tokens : List Token) (o : Option (Except JsError (List Token)))
    (h : Runs rawCode post (tokens ++ [⟨.name, l :: ls⟩]) o) :
    Runs rawCode ((l :: ls) ++ post) tokens (o.map (prepend [⟨.name, l :: ls⟩])) := by
  cases o with
  | some r =>
    simp only [Runs, Option.map_some', prepend_prepend] at h ⊢
    exact lexes_name _ _ l ls hls hpost _ _ h
  | none =>
    intro current hd fuel
    exact runs_none_of_step rawCode current (current + (l :: ls).length) tokens _
      ((l :: ls).length + 1)
      (fun m => tokenizerLoop_name _ _ _ _ l ls post hd hls hpost (by omega))
      (h _ (drop_add_of_drop_append _ _ _ _ hd)) fuel

theorem tokenizerLoop_invalid (rawCode : Str) (fuel current : Nat) (tokens : List Token)
    (c : Char) (post : Str) (h : rawCode.drop current = c :: post)
    (h1 : c ≠ '(') (h2 : c ≠ ')') (h3 : isWhiteSpace c = false) (h4 : isNumber c = false)
    (h5 : c ≠ '"') (h6 : isLetter c = false) :
    tokenizerLoop rawCode (fuel + 1) current tokens = some (.error (invalidCharacter c)) := by
  rw [tokenizerLoop, if_pos (lt_length_of_drop_cons _ _ _ _ h)]
  simp [getElem?_of_drop_cons _ _ _ _ h, h1, h2, WHITESPACE_test_some, h3,
    NUMBERS_test_some, h4, h5, LETTERS_test_some, h6, invalidCharacter, jsToString]

/-- The scanning rules describe the main loop of the tokenizer. -/
theorem runs_of_scans (rawCode : Str) (rest : Str)
    (o : Option (Except JsError (List Token))) (h : Scans rest o) :
    ∀ tokens : List Token, Runs rawCode rest tokens o := by
  induction h with
  | done =>
    intro tokens
    simpa [Runs, prepend] using lexes_end rawCode tokens
  | opening rest o _ ih => intro tokens; exact runs_opening _ _ _ _ (ih _)
  | closing rest o _ ih => intro tokens; exact runs_closing _ _ _ _ (ih _)
  | space c rest o hc _ ih => intro tokens; exact runs_space _ _ c hc _ _ (ih _)
  | number d ds post o hds hpost _ ih =>
    intro tokens; exact runs_number _ _ d ds hds hpost _ _ (ih _)
  | string s post o hs _ ih => intro tokens; exact runs_string _ _ s hs _ _ (ih _)
  | openString s hs =>
    intro tokens current hd fuel
    exact tokenizerLoop_string_diverges rawCode fuel current tokens s hd hs
  | name l ls post o hls hpost _ ih =>
    intro tokens; exact runs_name _ _ l ls hls hpost _ _ (ih _)
  | openName l ls hls =>
    intro tokens current hd fuel
    exact tokenizerLoop_name_diverges rawCode fuel current tokens l ls hd hls
  | invalid c rest h1 h2 h3 h4 h5 h6 =>
    intro tokens current hd
    exact ⟨1, fun m => by
      rw [Nat.add_comm]
      exact tokenizerLoop_invalid rawCode m current tokens c rest hd h1 h2 h3 h4 h5 h6⟩

/-- What the scanning rules give for an input is the outcome of the tokenizer on it. -/
theorem outcome_of_scans (rawCode : Str) (o : Option (Except JsError (List Token)))
    (h : Scans rawCode o) : Outcome rawCode o := by
  have hr := runs_of_scans rawCode rawCode o h []
  cases o with
  | some r =>
    simp only [Runs, prepend_nil] at hr
    exact hr 0 rfl
  | none => exact fun fuel => hr 0 rfl fuel

/-! ## The scanning rules cover every input -/

/-- A list splits into its longest prefix of characters of a class and the rest, which
does not start with a character of the class. -/
theorem span_class (p : Char → Bool) (s : Str) :
    ∃ pre post : Str, s = pre ++ post ∧ (∀ x ∈ pre, p x = true)
      ∧ (∀ c : Char, post.head? = some c → p c = false) := by
  induction s with
  | nil => exact ⟨[], [], rfl, by simp, by simp⟩
  | cons c s ih =>
    by_cases hc : p c = true
    · obtain ⟨pre, post, hs, hpre, hpost⟩ := ih
      refine ⟨c :: pre, post, by rw [hs]; rfl, ?_, hpost⟩
      intro x hx
      rcases List.mem_cons.mp hx with rfl | hx
      · exact hc
      · exact hpre x hx
    · refine ⟨[], c :: s, rfl, by simp, ?_⟩
      intro c' h
      simp only [List.head?_cons, Option.some.injEq] at h
      subst h
      simpa using hc

/-- The scanning rules give an outcome for every input. -/
theorem scans_total (s : Str) : ∃ o, Scans s o := by
  suffices h : ∀ (n : Nat) (s : Str), s.length = n → ∃ o, Scans s o from h s.length s rfl
  intro n
  induction n using Nat.strong_induction_on with
  | _ n ih =>
    intro s hn
    cases s with
    | nil => exact ⟨_, Scans.done⟩
    | cons c rest =>
      subst hn
      by_cases h1 : c = '('
      · subst h1
        obtain ⟨o, ho⟩ := ih rest.length (by simp) rest rfl
        exact ⟨_, Scans.opening rest o ho⟩
      by_cases h2 : c = ')'
      · subst h2
        obtain ⟨o, ho⟩ := ih rest.length (by simp) rest rfl
        exact ⟨_, Scans.closing rest o ho⟩
      by_cases h3 : isWhiteSpace c = true
      · obtain ⟨o, ho⟩ := ih rest.length (by simp) rest rfl
        exact ⟨_, Scans.space c rest o h3 ho⟩
      by_cases h4 : isNumber c = true
      · obtain ⟨pre, post, hs, hpre, hpost⟩ := span_class isNumber rest
        obtain ⟨o, ho⟩ := ih post.length (by rw [hs]; simp; omega) post rfl
        have hhead : NUMBERS.test post.head? = false := by
          cases hp : post.head? with
          | none => rfl
          | some x => rw [NUMBERS_test_some]; exact hpost x hp
        subst hs
        exact ⟨_, Scans.number c pre post o
          (fun x hx => by
            rcases List.mem_cons.mp hx with rfl | hx
            · exact h4
            · exact hpre x hx) hhead ho⟩
      by_cases h5 : c = '"'
      · subst h5
        obtain ⟨pre, post, hs, hpre, hpost⟩ := span_class (fun x => x != '"') rest
        have hnot : '"' ∉ pre := fun hm => by simpa using hpre _ hm
        cases post with
        | nil =>
          rw [List.append_nil] at hs
          subst hs
          exact ⟨none, Scans.openString _ hnot⟩
        | cons q post =>
          have hq : q = '"' := by simpa using hpost q rfl
          subst hq
          obtain ⟨o, ho⟩ := ih post.length (by rw [hs]; simp; omega) post rfl
          subst hs
          exact ⟨_, Scans.string pre post o hnot ho⟩
      by_cases h6 : isLetter c = true
      · obtain ⟨pre, post, hs, hpre, hpost⟩ := span_class isLetter rest
        have hall : ∀ x ∈ c :: pre, isLetter x = true := fun x hx => by
          rcases List.mem_cons.mp hx with rfl | hx
          · exact h6
          · exact hpre x hx
        cases post with
        | nil =>
          rw [List.append_nil] at hs
          subst hs
          exact ⟨none, Scans.openName c _ hall⟩
        | cons q post =>
          obtain ⟨o, ho⟩ := ih (q :: post).length (by rw [hs]; simp; omega) (q :: post) rfl
          subst hs
          exact ⟨_, Scans.name c pre (q :: post) o hall
            (by rw [List.head?_cons, LETTERS_test_some]; exact hpost q rfl) ho⟩
      exact ⟨_, Scans.invalid c rest h1 h2 (by simpa using h3) (by simpa using h4) h5
        (by simpa using h6)⟩

theorem returns_unique (rawCode : Str) (r1 r2 : Except JsError (List Token))
    (h1 : Returns rawCode r1) (h2 : Returns rawCode r2) : r1 = r2 := by
  obtain ⟨n1, h1⟩ := h1
  obtain ⟨n2, h2⟩ := h2
  have a := h1 n2
  have b := h2 n1
  rw [Nat.add_comm] at b
  rw [a] at b
  exact Option.some.inj b

/-! ## The outcome of the tokenizer and the scanning rules -/

theorem returns_of_tokenizer (rawCode : Str) (fuel : Nat) (r : Except JsError (List Token))
    (h : tokenizer fuel rawCode = some r) : Returns rawCode r :=
  ⟨fuel, fun m => tokenizerLoop_mono_add rawCode fuel 0 [] r h m⟩

theorem outcome_unique (rawCode : Str) (o1 o2 : Option (Except JsError (List Token)))
    (h1 : Outcome rawCode o1) (h2 : Outcome rawCode o2) : o1 = o2 := by
  cases o1 with
  | none =>
    cases o2 with
    | none => rfl
    | some r2 =>
      obtain ⟨n, hn⟩ := h2
      have := hn 0
      rw [h1 (n + 0)] at this
      cases this
  | some r1 =>
    cases o2 with
    | none =>
      obtain ⟨n, hn⟩ := h1
      have := hn 0
      rw [h2 (n + 0)] at this
      cases this
    | some r2 => rw [returns_unique rawCode r1 r2 h1 h2]

/-- The outcome of the tokenizer on an input is what the scanning rules give for it. -/
theorem scans_of_outcome (rawCode : Str) (o : Option (Except JsError (List Token)))
    (h : Outcome rawCode o) : Scans rawCode o := by
  obtain ⟨o2, h2⟩ := scans_total rawCode
  rw [outcome_unique rawCode o o2 h (outcome_of_scans rawCode o2 h2)]
  exact h2

theorem scans_of_tokenizer (rawCode : Str) (fuel : Nat) (r : Except JsError (List Token))
    (h : tokenizer fuel rawCode = some r) : Scans rawCode (some r) :=
  scans_of_outcome rawCode (some r) (returns_of_tokenizer rawCode fuel r h)

theorem isWhiteSpace_not_class (w : Char) (hw : isWhiteSpace w = true) :
    isNumber w = false ∧ isLetter w = false ∧ w ≠ '"' := by
  refine ⟨?_, ?_, ?_⟩
  · cases h : isNumber w with
    | false => rfl
    | true => rw [(isNumber_not_special w h).2.2.2.1] at hw; cases hw
  · cases h : isLetter w with
    | false => rfl
    | true => rw [(isLetter_not_special w h).2.2.2.1] at hw; cases hw
  · rintro rfl; revert hw; decide

theorem map_prepend_eq_ok (o : Option (Except JsError (List Token))) (front tokens : List Token)
    (h : o.map (prepend front) = some (.ok tokens)) :
    ∃ more, o = some (.ok more) ∧ tokens = front ++ more := by
  cases o with
  | none => cases h
  | some r =>
    cases r with
    | error e => simp [prepend] at h
    | ok more =>
      simp only [Option.map_some', prepend, Option.some.injEq, Except.ok.injEq] at h
      exact ⟨more, rfl, h.symm⟩

/-- A run of characters of a class at the front of `a ++ [w]`, where `w` is not of the
class, lies inside `a`. -/
theorem split_snoc (xs post a : Str) (w : Char) (h : xs ++ post = a ++ [w])
    (hw : w ∉ xs) : ∃ a2, a = xs ++ a2 ∧ post = a2 ++ [w] := by
  induction xs generalizing a with
  | nil => exact ⟨a, rfl, h⟩
  | cons x xs ih =>
    cases a with
    | nil =>
      simp only [List.cons_append, List.nil_append, List.cons.injEq] at h
      exact absurd (h.1 ▸ List.mem_cons_self _ _) hw
    | cons y a =>
      simp only [List.cons_append, List.cons.injEq] at h
      obtain ⟨a2, h1, h2⟩ := ih a h.2 (fun hm => hw (List.mem_cons_of_mem _ hm))
      exact ⟨a2, by rw [h.1, h1]; rfl, h2⟩

theorem head?_append_snoc (a2 tail : Str) (w : Char) (p : Option Char → Bool)
    (h : p (a2 ++ [w]).head? = false) (ht : p tail.head? = false) :
    p (a2 ++ tail).head? = false := by
  cases a2 with
  | nil => exact ht
  | cons x a2 => exact h

/-- The scan of `a ++ [w]`, when the rules give tokens for it, is repeated on `a` when
`a` is followed by any `tail` that starts with neither a digit nor a letter; the outcome
is then that of `tail` with the tokens of `a ++ [w]` in front. -/
theorem scans_prefix (w : Char) (hw : isWhiteSpace w = true) (tail : Str)
    (ot : Option (Except JsError (List Token))) (htail : Scans tail ot)
    (hb1 : NUMBERS.test tail.head? = false) (hb2 : LETTERS.test tail.head? = false)
    (s : Str) (o : Option (Except JsError (List Token))) (h : Scans s o) :
    ∀ (a : Str) (front : List Token), s = a ++ [w] → o = some (.ok front) →
      Scans (a ++ tail) (ot.map (prepend front)) := by
  obtain ⟨hwn, hwl, hwq⟩ := isWhiteSpace_not_class w hw
  obtain ⟨hwo, hwc⟩ := isWhiteSpace_not_special w hw
  induction h with
  | done => intro a front hs; cases a <;> simp at hs
  | opening rest o _ ih =>
    intro a front hs ho
    obtain ⟨more, rfl, rfl⟩ := map_prepend_eq_ok _ _ _ ho
    cases a with
    | nil =>
      simp only [List.nil_append, List.cons.injEq] at hs
      exact absurd hs.1.symm hwo
    | cons y a =>
      simp only [List.cons_append, List.cons.injEq] at hs
      obtain ⟨rfl, rfl⟩ := hs
      have := Scans.opening _ _ (ih a more rfl rfl)
      rwa [map_prepend_prepend] at this
  | closing rest o _ ih =>
    intro a front hs ho
    obtain ⟨more, rfl, rfl⟩ := map_prepend_eq_ok _ _ _ ho
    cases a with
    | nil =>
      simp only [List.nil_append, List.cons.injEq] at hs
      exact absurd hs.1.symm hwc
    | cons y a =>
      simp only [List.cons_append, List.cons.injEq] at hs
      obtain ⟨rfl, rfl⟩ := hs
      have := Scans.closing _ _ (ih a more rfl rfl)
      rwa [map_prepend_prepend] at this
  | space c rest o hc hrest ih =>
    intro a front hs ho
    cases a with
    | nil =>
      simp only [List.nil_append, List.cons.injEq] at hs
      obtain ⟨rfl, rfl⟩ := hs
      cases hrest
      simp only [Option.some.injEq, Except.ok.injEq] at ho
      subst ho
      simpa [map_prepend_nil] using htail
    | cons y a =>
      simp only [List.cons_append, List.cons.injEq] at hs
      obtain ⟨rfl, rfl⟩ := hs
      exact Scans.space _ _ _ hc (ih a front rfl ho)
  | number d ds post o hds hpost _ ih =>
    intro a front hs ho
    obtain ⟨more, rfl, rfl⟩ := map_prepend_eq_ok _ _ _ ho
    obtain ⟨a2, rfl, rfl⟩ := split_snoc (d :: ds) post a w hs
      (fun hm => by rw [hds w hm] at hwn; cases hwn)
    have := Scans.number d ds (a2 ++ tail) _ hds
      (head?_append_snoc a2 tail w NUMBERS.test hpost hb1) (ih a2 more rfl rfl)
    rw [map_prepend_prepend] at this
    simpa [List.append_assoc] using this
  | string s post o hs' _ ih =>
    intro a front hs ho
    obtain ⟨more, rfl, rfl⟩ := map_prepend_eq_ok _ _ _ ho
    have hsplit : ('"' :: (s ++ ['"'])) ++ post = a ++ [w] := by simpa using hs
    cases post with
    | nil =>
      exfalso
      have hsnoc : ('"' :: s) ++ ['"'] = a ++ [w] := by simpa using hsplit
      have := (List.append_inj' hsnoc rfl).2
      simp only [List.cons.injEq, and_true] at this
      exact hwq this.symm
    | cons q post =>
      have hlast : ∃ a3, a = ('"' :: (s ++ ['"'])) ++ a3 ∧ q :: post = a3 ++ [w] := by
        have hlen := congrArg List.length hsplit
        simp only [List.length_append, List.length_cons, List.length_nil] at hlen
        refine ⟨a.drop (s.length + 2), ?_, ?_⟩
        · have := congrArg (List.take (s.length + 2)) hsplit
          rw [List.take_left' (by simp), List.take_append_of_le_length (by omega)] at this
          rw [this, List.take_append_drop]
        · have := congrArg (List.drop (s.length + 2)) hsplit
          rw [List.drop_left' (by simp), List.drop_append_of_le_length (by omega)] at this
          exact this
      obtain ⟨a3, rfl, hq⟩ := hlast
      have := Scans.string s (a3 ++ tail) _ hs' (ih a3 more hq rfl)
      rw [map_prepend_prepend] at this
      simpa [List.append_assoc] using this
  | openString s _ => intro a front _ ho; cases ho
  | name l ls post o hls hpost _ ih =>
    intro a front hs ho
    obtain ⟨more, rfl, rfl⟩ := map_prepend_eq_ok _ _ _ ho
    obtain ⟨a2, rfl, rfl⟩ := split_snoc (l :: ls) post a w hs
      (fun hm => by rw [hls w hm] at hwl; cases hwl)
    have := Scans.name l ls (a2 ++ tail) _ hls
      (head?_append_snoc a2 tail w LETTERS.test hpost hb2) (ih a2 more rfl rfl)
    rw [map_prepend_prepend] at this
    simpa [List.append_assoc] using this
  | openName l ls _ => intro a front _ ho; cases ho
  | invalid c rest => intro a front _ ho; cases ho

/-! ## Tokens in front of an outcome -/

theorem map_prepend_injective (front : List Token)
    (o1 o2 : Option (Except JsError (List Token)))
    (h : o1.map (prepend front) = o2.map (prepend front)) : o1 = o2 := by
  cases o1 with
  | none => cases o2 with
    | none => rfl
    | some r2 => cases h
  | some r1 => cases o2 with
    | none => cases h
    | some r2 =>
      simp only [Option.map_some', Option.some.injEq] at h
      cases r1 with
      | error e1 => cases r2 with
        | error e2 => simp only [prepend, Except.error.injEq] at h; rw [h]
        | ok t2 => simp [prepend] at h
      | ok t1 => cases r2 with
        | error e2 => simp [prepend] at h
        | ok t2 =>
          simp only [prepend, Except.ok.injEq] at h
          rw [List.append_cancel_left h]

theorem outcome_total (rawCode : Str) : ∃ o, Outcome rawCode o := by
  obtain ⟨o, ho⟩ := scans_total rawCode
  exact ⟨o, outcome_of_scans rawCode o ho⟩

/-- When the scanning rules turn every outcome of `rest` into the same outcome of `full`
with `front` put before the tokens, the tokenizer returns tokens on `full` exactly when it
does on `rest`, with `front` before them, throws on `full` exactly the errors it throws
on `rest`, and never returns on `full` exactly when it never returns on `rest`. -/
theorem outcome_prepend (full rest : Str) (front : List Token)
    (hrule : ∀ o, Scans rest o → Scans full (o.map (prepend front))) :
    (∀ tokens : List Token, Returns full (.ok tokens)
        ↔ ∃ more, tokens = front ++ more ∧ Returns rest (.ok more))
    ∧ (∀ e : JsError, Returns full (.error e) ↔ Returns rest (.error e))
    ∧ (NeverReturns full ↔ NeverReturns rest) := by
  have hto : ∀ o, Outcome rest o → Outcome full (o.map (prepend front)) := fun o ho =>
    outcome_of_scans full _ (hrule o (scans_of_outcome rest o ho))
  have hfrom : ∀ o2, Outcome full o2 → ∃ o, Outcome rest o ∧ o2 = o.map (prepend front) := by
    intro o2 ho2
    obtain ⟨o, ho⟩ := outcome_total rest
    exact ⟨o, ho, outcome_unique full _ _ ho2 (hto o ho)⟩
  refine ⟨fun tokens => ⟨fun h => ?_, fun h => ?_⟩, fun e => ⟨fun h => ?_, fun h => ?_⟩,
    ⟨fun h => ?_, fun h => ?_⟩⟩
  · obtain ⟨o, ho, heq⟩ := hfrom (some (.ok tokens)) h
    obtain ⟨more, rfl, hm⟩ := map_prepend_eq_ok o front tokens heq.symm
    exact ⟨more, hm, ho⟩
  · obtain ⟨more, rfl, hm⟩ := h
    exact hto (some (.ok more)) hm
  · obtain ⟨o, ho, heq⟩ := hfrom (some (.error e)) h
    cases o with
    | none => cases heq
    | some r =>
      cases r with
      | ok t => simp [prepend] at heq
      | error e2 =>
        simp only [Option.map_some', prepend, Option.some.injEq, Except.error.injEq] at heq
        rw [heq]; exact ho
  · exact hto (some (.error e)) h
  · obtain ⟨o, ho, heq⟩ := hfrom none h
    cases o with
    | none => exact ho
    | some r => cases heq
  · exact hto none h

/-! ## Claims about the tokenizer -/

/-- C11: when `p` followed by one space is an input on which the tokenizer returns
tokens, and `c` is none of `(`, `)`, white space, a digit, a double quote or a letter,
the tokenizer on `p ++ c ++ r` throws the error whose message is `Invalid character: `
followed by `c`, and so returns no tokens. -/
theorem tokenizer_invalid_character (p r : Str) (c : Char) (tokens : List Token)
    (hp : Returns (p ++ [' ']) (.ok tokens)) (hc : unrecognised c) :
    Returns (p ++ c :: r) (.error (.Error ("Invalid character: ".toList ++ [c]))) := by
  obtain ⟨h1, h2, h3, h4, h5, h6⟩ := hc
  have hs := scans_of_outcome (p ++ [' ']) (some (.ok tokens)) hp
  have ht := Scans.invalid c r h1 h2 h3 h4 h5 h6
  have := scans_prefix ' ' isWhiteSpace_space (c :: r) _ ht
    (by rw [List.head?_cons, NUMBERS_test_some]; exact h4)
    (by rw [List.head?_cons, LETTERS_test_some]; exact h6)
    (p ++ [' ']) _ hs p tokens rfl rfl
  exact outcome_of_scans (p ++ c :: r) _ this

/-- C11 at the input `(foo #)`: `(foo ` followed by a space gives tokens, `#` is not
recognised, and the tokenizer throws `Invalid character: #`. -/
theorem tokenizer_invalid_character_witness :
    Returns ("(foo ".toList ++ [' ']) (.ok [⟨.parentheses, ['(']⟩, ⟨.name, "foo".toList⟩])
    ∧ unrecognised '#'
    ∧ Returns ("(foo ".toList ++ '#' :: ")".toList)
        (.error (.Error ("Invalid character: ".toList ++ ['#'])))
    ∧ tokenizer 10 "(foo #)".toList = some (.error (.Error "Invalid character: #".toList)) :=
  ⟨returns_of_tokenizer _ 10 _ rfl, by unfold unrecognised; decide,
    tokenizer_invalid_character "(foo ".toList ")".toList '#'
      [⟨.parentheses, ['(']⟩, ⟨.name, "foo".toList⟩] (returns_of_tokenizer _ 10 _ rfl)
      (by unfold unrecognised; decide),
    rfl⟩

/-- C13: for every `s` without a double quote and every rest `r` of the input, the
tokenizer on `"` `s` `"` `r` returns the string token with the text `s` followed by the
tokens it returns on `r`; it throws exactly the errors it throws on `r`, and it never
returns exactly when it never returns on `r`. -/
theorem tokenizer_string_token (s r : Str) (hs : '"' ∉ s) :
    (∀ tokens : List Token, Returns ('"' :: (s ++ '"' :: r)) (.ok tokens)
        ↔ ∃ more, tokens = [⟨.string, s⟩] ++ more ∧ Returns r (.ok more))
    ∧ (∀ e : JsError, Returns ('"' :: (s ++ '"' :: r)) (.error e) ↔ Returns r (.error e))
    ∧ (NeverReturns ('"' :: (s ++ '"' :: r)) ↔ NeverReturns r) :=
  outcome_prepend _ r [⟨.string, s⟩] (fun o ho => Scans.string s r o hs ho)

/-- C13 at the input `"a (1" 2`: the string token keeps the space, the parenthesis and
the digit of its content. -/
theorem tokenizer_string_token_witness :
    '"' ∉ "a (1".toList
    ∧ ((∀ tokens : List Token,
          Returns ('"' :: ("a (1".toList ++ '"' :: " 2".toList)) (.ok tokens)
          ↔ ∃ more, tokens = [⟨.string, "a (1".toList⟩] ++ more
              ∧ Returns " 2".toList (.ok more))
      ∧ (∀ e : JsError, Returns ('"' :: ("a (1".toList ++ '"' :: " 2".toList)) (.error e)
          ↔ Returns " 2".toList (.error e))
      ∧ (NeverReturns ('"' :: ("a (1".toList ++ '"' :: " 2".toList))
          ↔ NeverReturns " 2".toList))
    ∧ tokenizer 10 "\"a (1\" 2".toList
        = some (.ok [⟨.string, "a (1".toList⟩, ⟨.number, "2".toList⟩]) :=
  ⟨by decide, tokenizer_string_token "a (1".toList " 2".toList (by decide), rfl⟩

theorem tokenizerLoop_whitespace (rawCode : Str) :
    ∀ (s : Str), (∀ c ∈ s, isWhiteSpace c = true) → ∀ (current : Nat) (tokens : List Token)
      (m : Nat), rawCode.drop current = s →
      tokenizerLoop rawCode (s.length + 1 + m) current tokens = some (.ok tokens)
  | [], _, current, tokens, m, hd => by
    rw [show ([] : Str).length + 1 + m = m + 1 by simp; omega]
    exact tokenizerLoop_end rawCode m current tokens hd
  | c :: s, hs, current, tokens, m, hd => by
    rw [show (c :: s).length + 1 + m = (s.length + 1 + m) + 1 by simp; omega,
      tokenizerLoop_space rawCode _ current tokens c s hd (hs c (List.mem_cons_self _ _))]
    exact tokenizerLoop_whitespace rawCode s (fun x hx => hs x (List.mem_cons_of_mem _ hx))
      (current + 1) tokens m (drop_succ_of_drop_cons _ _ _ _ hd)

/-- C14: on every string made up of white space only, the empty string included, the
tokenizer returns the empty sequence of tokens (with any fuel from the length of the
string plus one on). -/
theorem tokenizer_whitespace_only (s : Str) (hs : ∀ c ∈ s, isWhiteSpace c = true) :
    ∀ m : Nat, tokenizer (s.length + 1 + m) s = some (.ok []) :=
  fun m => tokenizerLoop_whitespace s s hs 0 [] m rfl

/-- C14 at the empty string and at the string of three spaces. -/
theorem tokenizer_whitespace_only_witness :
    (∀ c ∈ "".toList, isWhiteSpace c = true)
    ∧ (∀ m : Nat, tokenizer ("".toList.length + 1 + m) "".toList = some (.ok []))
    ∧ (∀ c ∈ "   ".toList, isWhiteSpace c = true)
    ∧ (∀ m : Nat, tokenizer ("   ".toList.length + 1 + m) "   ".toList = some (.ok []))
    ∧ tokenizer 1 "".toList = some (.ok [])
    ∧ tokenizer 4 "   ".toList = some (.ok []) :=
  ⟨by decide, tokenizer_whitespace_only "".toList (by decide), by decide,
    tokenizer_whitespace_only "   ".toList (by decide), rfl, rfl⟩

/-- C19: white space is a token boundary.  When the tokenizer returns tokens on `a`
followed by the white-space character `w`, then on `a ++ w ++ b` it returns those tokens
followed by the tokens it returns on `b`; it throws exactly the errors it throws on `b`,
and it never returns exactly when it never returns on `b`. -/
theorem tokenizer_whitespace_boundary (a b : Str) (w : Char) (front : List Token)
    (hw : isWhiteSpace w = true) (ha : Returns (a ++ [w]) (.ok front)) :
    (∀ tokens : List Token, Returns (a ++ w :: b) (.ok tokens)
        ↔ ∃ more, tokens = front ++ more ∧ Returns b (.ok more))
    ∧ (∀ e : JsError, Returns (a ++ w :: b) (.error e) ↔ Returns b (.error e))
    ∧ (NeverReturns (a ++ w :: b) ↔ NeverReturns b) := by
  obtain ⟨hwn, hwl, _⟩ := isWhiteSpace_not_class w hw
  have hs := scans_of_outcome (a ++ [w]) (some (.ok front)) ha
  exact outcome_prepend _ b front (fun o ho =>
    scans_prefix w hw (w :: b) o (Scans.space w b o hw ho)
      (by rw [List.head?_cons, NUMBERS_test_some]; exact hwn)
      (by rw [List.head?_cons, LETTERS_test_some]; exact hwl)
      (a ++ [w]) _ hs a front rfl rfl)

/-- C19 at `a` the text `(add 1`, `w` a space and `b` the text `2)`. -/
theorem tokenizer_whitespace_boundary_witness :
    isWhiteSpace ' ' = true
    ∧ Returns ("(add 1".toList ++ [' '])
        (.ok [⟨.parentheses, ['(']⟩, ⟨.name, "add".toList⟩, ⟨.number, ['1']⟩])
    ∧ ((∀ tokens : List Token, Returns ("(add 1".toList ++ ' ' :: "2)".toList) (.ok tokens)
          ↔ ∃ more, tokens
              = [⟨.parentheses, ['(']⟩, ⟨.name, "add".toList⟩, ⟨.number, ['1']⟩] ++ more
              ∧ Returns "2)".toList (.ok more))
      ∧ (∀ e : JsError, Returns ("(add 1".toList ++ ' ' :: "2)".toList) (.error e)
          ↔ Returns "2)".toList (.error e))
      ∧ (NeverReturns ("(add 1".toList ++ ' ' :: "2)".toList)
          ↔ NeverReturns "2)".toList)) :=
  ⟨rfl, returns_of_tokenizer _ 10 _ rfl,
    tokenizer_whitespace_boundary "(add 1".toList "2)".toList ' '
      [⟨.parentheses, ['(']⟩, ⟨.name, "add".toList⟩, ⟨.number, ['1']⟩] rfl
      (returns_of_tokenizer _ 10 _ rfl)⟩

/-! ## Errors and tokens of the tokenizer -/

theorem map_prepend_eq_error (o : Option (Except JsError (List Token))) (front : List Token)
    (e : JsError) (h : o.map (prepend front) = some (.error e)) : o = some (.error e) := by
  cases o with
  | none => cases h
  | some r =>
    cases r with
    | ok t => simp [prepend] at h
    | error e2 => simpa [prepend] using h

/-- An error that the scanning rules give is the error for an unrecognised character of
the input. -/
theorem scans_error (s : Str) (o : Option (Except JsError (List Token))) (h : Scans s o) :
    ∀ e : JsError, o = some (.error e) →
      ∃ c, c ∈ s ∧ unrecognised c ∧ e = invalidCharacter c := by
  induction h with
  | done => intro e he; cases he
  | opening rest o _ ih =>
    intro e he
    obtain ⟨c, hc, hu, rfl⟩ := ih e (map_prepend_eq_error _ _ _ he)
    exact ⟨c, List.mem_cons_of_mem _ hc, hu, rfl⟩
  | closing rest o _ ih =>
    intro e he
    obtain ⟨c, hc, hu, rfl⟩ := ih e (map_prepend_eq_error _ _ _ he)
    exact ⟨c, List.mem_cons_of_mem _ hc, hu, rfl⟩
  | space c0 rest o _ _ ih =>
    intro e he
    obtain ⟨c, hc, hu, rfl⟩ := ih e he
    exact ⟨c, List.mem_cons_of_mem _ hc, hu, rfl⟩
  | number d ds post o _ _ _ ih =>
    intro e he
    obtain ⟨c, hc, hu, rfl⟩ := ih e (map_prepend_eq_error _ _ _ he)
    exact ⟨c, List.mem_append_right _ hc, hu, rfl⟩
  | string s post o _ _ ih =>
    intro e he
    obtain ⟨c, hc, hu, rfl⟩ := ih e (map_prepend_eq_error _ _ _ he)
    exact ⟨c, List.mem_cons_of_mem _ (List.mem_append_right _ (List.mem_cons_of_mem _ hc)),
      hu, rfl⟩
  | openString s _ => intro e he; cases he
  | name l ls post o _ _ _ ih =>
    intro e he
    obtain ⟨c, hc, hu, rfl⟩ := ih e (map_prepend_eq_error _ _ _ he)
    exact ⟨c, List.mem_append_right _ hc, hu, rfl⟩
  | openName l ls _ => intro e he; cases he
  | invalid c rest h1 h2 h3 h4 h5 h6 =>
    intro e he
    simp only [Option.some.injEq, Except.error.injEq] at he
    exact ⟨c, List.mem_cons_self _ _, ⟨h1, h2, h3, h4, h5, h6⟩, he.symm⟩

/-- The first character of `p2 ++ [' ']` is tested as the first character of
`p2 ++ c :: rest` is, or is the space. -/
theorem head?_snoc_of_head? (p2 rest : Str) (c : Char) (f : Option Char → Bool)
    (h : f (p2 ++ c :: rest).head? = false) (hs : f (some ' ') = false) :
    f (p2 ++ [' ']).head? = false := by
  cases p2 with
  | nil => exact hs
  | cons x p2 => exact h

/-- An error that the scanning rules give is the error for the character at which they
stop: the input is a part that the rules read to its end, giving tokens, followed by an
unrecognised character, and the error is the one for that character. -/
theorem scans_error_at (s : Str) (o : Option (Except JsError (List Token))) (h : Scans s o) :
    ∀ e : JsError, o = some (.error e) →
      ∃ (p : Str) (c : Char) (r : Str) (front : List Token),
        s = p ++ c :: r ∧ Scans (p ++ [' ']) (some (.ok front)) ∧ unrecognised c
          ∧ e = invalidCharacter c := by
  induction h with
  | done => intro e he; cases he
  | opening rest o _ ih =>
    intro e he
    obtain ⟨p, c, r, front, rfl, hp, hu, rfl⟩ := ih e (map_prepend_eq_error _ _ _ he)
    refine ⟨'(' :: p, c, r, [⟨.parentheses, ['(']⟩] ++ front, rfl, ?_, hu, rfl⟩
    exact Scans.opening (p ++ [' ']) (some (.ok front)) hp
  | closing rest o _ ih =>
    intro e he
    obtain ⟨p, c, r, front, rfl, hp, hu, rfl⟩ := ih e (map_prepend_eq_error _ _ _ he)
    refine ⟨')' :: p, c, r, [⟨.parentheses, [')']⟩] ++ front, rfl, ?_, hu, rfl⟩
    exact Scans.closing (p ++ [' ']) (some (.ok front)) hp
  | space c0 rest o hc0 _ ih =>
    intro e he
    obtain ⟨p, c, r, front, rfl, hp, hu, rfl⟩ := ih e he
    exact ⟨c0 :: p, c, r, front, rfl, Scans.space _ _ _ hc0 hp, hu, rfl⟩
  | number d ds post o hds hpost _ ih =>
    intro e he
    obtain ⟨p, c, r, front, rfl, hp, hu, rfl⟩ := ih e (map_prepend_eq_error _ _ _ he)
    refine ⟨(d :: ds) ++ p, c, r, [⟨.number, d :: ds⟩] ++ front, by simp, ?_, hu, rfl⟩
    have := Scans.number d ds (p ++ [' ']) _ hds
      (head?_snoc_of_head? p r c NUMBERS.test hpost (by rfl)) hp
    simpa [List.append_assoc] using this
  | string s post o hs _ ih =>
    intro e he
    obtain ⟨p, c, r, front, rfl, hp, hu, rfl⟩ := ih e (map_prepend_eq_error _ _ _ he)
    refine ⟨'"' :: (s ++ '"' :: p), c, r, [⟨.string, s⟩] ++ front, by simp, ?_, hu, rfl⟩
    have := Scans.string s (p ++ [' ']) _ hs hp
    simpa [List.append_assoc] using this
  | openString s _ => intro e he; cases he
  | name l ls post o hls hpost _ ih =>
    intro e he
    obtain ⟨p, c, r, front, rfl, hp, hu, rfl⟩ := ih e (map_prepend_eq_error _ _ _ he)
    refine ⟨(l :: ls) ++ p, c, r, [⟨.name, l :: ls⟩] ++ front, by simp, ?_, hu, rfl⟩
    have := Scans.name l ls (p ++ [' ']) _ hls
      (head?_snoc_of_head? p r c LETTERS.test hpost (by rfl)) hp
    simpa [List.append_assoc] using this
  | openName l ls _ => intro e he; cases he
  | invalid c rest h1 h2 h3 h4 h5 h6 =>
    intro e he
    simp only [Option.some.injEq, Except.error.injEq] at he
    exact ⟨[], c, rest, [], rfl, Scans.space ' ' [] _ isWhiteSpace_space Scans.done,
      ⟨h1, h2, h3, h4, h5, h6⟩, he.symm⟩

/-- After a part of the input that the tokenizer reads to its end, an unrecognised
character makes it throw the error for that character. -/
theorem returns_invalid_after (p r : Str) (c : Char) (tokens : List Token)
    (hp : Returns (p ++ [' ']) (.ok tokens)) (hc : unrecognised c) :
    Returns (p ++ c :: r) (.error (invalidCharacter c)) := by
  obtain ⟨h1, h2, h3, h4, h5, h6⟩ := hc
  have hs := scans_of_outcome (p ++ [' ']) (some (.ok tokens)) hp
  have ht := Scans.invalid c r h1 h2 h3 h4 h5 h6
  have := scans_prefix ' ' isWhiteSpace_space (c :: r) _ ht
    (by rw [List.head?_cons, NUMBERS_test_some]; exact h4)
    (by rw [List.head?_cons, LETTERS_test_some]; exact h6)
    (p ++ [' ']) _ hs p tokens rfl rfl
  exact outcome_of_scans (p ++ c :: r) _ this

/-- The part of the input read before the tokenizer throws is determined by the input:
two ways of splitting it into a part read to its end and an unrecognised character
after it are the same. -/
theorem clean_prefix_unique (p p2 r r2 : Str) (c c2 : Char) (tokens tokens2 : List Token)
    (h : p ++ c :: r = p2 ++ c2 :: r2)
    (hp : Returns (p ++ [' ']) (.ok tokens)) (hc : unrecognised c)
    (hp2 : Returns (p2 ++ [' ']) (.ok tokens2)) (hc2 : unrecognised c2) :
    p = p2 ∧ c = c2 ∧ r = r2 := by
  rcases List.append_eq_append_iff.mp h with ⟨a, ha, hb⟩ | ⟨a, ha, hb⟩
  · cases a with
    | nil =>
      simp only [List.nil_append, List.cons.injEq] at hb
      exact ⟨by simpa using ha.symm, hb.1, hb.2⟩
    | cons x a =>
      simp only [List.cons_append, List.cons.injEq] at hb
      obtain ⟨rfl, -⟩ := hb
      subst ha
      have herr := returns_invalid_after p (a ++ [' ']) c tokens hp hc
      rw [show p ++ c :: (a ++ [' ']) = p ++ c :: a ++ [' '] by simp] at herr
      cases returns_unique _ _ _ herr hp2
  · cases a with
    | nil =>
      simp only [List.nil_append, List.cons.injEq] at hb
      exact ⟨by simpa using ha, hb.1.symm, hb.2.symm⟩
    | cons x a =>
      simp only [List.cons_append, List.cons.injEq] at hb
      obtain ⟨rfl, -⟩ := hb
      subst ha
      have herr := returns_invalid_after p2 (a ++ [' ']) c2 tokens2 hp2 hc2
      rw [show p2 ++ c2 :: (a ++ [' ']) = p2 ++ c2 :: a ++ [' '] by simp] at herr
      cases returns_unique _ _ _ herr hp

/-- C16 as stated fails: on the inputs `#` and ` #`, where the unrecognised character is
at the positions 0 and 1, the tokenizer throws one and the same error, whose message is
`Invalid character: #`; nothing in it tells the two positions apart. -/
theorem tokenizer_error_has_no_position :
    tokenizer 1 "#".toList = some (.error (.Error "Invalid character: #".toList))
    ∧ tokenizer 2 " #".toList = some (.error (.Error "Invalid character: #".toList)) :=
  ⟨rfl, rfl⟩

/-- C16, amended: the error the tokenizer throws identifies the unrecognised character
at which it stops, and nothing else.  When the tokenizer throws `e` on `rawCode`, the
input is `p ++ c ++ r` where `p` is read to its end (the tokenizer returns tokens on `p`
followed by one space), `c` is none of `(`, `)`, white space, a digit, a double quote or
a letter, and `e` is the `Error` whose message is `Invalid character: ` followed by `c`;
this way of splitting the input is the only one, so `c` is the character the scan stops
at and no later unrecognised character; and `e` carries no position: the tokenizer
throws the same `e` for `c` after any other part read to its end. -/
theorem tokenizer_error_cites_character (rawCode : Str) (fuel : Nat) (e : JsError)
    (h : tokenizer fuel rawCode = some (.error e)) :
    ∃ (p : Str) (c : Char) (r : Str) (tokens : List Token),
      rawCode = p ++ c :: r
      ∧ Returns (p ++ [' ']) (.ok tokens)
      ∧ unrecognised c
      ∧ e = .Error ("Invalid character: ".toList ++ [c])
      ∧ (∀ (p2 : Str) (c2 : Char) (r2 : Str) (tokens2 : List Token),
          rawCode = p2 ++ c2 :: r2 → Returns (p2 ++ [' ']) (.ok tokens2) → unrecognised c2 →
          p2 = p ∧ c2 = c ∧ r2 = r)
      ∧ ∀ (p2 r2 : Str) (tokens2 : List Token), Returns (p2 ++ [' ']) (.ok tokens2) →
          Returns (p2 ++ c :: r2) (.error e) := by
  obtain ⟨p, c, r, front, hs, hp, hu, he⟩ :=
    scans_error_at rawCode _ (scans_of_tokenizer rawCode fuel _ h) e rfl
  have hret := outcome_of_scans _ _ hp
  refine ⟨p, c, r, front, hs, hret, hu, he, ?_, ?_⟩
  · intro p2 c2 r2 tokens2 hs2 hp2 hu2
    exact clean_prefix_unique p2 p r2 r c2 c tokens2 front (hs2.symm.trans hs) hp2 hu2 hret hu
  · intro p2 r2 tokens2 hp2
    rw [he]
    exact returns_invalid_after p2 r2 c tokens2 hp2 hu

/-- C16, amended, at the input `(a # $)`, which has the two unrecognised characters `#`
and `$`: the tokenizer throws `Invalid character: #`; the input is `(a ` read to its
end, then `#`, then ` $)`, and no other split fits, so the error is the one for `#` and
not for `$`; the same error is thrown for `#` after any other part read to its end. -/
theorem tokenizer_error_cites_character_witness :
    tokenizer 10 "(a # $)".toList = some (.error (.Error "Invalid character: #".toList))
    ∧ "(a # $)".toList = "(a ".toList ++ '#' :: " $)".toList
    ∧ Returns ("(a ".toList ++ [' ']) (.ok [⟨.parentheses, ['(']⟩, ⟨.name, ['a']⟩])
    ∧ unrecognised '#'
    ∧ unrecognised '$'
    ∧ (∀ (p2 : Str) (c2 : Char) (r2 : Str) (tokens2 : List Token),
        "(a # $)".toList = p2 ++ c2 :: r2 → Returns (p2 ++ [' ']) (.ok tokens2) →
        unrecognised c2 → p2 = "(a ".toList ∧ c2 = '#' ∧ r2 = " $)".toList)
    ∧ ∀ (p2 r2 : Str) (tokens2 : List Token), Returns (p2 ++ [' ']) (.ok tokens2) →
        Returns (p2 ++ '#' :: r2) (.error (.Error "Invalid character: #".toList)) := by
  obtain ⟨p, c, r, tokens, -, -, -, -, hunique, hsame⟩ :=
    tokenizer_error_cites_character "(a # $)".toList 10
      (.Error "Invalid character: #".toList) rfl
  obtain ⟨rfl, rfl, rfl⟩ := hunique "(a ".toList '#' " $)".toList
    [⟨.parentheses, ['(']⟩, ⟨.name, ['a']⟩] rfl (returns_of_tokenizer _ 10 _ rfl)
    (by unfold unrecognised; decide)
  exact ⟨rfl, rfl, returns_of_tokenizer _ 10 _ rfl, by unfold unrecognised; decide,
    by unfold unrecognised; decide, hunique, hsame⟩

/-- The tokens that the scanning rules give have the four shapes. -/
theorem scans_shaped (s : Str) (o : Option (Except JsError (List Token))) (h : Scans s o) :
    ∀ tokens : List Token, o = some (.ok tokens) → ∀ t ∈ tokens, t.shaped := by
  induction h with
  | done =>
    intro tokens ho t ht
    simp only [Option.some.injEq, Except.ok.injEq] at ho
    subst ho; cases ht
  | opening rest o _ ih =>
    intro tokens ho t ht
    obtain ⟨more, rfl, rfl⟩ := map_prepend_eq_ok _ _ _ ho
    rcases List.mem_append.mp ht with h1 | h1
    · rw [List.mem_singleton.mp h1]; exact Or.inl rfl
    · exact ih more rfl t h1
  | closing rest o _ ih =>
    intro tokens ho t ht
    obtain ⟨more, rfl, rfl⟩ := map_prepend_eq_ok _ _ _ ho
    rcases List.mem_append.mp ht with h1 | h1
    · rw [List.mem_singleton.mp h1]; exact Or.inr rfl
    · exact ih more rfl t h1
  | space c rest o _ _ ih => exact ih
  | number d ds post o hds _ _ ih =>
    intro tokens ho t ht
    obtain ⟨more, rfl, rfl⟩ := map_prepend_eq_ok _ _ _ ho
    rcases List.mem_append.mp ht with h1 | h1
    · rw [List.mem_singleton.mp h1]; exact ⟨List.cons_ne_nil _ _, hds⟩
    · exact ih more rfl t h1
  | string s post o hs _ ih =>
    intro tokens ho t ht
    obtain ⟨more, rfl, rfl⟩ := map_prepend_eq_ok _ _ _ ho
    rcases List.mem_append.mp ht with h1 | h1
    · rw [List.mem_singleton.mp h1]; exact hs
    · exact ih more rfl t h1
  | openString s _ => intro tokens ho; cases ho
  | name l ls post o hls _ _ ih =>
    intro tokens ho t ht
    obtain ⟨more, rfl, rfl⟩ := map_prepend_eq_ok _ _ _ ho
    rcases List.mem_append.mp ht with h1 | h1
    · rw [List.mem_singleton.mp h1]; exact ⟨List.cons_ne_nil _ _, hls⟩
    · exact ih more rfl t h1
  | openName l ls _ => intro tokens ho; cases ho
  | invalid c rest => intro tokens ho; cases ho

/-- C17: on every input on which the tokenizer returns tokens, each token has one of the
four shapes: a parenthesis with the text `(` or `)`, a number with a non-empty text of
digits `0` to `9`, a name with a non-empty text of ASCII letters, a string with a text
that has no double quote. -/
theorem tokenizer_tokens_shaped (rawCode : Str) (fuel : Nat) (tokens : List Token)
    (h : tokenizer fuel rawCode = some (.ok tokens)) : ∀ t ∈ tokens, t.shaped :=
  scans_shaped rawCode _ (scans_of_tokenizer rawCode fuel _ h) tokens rfl

/-- C17 at the input `(add 12 "x y")`. -/
theorem tokenizer_tokens_shaped_witness :
    tokenizer 20 "(add 12 \"x y\")".toList
      = some (.ok [⟨.parentheses, ['(']⟩, ⟨.name, "add".toList⟩, ⟨.number, "12".toList⟩,
          ⟨.string, "x y".toList⟩, ⟨.parentheses, [')']⟩])
    ∧ ∀ t ∈ [(⟨.parentheses, ['(']⟩ : Token), ⟨.name, "add".toList⟩, ⟨.number, "12".toList⟩,
          ⟨.string, "x y".toList⟩, ⟨.parentheses, [')']⟩], t.shaped :=
  ⟨rfl, tokenizer_tokens_shaped "(add 12 \"x y\")".toList 20 _ rfl⟩

/-! ## Tokens that walk does not expect -/

/-- C15: `parser` applied to the empty sequence of tokens, to an absent argument and to
an argument that is not an array (both replaced by the empty sequence) returns a
`Program` with an empty body and throws nothing, with any fuel from one on. -/
theorem parser_empty :
    ∀ m : Nat,
      parser (1 + m) [] = some (.ok (.Program []))
      ∧ parserOf (1 + m) (.array []) = some (.ok (.Program []))
      ∧ parserOf (1 + m) .absent = some (.ok (.Program []))
      ∧ parserOf (1 + m) .notArray = some (.ok (.Program [])) := by
  intro m
  have h : parser (1 + m) [] = some (.ok (.Program [])) := by
    rw [Nat.add_comm, parser, parserLoop]
    simp
  exact ⟨h, h, h, h⟩

theorem walk_unexpected (tokens : List Token) (fuel current : Nat) (token : Token)
    (h : tokens[current]? = some token) (h1 : token.type ≠ .number)
    (h2 : token.type ≠ .string)
    (h3 : ¬ (token.type = .parentheses ∧ token.value = ['('])) :
    walk tokens (fuel + 1) current = some (.error (.Error token.type.text)) := by
  rw [walk, h]
  simp only [if_neg h1, if_neg h2, if_neg h3]

theorem walkParams_unexpected (tokens : List Token) (fuel current : Nat) (value : Str)
    (name : Str) (params : List Node)
    (h : tokens[current]? = some ⟨.name, value⟩) :
    walkParams tokens (fuel + 1 + 1) name params current
      = some (.error (.Error "name".toList)) := by
  have hw := walk_unexpected tokens fuel current ⟨.name, value⟩ h (by simp) (by simp)
    (by simp)
  rw [walkParams, h]
  simp only [hw]
  simp [TokenType.text]

/-- When the tokens go on, after groups that `walk` has opened, with something on which
the parameter loop fails with `e`, `walk` fails with `e`. -/
theorem walk_unclosed_then (tokens : List Token) (e : JsError) (tail : List Token)
    (bound : Nat) (hb : 1 ≤ bound) :
    ∀ (frame : Token × List Tree) (inner : List (Token × List Tree)) (fuel current : Nat),
      tokens.drop current = unclosed (frame :: inner) ++ tail →
      (unclosed (frame :: inner)).length + bound ≤ fuel →
      (∀ (fuel : Nat) (name : Str) (params : List Node), bound ≤ fuel →
        walkParams tokens fuel name params (current + (unclosed (frame :: inner)).length)
          = some (.error e)) →
      walk tokens fuel current = some (.error e)
  | (nameToken, args), inner, fuel, current, h, hf, hend => by
    obtain ⟨fuel, rfl⟩ : ∃ k, fuel = k + 1 := ⟨fuel - 1, by omega⟩
    simp only [unclosed, List.cons_append, List.append_assoc] at h
    simp only [unclosed, List.length_cons, List.length_append] at hf hend
    have h1 := drop_succ_of_drop_cons _ _ _ _ h
    have h2 := drop_succ_of_drop_cons _ _ _ _ h1
    have hp := walkParams_then_error tokens e args
      ((unclosed inner).length + bound + 1) fuel nameToken.value [] (current + 1 + 1)
      (unclosed inner ++ tail) h2 (by omega) (by omega)
      (by
        intro fuel name params hfuel
        have hd := drop_add_of_drop_append _ _ _ _ h2
        cases inner with
        | nil =>
          have := hend fuel name params (by simp [unclosed] at hfuel; omega)
          simp only [unclosed, List.length_nil, Nat.add_zero] at this
          rw [show current + 1 + 1 + (flattenAll args).length
            = current + ((flattenAll args).length + 1 + 1) by omega]
          exact this
        | cons frame2 inner2 =>
          obtain ⟨fuel, rfl⟩ : ∃ k, fuel = k + 1 := ⟨fuel - 1, by omega⟩
          have hw := walk_unclosed_then tokens e tail bound hb frame2 inner2 fuel _ hd
            (by omega)
            (by
              intro fuel name params hfuel
              have := hend fuel name params hfuel
              obtain ⟨name2, args2⟩ := frame2
              simp only [unclosed, List.length_cons, List.length_append] at this ⊢
              rw [show current + 1 + 1 + (flattenAll args).length
                  + ((flattenAll args2).length + (unclosed inner2).length + 1 + 1)
                = current + ((flattenAll args).length
                  + ((flattenAll args2).length + (unclosed inner2).length + 1 + 1) + 1 + 1)
                by omega]
              exact this)
          obtain ⟨name2, args2⟩ := frame2
          simp only [unclosed, List.cons_append] at hd
          rw [walkParams, getElem?_of_drop_cons _ _ _ _ hd]
          simp [hw])
    rw [walk, getElem?_of_drop_cons _ _ _ _ h]
    simp [getElem?_of_drop_cons _ _ _ _ h1, hp]
termination_by _ inner => inner.length

/-! ## Failures of the parser -/

/-- Complete trees followed by tokens at which `walk` fails with `e`: `parser` fails
with `e`. -/
theorem parser_fails_after (forms : List Tree) (first : Token) (tail : List Token)
    (e : JsError) (bound : Nat)
    (hwalk : ∀ fuel : Nat, bound ≤ fuel →
      walk (flattenAll forms ++ first :: tail) fuel (flattenAll forms).length
        = some (.error e)) :
    ∀ m : Nat,
      parser ((flattenAll forms).length + bound + 1 + 1 + m) (flattenAll forms ++ first :: tail)
        = some (.error e) := by
  intro m
  rw [parser]
  apply parserLoop_then_error _ _ forms (bound + 1) _ 0 [] (first :: tail) rfl (by omega)
    (by omega)
  intro fuel body hfuel
  obtain ⟨fuel, rfl⟩ : ∃ k, fuel = k + 1 := ⟨fuel - 1, by omega⟩
  have hw := hwalk fuel (by omega)
  have hlt : 0 + (flattenAll forms).length < (flattenAll forms ++ first :: tail).length := by
    simp
  simp only [Nat.zero_add] at hlt ⊢
  rw [parserLoop, if_pos hlt]
  simp only [hw]

/-- C12: a token at which `walk` starts and that is neither a number, a string nor an
opening parenthesis makes it fail with the error whose message is the kind of the token
(first part).  So after any complete source trees a name token makes `parser` fail with
the message `name` and a `)` token with the message `parentheses`, whatever follows
(second and third part); and a name token in argument position of a call that is still
open, after any complete arguments and at any depth of open calls, makes `parser` fail
with the message `name` (fourth part). -/
theorem parser_unexpected_token :
    (∀ (tokens : List Token) (fuel current : Nat) (token : Token),
        tokens[current]? = some token → token.type ≠ .number → token.type ≠ .string →
        ¬ (token.type = .parentheses ∧ token.value = ['(']) →
        walk tokens (fuel + 1) current = some (.error (.Error token.type.text)))
    ∧ (∀ (forms : List Tree) (value : Str) (rest : List Token) (m : Nat),
        parser ((flattenAll forms).length + 3 + m) (flattenAll forms ++ ⟨.name, value⟩ :: rest)
          = some (.error (.Error "name".toList)))
    ∧ (∀ (forms : List Tree) (rest : List Token) (m : Nat),
        parser ((flattenAll forms).length + 3 + m)
            (flattenAll forms ++ ⟨.parentheses, [')']⟩ :: rest)
          = some (.error (.Error "parentheses".toList)))
    ∧ (∀ (forms : List Tree) (frame : Token × List Tree) (inner : List (Token × List Tree))
        (value : Str) (rest : List Token) (m : Nat),
        parser ((flattenAll forms).length + (unclosed (frame :: inner)).length + 4 + m)
            (flattenAll forms ++ (unclosed (frame :: inner) ++ ⟨.name, value⟩ :: rest))
          = some (.error (.Error "name".toList))) := by
  refine ⟨walk_unexpected, ?_, ?_, ?_⟩
  · intro forms value rest m
    apply parser_fails_after forms ⟨.name, value⟩ rest (.Error "name".toList) 1
    intro fuel hfuel
    obtain ⟨fuel, rfl⟩ : ∃ k, fuel = k + 1 := ⟨fuel - 1, by omega⟩
    exact walk_unexpected _ fuel _ ⟨.name, value⟩
      (getElem?_of_drop_cons _ _ _ rest (by simp)) (by simp) (by simp) (by simp)
  · intro forms rest m
    apply parser_fails_after forms ⟨.parentheses, [')']⟩ rest (.Error "parentheses".toList) 1
    intro fuel hfuel
    obtain ⟨fuel, rfl⟩ : ∃ k, fuel = k + 1 := ⟨fuel - 1, by omega⟩
    exact walk_unexpected _ fuel _ ⟨.parentheses, [')']⟩
      (getElem?_of_drop_cons _ _ _ rest (by simp)) (by simp) (by simp) (by simp)
  · intro forms frame inner value rest m
    obtain ⟨nameToken, args⟩ := frame
    have h := parser_fails_after forms ⟨.parentheses, ['(']⟩
      (nameToken :: (flattenAll args ++ unclosed inner) ++ ⟨.name, value⟩ :: rest)
      (.Error "name".toList) ((unclosed ((nameToken, args) :: inner)).length + 2)
      (by
        intro fuel hfuel
        apply walk_unclosed_then _ _ (⟨.name, value⟩ :: rest) 2 (by omega) (nameToken, args)
          inner fuel _ (by simp [unclosed]) hfuel
        intro fuel name params hfuel
        obtain ⟨fuel, rfl⟩ : ∃ k, fuel = k + 1 + 1 := ⟨fuel - 2, by omega⟩
        exact walkParams_unexpected _ fuel _ value name params
          (getElem?_of_drop_cons _ _ _ rest (by simp [unclosed])))
      m
    simp only [unclosed, List.cons_append, List.append_assoc] at h ⊢
    rw [show (flattenAll forms).length
        + (⟨.parentheses, ['(']⟩ :: nameToken :: (flattenAll args ++ unclosed inner)).length
        + 4 + m
      = (flattenAll forms).length
        + ((⟨.parentheses, ['(']⟩ :: nameToken :: (flattenAll args ++ unclosed inner)).length
          + 2) + 1 + 1 + m by omega]
    exact h

/-- C12 at the tokens of `(add x 1)`, where the name token `x` is in argument position,
and at the tokens of `(a) b` and `(a) )`. -/
theorem parser_unexpected_token_witness :
    parser (0 + 2 + 4 + 0)
        [⟨.parentheses, ['(']⟩, ⟨.name, "add".toList⟩, ⟨.name, "x".toList⟩,
          ⟨.number, "1".toList⟩, ⟨.parentheses, [')']⟩]
      = some (.error (.Error "name".toList))
    ∧ parser (3 + 3 + 0)
        [⟨.parentheses, ['(']⟩, ⟨.name, "a".toList⟩, ⟨.parentheses, [')']⟩,
          ⟨.name, "b".toList⟩]
      = some (.error (.Error "name".toList))
    ∧ parser (3 + 3 + 0)
        [⟨.parentheses, ['(']⟩, ⟨.name, "a".toList⟩, ⟨.parentheses, [')']⟩,
          ⟨.parentheses, [')']⟩]
      = some (.error (.Error "parentheses".toList)) :=
  ⟨parser_unexpected_token.2.2.2 [] (⟨.name, "add".toList⟩, []) [] "x".toList
      [⟨.number, "1".toList⟩, ⟨.parentheses, [')']⟩] 0,
    parser_unexpected_token.2.1 [.call "a".toList []] "b".toList [] 0,
    parser_unexpected_token.2.2.1 [.call "a".toList []] [] 0⟩

/-! ## Termination of the parser -/

/-- A call of `walk` that returns has moved the cursor forward, by at least one token and
not beyond the end of the tokens; so has its parameter loop. -/
theorem walk_progress (tokens : List Token) :
    ∀ fuel : Nat,
      (∀ (current : Nat) (node : Node) (next : Nat),
        walk tokens fuel current = some (.ok (node, next)) →
          current < next ∧ next ≤ tokens.length)
      ∧ (∀ (name : Str) (params : List Node) (current : Nat) (node : Node) (next : Nat),
        walkParams tokens fuel name params current = some (.ok (node, next)) →
          current < next ∧ next ≤ tokens.length) := by
  intro fuel
  induction fuel with
  | zero =>
    constructor
    · intro current node next h; simp [walk] at h
    · intro name params current node next h; simp [walkParams] at h
  | succ fuel ih =>
    constructor
    · intro current node next h
      rw [walk] at h
      split at h
      · simp at h
      · rename_i token htoken
        have hlt : current < tokens.length := by
          by_contra hge
          rw [List.getElem?_eq_none (by omega)] at htoken
          cases htoken
        split at h
        · simp only [Option.some.injEq, Except.ok.injEq, Prod.mk.injEq] at h
          omega
        · split at h
          · simp only [Option.some.injEq, Except.ok.injEq, Prod.mk.injEq] at h
            omega
          · split at h
            · split at h
              · simp at h
              · have := ih.2 _ _ _ node next h
                omega
            · simp at h
    · intro name params current node next h
      rw [walkParams] at h
      split at h
      · simp at h
      · rename_i token htoken
        have hlt : current < tokens.length := by
          by_contra hge
          rw [List.getElem?_eq_none (by omega)] at htoken
          cases htoken
        split at h
        · split at h
          · simp at h
          · simp at h
          · rename_i child mid hw
            have h1 := ih.1 _ _ _ hw
            have h2 := ih.2 _ _ _ node next h
            omega
        · simp only [Option.some.injEq, Except.ok.injEq, Prod.mk.injEq] at h
          omega

/-- With fuel beyond twice the number of tokens ahead, `walk` and its parameter loop
come to an end: they return or throw. -/
theorem walk_terminates (tokens : List Token) :
    ∀ fuel : Nat,
      (∀ current : Nat, 2 * (tokens.length - current) + 1 ≤ fuel →
        ∃ r, walk tokens fuel current = some r)
      ∧ (∀ (name : Str) (params : List Node) (current : Nat),
        2 * (tokens.length - current) + 2 ≤ fuel →
        ∃ r, walkParams tokens fuel name params current = some r) := by
  intro fuel
  induction fuel with
  | zero =>
    constructor
    · intro current h; omega
    · intro name params current h; omega
  | succ fuel ih =>
    constructor
    · intro current hf
      rw [walk]
      split
      · exact ⟨_, rfl⟩
      · rename_i token htoken
        have hlt : current < tokens.length := by
          by_contra hge
          rw [List.getElem?_eq_none (by omega)] at htoken
          cases htoken
        split
        · exact ⟨_, rfl⟩
        · split
          · exact ⟨_, rfl⟩
          · split
            · split
              · exact ⟨_, rfl⟩
              · exact ih.2 _ _ _ (by omega)
            · exact ⟨_, rfl⟩
    · intro name params current hf
      rw [walkParams]
      split
      · exact ⟨_, rfl⟩
      · rename_i token htoken
        have hlt : current < tokens.length := by
          by_contra hge
          rw [List.getElem?_eq_none (by omega)] at htoken
          cases htoken
        split
        · obtain ⟨r, hr⟩ := ih.1 current (by omega)
          rw [hr]
          cases r with
          | error e => exact ⟨_, rfl⟩
          | ok p =>
            obtain ⟨node, next⟩ := p
            have hp := (walk_progress tokens fuel).1 _ _ _ hr
            exact ih.2 _ _ _ (by omega)
        · exact ⟨_, rfl⟩

theorem parserLoop_terminates (tokens : List Token) :
    ∀ (fuel current : Nat) (body : List Node),
      2 * (tokens.length - current) + 2 ≤ fuel →
      ∃ r, parserLoop tokens fuel current body = some r := by
  intro fuel
  induction fuel with
  | zero => intro current body h; omega
  | succ fuel ih =>
    intro current body hf
    rw [parserLoop]
    split
    · obtain ⟨r, hr⟩ := (walk_terminates tokens fuel).1 current (by omega)
      rw [hr]
      cases r with
      | error e => exact ⟨_, rfl⟩
      | ok p =>
        obtain ⟨node, next⟩ := p
        have hp := (walk_progress tokens fuel).1 _ _ _ hr
        exact ih _ _ (by omega)
    · exact ⟨_, rfl⟩

theorem walk_mono (tokens : List Token) :
    ∀ fuel : Nat,
      (∀ (current : Nat) (r : Except JsError (Node × Nat)),
        walk tokens fuel current = some r → walk tokens (fuel + 1) current = some r)
      ∧ (∀ (name : Str) (params : List Node) (current : Nat) (r : Except JsError (Node × Nat)),
        walkParams tokens fuel name params current = some r →
        walkParams tokens (fuel + 1) name params current = some r) := by
  intro fuel
  induction fuel with
  | zero =>
    constructor
    · intro current r h; simp [walk] at h
    · intro name params current r h; simp [walkParams] at h
  | succ fuel ih =>
    constructor
    · intro current r h
      rw [walk] at h ⊢
      cases htok : tokens[current]? with
      | none => simp only [htok] at h ⊢; exact h
      | some token =>
        simp only [htok] at h ⊢
        by_cases h1 : token.type = .number
        · rw [if_pos h1] at h ⊢; exact h
        rw [if_neg h1] at h ⊢
        by_cases h2 : token.type = .string
        · rw [if_pos h2] at h ⊢; exact h
        rw [if_neg h2] at h ⊢
        by_cases h3 : token.type = .parentheses ∧ token.value = ['(']
        · rw [if_pos h3] at h ⊢
          cases hn : tokens[current + 1]? with
          | none => simp only [hn] at h ⊢; exact h
          | some nameToken =>
            simp only [hn] at h ⊢
            exact ih.2 _ _ _ _ h
        · rw [if_neg h3] at h ⊢; exact h
    · intro name params current r h
      rw [walkParams] at h ⊢
      cases htok : tokens[current]? with
      | none => simp only [htok] at h ⊢; exact h
      | some token =>
        simp only [htok] at h ⊢
        by_cases h1 : token.type ≠ .parentheses
            ∨ (token.type = .parentheses ∧ token.value ≠ [')'])
        · rw [if_pos h1] at h ⊢
          cases hw : walk tokens fuel current with
          | none => rw [hw] at h; simp at h
          | some x =>
            rw [hw] at h
            rw [ih.1 _ _ hw]
            cases x with
            | error e => exact h
            | ok p =>
              obtain ⟨node, next⟩ := p
              exact ih.2 _ _ _ _ h
        · rw [if_neg h1] at h ⊢; exact h

theorem parserLoop_mono (tokens : List Token) :
    ∀ (fuel current : Nat) (body : List Node) (r : Except JsError Node),
      parserLoop tokens fuel current body = some r →
      parserLoop tokens (fuel + 1) current body = some r := by
  intro fuel
  induction fuel with
  | zero => intro current body r h; simp [parserLoop] at h
  | succ fuel ih =>
    intro current body r h
    rw [parserLoop] at h ⊢
    split
    · rename_i h1
      rw [if_pos h1] at h
      cases hw : walk tokens fuel current with
      | none => rw [hw] at h; simp at h
      | some x =>
        rw [hw] at h
        rw [(walk_mono tokens fuel).1 _ _ hw]
        cases x with
        | error e => exact h
        | ok p =>
          obtain ⟨node, next⟩ := p
          exact ih _ _ _ h
    · rename_i h1; rw [if_neg h1] at h; exact h

theorem parserLoop_mono_add (tokens : List Token) (fuel current : Nat) (body : List Node)
    (r : Except JsError Node) (h : parserLoop tokens fuel current body = some r) (k : Nat) :
    parserLoop tokens (fuel + k) current body = some r := by
  induction k with
  | zero => exact h
  | succ k ih => exact parserLoop_mono tokens _ _ _ _ ih

/-! ## The parser comes to an end -/

/-- C18: on every finite sequence of tokens `parser` comes to an end, with fuel from
twice the number of tokens plus two on: it returns a `Program` or throws an error (first
part).  A call of `walk` that returns has moved the cursor forward by at least one token
and not beyond the end, and so has its parameter loop (second and third part); on an
opening parenthesis `walk` has moved the cursor by two tokens when it enters the
parameter loop, the only place from which it is called again (fourth part). -/
theorem parser_terminates (tokens : List Token) :
    (∃ r : Except JsError Node,
      (∀ m : Nat, parser (2 * tokens.length + 2 + m) tokens = some r)
      ∧ ∀ ast : Node, r = .ok ast → ∃ body : List Node, ast = .Program body)
    ∧ (∀ (fuel current : Nat) (node : Node) (next : Nat),
        walk tokens fuel current = some (.ok (node, next)) →
          current < next ∧ next ≤ tokens.length)
    ∧ (∀ (fuel : Nat) (name : Str) (params : List Node) (current : Nat) (node : Node)
        (next : Nat),
        walkParams tokens fuel name params current = some (.ok (node, next)) →
          current < next ∧ next ≤ tokens.length)
    ∧ (∀ (fuel current : Nat) (nameToken : Token),
        tokens[current]? = some ⟨.parentheses, ['(']⟩ →
        tokens[current + 1]? = some nameToken →
        walk tokens (fuel + 1) current
          = walkParams tokens fuel nameToken.value [] (current + 2)) := by
  refine ⟨?_, fun fuel => (walk_progress tokens fuel).1,
    fun fuel => (walk_progress tokens fuel).2, ?_⟩
  · obtain ⟨r, hr⟩ := parserLoop_terminates tokens (2 * tokens.length + 2) 0 []
      (by omega)
    refine ⟨r, fun m => parserLoop_mono_add tokens _ 0 [] r hr m, ?_⟩
    intro ast hast
    subst hast
    obtain ⟨body, hb⟩ := parser_returns_trees (2 * tokens.length + 2) tokens ast hr
    exact ⟨_, hb⟩
  · intro fuel current nameToken h1 h2
    rw [walk, h1]
    simp [h2]

/-- C18 at the tokens of `(a 1)`: `parser` returns, and the call of `walk` at the start
moves the cursor from 0 to 4. -/
theorem parser_terminates_witness :
    walk [⟨.parentheses, ['(']⟩, ⟨.name, ['a']⟩, ⟨.number, ['1']⟩, ⟨.parentheses, [')']⟩] 3 0
      = some (.ok (.CallExpression ['a'] [.NumberLiteral ['1']], 4))
    ∧ 0 < 4
    ∧ 4 ≤ [(⟨.parentheses, ['(']⟩ : Token), ⟨.name, ['a']⟩, ⟨.number, ['1']⟩,
        ⟨.parentheses, [')']⟩].length :=
  ⟨rfl, (parser_terminates
    [⟨.parentheses, ['(']⟩, ⟨.name, ['a']⟩, ⟨.number, ['1']⟩, ⟨.parentheses, [')']⟩]).2.1
    3 0 (.CallExpression ['a'] [.NumberLiteral ['1']]) 4 rfl⟩

end Transfer
